import Mathlib

/-!
Runtime support of the morphological analyser: path utilities, request flags,
resource resolution, content fingerprint and the reader-writer lock.

Definitions follow `src/Sources/utils.cc` and `src/Includes/mecab/thread.h` statement by
statement. A `std::string` is a list of characters, `uint32_t` arithmetic is arithmetic on
natural numbers reduced modulo `2 ^ 32`, and the lock is a transition system whose steps are
the single accesses to its two shared members.
-/

namespace MeCab

/-! Definitions. -/

/-- A `std::string`, as the sequence of its characters. -/
abbrev Str := List Char

/-- Model of `create_filename`:
`s = path; if (s.size() && s[s.size() - 1] != '/') s += '/'; s += file; return s`. -/
def create_filename (path file : Str) : Str :=
  let s := path
  let s := if s.length ≠ 0 ∧ s[s.length - 1]? ≠ some '/' then s ++ ['/'] else s
  s ++ file

/-- The loop shared by `remove_filename` and `remove_pathname`,
`for (; len >= 0 && path.at(len) != '/'; --len);`, entered with `len = k - 1`: the value of
`len` when the loop is left, `-1` when no `'/'` was met. -/
def scan_back (path : Str) : Nat → Int
  | 0 => -1
  | k + 1 => if path[k]? = some '/' then (k : Int) else scan_back path k

/-- Model of `remove_filename`: `len` starts at `path.size() - 1` (a size that fits an `int`),
the loop runs, and `path.substr(0, len)` is returned when `len > 0`, `"."` otherwise. -/
def remove_filename (path : Str) : Str :=
  let len := scan_back path path.length
  if len > 0 then path.take len.toNat else ['.']

/-- Model of `remove_pathname`: `path.substr(len + 1, path.size() - len)` when `len > 0`. -/
def remove_pathname (path : Str) : Str :=
  let len := scan_back path path.length
  if len > 0 then (path.drop (len.toNat + 1)).take (path.length - len.toNat) else ['.']

/-- Whether `source` occurs in `s` at offset 0 (`s.compare(0, source.size(), source) == 0`). -/
def starts_with : Str → Str → Bool
  | _, [] => true
  | [], _ :: _ => false
  | c :: cs, d :: ds => c == d && starts_with cs ds

/-- Model of `std::string::find(source)`: the least offset at which `source` occurs in `s`,
`none` standing for `npos`. The second argument is the offset of `s` in the whole string. -/
def str_find (source : Str) : Str → Nat → Option Nat
  | [], i => if source = [] then some i else none
  | c :: cs, i => if starts_with (c :: cs) source then some i else str_find source cs (i + 1)

/-- Model of `replace_string`: only the first occurrence of `source` is replaced. -/
def replace_string (string source destination : Str) : Str :=
  match str_find source string 0 with
  | some pos => string.take pos ++ destination ++ string.drop (pos + source.length)
  | none => string

/-- The request-type flags of `mecab.h`, a header that is not among the sources:
they are parameters of the model. -/
structure RequestFlags where
  MECAB_ONE_BEST : Nat
  MECAB_NBEST : Nat
  MECAB_PARTIAL : Nat
  MECAB_MARGINAL_PROB : Nat
  MECAB_ALL_MORPHS : Nat
  MECAB_ALLOCATE_SENTENCE : Nat

/-- The values `mecab.h` gives the flags upstream. -/
def mecabFlags : RequestFlags :=
  { MECAB_ONE_BEST := 1, MECAB_NBEST := 2, MECAB_PARTIAL := 4, MECAB_MARGINAL_PROB := 8,
    MECAB_ALL_MORPHS := 32, MECAB_ALLOCATE_SENTENCE := 64 }

/-- The options `load_request_type` reads from its `Param` argument:
`param.get<bool>("allocate-sentence")`, `("partial")`, `("all-morphs")`, `("marginal")`,
`param.get<int>("nbest")` and `param.get<int>("lattice-level")`. -/
structure RequestOptions where
  allocate_sentence : Bool
  partial_parse : Bool
  all_morphs : Bool
  marginal : Bool
  nbest : Int
  lattice_level : Int

/-- Model of `load_request_type`, statement by statement. -/
def load_request_type (F : RequestFlags) (param : RequestOptions) : Nat :=
  let request_type := F.MECAB_ONE_BEST
  let request_type :=
    if param.allocate_sentence then request_type ||| F.MECAB_ALLOCATE_SENTENCE else request_type
  let request_type :=
    if param.partial_parse then request_type ||| F.MECAB_PARTIAL else request_type
  let request_type :=
    if param.all_morphs then request_type ||| F.MECAB_ALL_MORPHS else request_type
  let request_type :=
    if param.marginal then request_type ||| F.MECAB_MARGINAL_PROB else request_type
  let nbest := param.nbest
  let request_type := if nbest ≥ 2 then request_type ||| F.MECAB_NBEST else request_type
  let lattice_level := param.lattice_level
  let request_type := if lattice_level ≥ 1 then request_type ||| F.MECAB_NBEST else request_type
  let request_type :=
    if lattice_level ≥ 2 then request_type ||| F.MECAB_MARGINAL_PROB else request_type
  request_type

/-- What `load_dictionary_resource` sees of the process environment: `getenv("HOME")`,
`getenv("MECABRC")` (`none` for a null pointer) and whether `std::ifstream ifs(s)` opens. -/
structure Env where
  HOME : Option Str
  MECABRC : Option Str
  canOpen : Str → Bool

/-- The compile-time constants of `mecab/common.h` used by `load_dictionary_resource`;
the header is not among the sources, so they are parameters. -/
structure Consts where
  MECAB_DEFAULT_RC : Str
  DICRC : Str

/-- The operations of the `Param` class (`mecab/param.h`, not among the sources) that
`load_dictionary_resource` calls, over an abstract parameter store `P`. -/
structure ParamOps (P : Type) where
  getStr : P → Str → Str
  set : P → Str → Str → P
  parseFile : P → Str → Bool × P

/-- The externally visible actions of `load_dictionary_resource`, in program order. -/
inductive Action where
  | parse (file : Str)
  | setDicdir (value : Str)
  deriving DecidableEq

/-- Lines 174-196 of `load_dictionary_resource`: the rcfile that will be parsed. -/
def resolve_rcfile (K : Consts) (env : Env) (rcfile : Str) : Str :=
  let rcfile :=
    if rcfile.isEmpty then
      match env.HOME with
      | some homedir =>
        let s := create_filename homedir ".mecabrc".toList
        if env.canOpen s then s else rcfile
      | none => rcfile
    else rcfile
  let rcfile :=
    if rcfile.isEmpty then
      match env.MECABRC with
      | some rcenv => rcenv
      | none => rcfile
    else rcfile
  let rcfile := if rcfile.isEmpty then K.MECAB_DEFAULT_RC else rcfile
  rcfile

/-- Lines 202-207 of `load_dictionary_resource`: the dictionary directory computed from the
configured value `dicdir` and the rcfile that was parsed. -/
def resolve_dicdir (rcfile dicdir : Str) : Str :=
  let dicdir := if dicdir.isEmpty then ".".toList else dicdir
  let rcpath := remove_filename rcfile
  replace_string dicdir "$(rcpath)".toList rcpath

/-- Model of `load_dictionary_resource`: the returned `bool`, the parameter store it leaves
behind and the actions it performed. -/
def load_dictionary_resource {P : Type} (K : Consts) (ops : ParamOps P) (env : Env)
    (param : P) : Bool × P × List Action :=
  let rcfile := resolve_rcfile K env (ops.getStr param "rcfile".toList)
  let r := ops.parseFile param rcfile
  if !r.1 then (false, r.2, [Action.parse rcfile])
  else
    let param := r.2
    let dicdir := resolve_dicdir rcfile (ops.getStr param "dicdir".toList)
    let param := ops.set param "dicdir".toList dicdir
    let dicrc := create_filename dicdir K.DICRC
    let r2 := ops.parseFile param dicrc
    (r2.1, r2.2, [Action.parse rcfile, Action.setDicdir dicdir, Action.parse dicrc])

/-- A small parameter store for running the model: a key-value list, with a parser that
succeeds exactly on the files listed in `files` and reads nothing from them. -/
def listOps (files : List Str) : ParamOps (List (Str × Str)) where
  getStr := fun p k => (p.lookup k).getD []
  set := fun p k v => (k, v) :: p
  parseFile := fun p f => (decide (f ∈ files), p)

/-- The constants of the upstream build. -/
def upstreamConsts : Consts := ⟨"/usr/local/etc/mecabrc".toList, "dicrc".toList⟩

/-- Model of `to_lower`: every character from `'A'` to `'Z'` becomes `c + 'a' - 'A'`, the
others are kept. -/
def to_lower (text : Str) : Str :=
  text.map (fun c =>
    if 'A' ≤ c ∧ c ≤ 'Z' then Char.ofNat (c.toNat + 'a'.toNat - 'A'.toNat) else c)

/-- The charset constants `decode_charset` returns, by name. The header that declares them
is not among the sources. -/
inductive Charset where
  | UTF8
  | UTF16
  | UTF16BE
  | UTF16LE
  | ASCII
  deriving DecidableEq

/-- Model of `decode_charset`: the chain of comparisons on the lower-cased name. -/
def decode_charset (charset : Str) : Charset :=
  let tmp := charset
  let tmp := to_lower tmp
  if tmp = "utf8".toList ∨ tmp = "utf_8".toList ∨ tmp = "utf-8".toList then Charset.UTF8
  else if tmp = "utf16".toList ∨ tmp = "utf_16".toList ∨ tmp = "utf-16".toList then
    Charset.UTF16
  else if tmp = "utf16be".toList ∨ tmp = "utf_16be".toList ∨ tmp = "utf-16be".toList then
    Charset.UTF16BE
  else if tmp = "utf16le".toList ∨ tmp = "utf_16le".toList ∨ tmp = "utf-16le".toList then
    Charset.UTF16LE
  else if tmp = "ascii".toList then Charset.ASCII
  else Charset.UTF8

/-- The loop of `escape_csv_element` over the characters of the field not yet visited:
`if ((*w)[j] == '"') tmp += '"'; tmp += (*w)[j];`. -/
def escape_loop : Str → Str → Str
  | [], tmp => tmp
  | c :: rest, tmp =>
    let tmp := if c = '"' then tmp ++ ['"'] else tmp
    let tmp := tmp ++ [c]
    escape_loop rest tmp

/-- Model of `escape_csv_element`: the returned `bool` and the content of `*w` afterwards. -/
def escape_csv_element (w : Str) : Bool × Str :=
  if w.contains ',' ∨ w.contains '"' then
    let tmp := ['"']
    let tmp := escape_loop w tmp
    let tmp := tmp ++ ['"']
    (true, tmp)
  else (true, w)

/-- The field with every `'"'` doubled and every other character kept, in order. -/
def double_quotes : Str → Str
  | [] => []
  | c :: rest => if c = '"' then '"' :: '"' :: double_quotes rest else c :: double_quotes rest

/-- The body of the `readdir` loop of `enum_csv_dictionaries` over the entries still to
come: an entry of at least five characters whose last four, lower-cased, are `".csv"` is
pushed as `create_filename(path, tmp)`. -/
def enum_loop (path : Str) : List Str → List Str → List Str
  | [], dics => dics
  | tmp :: rest, dics =>
    let dics :=
      if tmp.length ≥ 5 then
        let ext := (tmp.drop (tmp.length - 4)).take 4
        if to_lower ext = ".csv".toList then dics ++ [create_filename path tmp] else dics
      else dics
    enum_loop path rest dics

/-- `std::vector::clear()`. -/
def vector_clear (_v : List Str) : List Str := []

/-- Model of `enum_csv_dictionaries`: `dir` is what `opendir` and the `readdir` calls
deliver, `none` when the directory cannot be opened; `dics` is the content of the output
vector at the call. The result is the vector afterwards, `none` when `CHECK_DIE` aborts. -/
def enum_csv_dictionaries (path : Str) (dir : Option (List Str)) (dics : List Str) :
    Option (List Str) :=
  let dics := vector_clear dics
  match dir with
  | none => none
  | some entries => some (enum_loop path entries dics)

/-- A `uint8_t`. -/
abbrev Byte := Fin 256

/-- A computation that reads the key: it threads the list of byte offsets read so far and
fails (`none`) on a read outside the buffer. -/
def Rd (α : Type) : Type := List Int → Option (α × List Int)

/-- A computation that reads nothing. -/
def Rd.pure {α : Type} (a : α) : Rd α := fun log => some (a, log)

/-- Sequencing: the second computation continues the log of the first, and a failed read
ends both. -/
def Rd.bind {α β : Type} (x : Rd α) (f : α → Rd β) : Rd β := fun log =>
  match x log with
  | none => none
  | some (a, log1) => f a log1

instance : Monad Rd where
  pure := Rd.pure
  bind := Rd.bind

/-- The byte `data[idx]`, recorded in the log; `none` when `idx` is outside `[0, size)`. -/
def readByte (data : List Byte) (idx : Int) : Rd Nat := fun log =>
  if 0 ≤ idx then
    match data[idx.toNat]? with
    | some b => some (b.val, log ++ [idx])
    | none => none
  else none

/-- Two to the thirty-second: `uint32_t` arithmetic is arithmetic modulo this. -/
def W32 : Nat := 4294967296

/-- `rotl32(x, r) = (x << r) | (x >> (32 - r))` on `uint32_t`. -/
def rotl32 (x r : Nat) : Nat := ((x <<< r) % W32) ||| (x >>> (32 - r))

/-- `getblock(p, i)` is `p[i]` for a `const uint32_t* p`: the four bytes at byte offset
`p + 4 * i`, assembled in little-endian order (the function is the x86 variant). -/
def getblock (data : List Byte) (p : Int) (i : Int) : Rd Nat := do
  let b0 ← readByte data (p + 4 * i)
  let b1 ← readByte data (p + 4 * i + 1)
  let b2 ← readByte data (p + 4 * i + 2)
  let b3 ← readByte data (p + 4 * i + 3)
  pure (b0 + b1 * 256 + b2 * 65536 + b3 * 16777216)

/-- Finalization mix. -/
def fmix (h : Nat) : Nat :=
  let h := h ^^^ (h >>> 16)
  let h := (h * 0x85ebca6b) % W32
  let h := h ^^^ (h >>> 13)
  let h := (h * 0xc2b2ae35) % W32
  let h := h ^^^ (h >>> 16)
  h

/-- The constants `c1 .. c4` of `MurmurHash3_x86_128`. -/
def c1 : Nat := 0x239b961b
def c2 : Nat := 0xab0e9789
def c3 : Nat := 0x38b34ae5
def c4 : Nat := 0xa1e38b93

/-- The four 32-bit lanes `h1 .. h4`. -/
structure Lanes where
  h1 : Nat
  h2 : Nat
  h3 : Nat
  h4 : Nat
  deriving DecidableEq

/-- The scrambling of a key word shared by the body and the tail:
`k *= ca; k = ROTL32(k, r); k *= cb`. -/
def mixk (k ca r cb : Nat) : Nat := (rotl32 ((k * ca) % W32) r * cb) % W32

/-- One iteration of the body loop applied to the lanes, given the four words read. -/
def blockMix (h : Lanes) (k1 k2 k3 k4 : Nat) : Lanes :=
  let k1 := mixk k1 c1 15 c2
  let h1 := h.h1 ^^^ k1
  let h1 := rotl32 h1 19
  let h1 := (h1 + h.h2) % W32
  let h1 := (h1 * 5 + 0x561ccd1b) % W32
  let k2 := mixk k2 c2 16 c3
  let h2 := h.h2 ^^^ k2
  let h2 := rotl32 h2 17
  let h2 := (h2 + h.h3) % W32
  let h2 := (h2 * 5 + 0x0bcaa747) % W32
  let k3 := mixk k3 c3 17 c4
  let h3 := h.h3 ^^^ k3
  let h3 := rotl32 h3 15
  let h3 := (h3 + h.h4) % W32
  let h3 := (h3 * 5 + 0x96cd1c35) % W32
  let k4 := mixk k4 c4 18 c1
  let h4 := h.h4 ^^^ k4
  let h4 := rotl32 h4 13
  let h4 := (h4 + h1) % W32
  let h4 := (h4 * 5 + 0x32ac3b17) % W32
  ⟨h1, h2, h3, h4⟩

/-- The body loop `for (int i = -nblocks; i; i++)`, entered with `i = -k`:
`blocks` is the byte offset `nblocks * 16` of the pointer `blocks`. -/
def blockLoop (data : List Byte) (blocks : Int) : Nat → Lanes → Rd Lanes
  | 0, h => pure h
  | k + 1, h => do
    let i : Int := -((k : Int) + 1)
    let k1 ← getblock data blocks (i * 4 + 0)
    let k2 ← getblock data blocks (i * 4 + 1)
    let k3 ← getblock data blocks (i * 4 + 2)
    let k4 ← getblock data blocks (i * 4 + 3)
    blockLoop data blocks k (blockMix h k1 k2 k3 k4)

/-- The variables the tail switch works on. -/
structure TailState where
  k1 : Nat
  k2 : Nat
  k3 : Nat
  k4 : Nat
  h : Lanes
  deriving DecidableEq

/-! The labels of `switch (len & 15)`. Each label runs its own statements and then falls
through to the next lower label; `tail` is the byte offset of the pointer `tail`. -/

def case1 (data : List Byte) (tail : Int) (s : TailState) : Rd TailState := do
  let b ← readByte data (tail + 0)
  let k1 := s.k1 ^^^ (b <<< 0)
  let k1 := mixk k1 c1 15 c2
  pure { s with k1 := k1, h := { s.h with h1 := s.h.h1 ^^^ k1 } }

def case2 (data : List Byte) (tail : Int) (s : TailState) : Rd TailState := do
  let b ← readByte data (tail + 1)
  case1 data tail { s with k1 := s.k1 ^^^ (b <<< 8) }

def case3 (data : List Byte) (tail : Int) (s : TailState) : Rd TailState := do
  let b ← readByte data (tail + 2)
  case2 data tail { s with k1 := s.k1 ^^^ (b <<< 16) }

def case4 (data : List Byte) (tail : Int) (s : TailState) : Rd TailState := do
  let b ← readByte data (tail + 3)
  case3 data tail { s with k1 := s.k1 ^^^ (b <<< 24) }

def case5 (data : List Byte) (tail : Int) (s : TailState) : Rd TailState := do
  let b ← readByte data (tail + 4)
  let k2 := s.k2 ^^^ (b <<< 0)
  let k2 := mixk k2 c2 16 c3
  case4 data tail { s with k2 := k2, h := { s.h with h2 := s.h.h2 ^^^ k2 } }

def case6 (data : List Byte) (tail : Int) (s : TailState) : Rd TailState := do
  let b ← readByte data (tail + 5)
  case5 data tail { s with k2 := s.k2 ^^^ (b <<< 8) }

def case7 (data : List Byte) (tail : Int) (s : TailState) : Rd TailState := do
  let b ← readByte data (tail + 6)
  case6 data tail { s with k2 := s.k2 ^^^ (b <<< 16) }

def case8 (data : List Byte) (tail : Int) (s : TailState) : Rd TailState := do
  let b ← readByte data (tail + 7)
  case7 data tail { s with k2 := s.k2 ^^^ (b <<< 24) }

def case9 (data : List Byte) (tail : Int) (s : TailState) : Rd TailState := do
  let b ← readByte data (tail + 8)
  let k3 := s.k3 ^^^ (b <<< 0)
  let k3 := mixk k3 c3 17 c4
  case8 data tail { s with k3 := k3, h := { s.h with h3 := s.h.h3 ^^^ k3 } }

def case10 (data : List Byte) (tail : Int) (s : TailState) : Rd TailState := do
  let b ← readByte data (tail + 9)
  case9 data tail { s with k3 := s.k3 ^^^ (b <<< 8) }

def case11 (data : List Byte) (tail : Int) (s : TailState) : Rd TailState := do
  let b ← readByte data (tail + 10)
  case10 data tail { s with k3 := s.k3 ^^^ (b <<< 16) }

def case12 (data : List Byte) (tail : Int) (s : TailState) : Rd TailState := do
  let b ← readByte data (tail + 11)
  case11 data tail { s with k3 := s.k3 ^^^ (b <<< 24) }

def case13 (data : List Byte) (tail : Int) (s : TailState) : Rd TailState := do
  let b ← readByte data (tail + 12)
  let k4 := s.k4 ^^^ (b <<< 0)
  let k4 := mixk k4 c4 18 c1
  case12 data tail { s with k4 := k4, h := { s.h with h4 := s.h.h4 ^^^ k4 } }

def case14 (data : List Byte) (tail : Int) (s : TailState) : Rd TailState := do
  let b ← readByte data (tail + 13)
  case13 data tail { s with k4 := s.k4 ^^^ (b <<< 8) }

def case15 (data : List Byte) (tail : Int) (s : TailState) : Rd TailState := do
  let b ← readByte data (tail + 14)
  case14 data tail { s with k4 := s.k4 ^^^ (b <<< 16) }

/-- The statement `switch (len & 15)`: there is no label `0` and no default. -/
def tailSwitch (data : List Byte) (tail : Int) (sel : Int) (s : TailState) : Rd TailState :=
  match sel with
  | 15 => case15 data tail s
  | 14 => case14 data tail s
  | 13 => case13 data tail s
  | 12 => case12 data tail s
  | 11 => case11 data tail s
  | 10 => case10 data tail s
  | 9 => case9 data tail s
  | 8 => case8 data tail s
  | 7 => case7 data tail s
  | 6 => case6 data tail s
  | 5 => case5 data tail s
  | 4 => case4 data tail s
  | 3 => case3 data tail s
  | 2 => case2 data tail s
  | 1 => case1 data tail s
  | _ => pure s

/-- The finalization of `MurmurHash3_x86_128`; `len32` is `len` converted to `uint32_t`. -/
def finalize (h : Lanes) (len32 : Nat) : Lanes :=
  let h1 := h.h1 ^^^ len32
  let h2 := h.h2 ^^^ len32
  let h3 := h.h3 ^^^ len32
  let h4 := h.h4 ^^^ len32
  let h1 := (h1 + h2) % W32
  let h1 := (h1 + h3) % W32
  let h1 := (h1 + h4) % W32
  let h2 := (h2 + h1) % W32
  let h3 := (h3 + h1) % W32
  let h4 := (h4 + h1) % W32
  let h1 := fmix h1
  let h2 := fmix h2
  let h3 := fmix h3
  let h4 := fmix h4
  let h1 := (h1 + h2) % W32
  let h1 := (h1 + h3) % W32
  let h1 := (h1 + h4) % W32
  let h2 := (h2 + h1) % W32
  let h3 := (h3 + h1) % W32
  let h4 := (h4 + h1) % W32
  ⟨h1, h2, h3, h4⟩

/-- Model of `MurmurHash3_x86_128(key, len, seed, out)`: the four words written to `out`.
`len / 16` is C++ division (towards zero); for a negative `nblocks` the loop counter would
start positive and count up past `INT_MAX`, which has no defined behaviour (`none`). -/
def MurmurHash3_x86_128 (data : List Byte) (len : Int) (seed : Nat) : Rd Lanes := do
  let nblocks : Int := Int.tdiv len 16
  if nblocks < 0 then fun _ => none
  else
    let h ← blockLoop data (nblocks * 16) nblocks.toNat ⟨seed, seed, seed, seed⟩
    let t ← tailSwitch data (nblocks * 16) (len % 16) ⟨0, 0, 0, 0, h⟩
    pure (finalize t.h (len % (W32 : Int)).toNat)

/-- Conversion of a `size_t` to `int` (two's complement wrap-around). -/
def toInt32 (n : Nat) : Int :=
  if n % W32 < 2147483648 then ((n % W32 : Nat) : Int) else ((n % W32 : Nat) : Int) - (W32 : Int)

/-- The seed `fingerprint` passes to the hash. -/
def kFingerPrint32Seed : Nat := 0xfd14deff

/-- Model of `fingerprint(str, size)` with `size = str.size()`: `result[0]`, the first eight
bytes of the digest read as a little-endian `uint64_t`; `none` if a read leaves the buffer. -/
def fingerprint (str : List Byte) : Option Nat :=
  match MurmurHash3_x86_128 str (toInt32 str.length) kFingerPrint32Seed [] with
  | some (out, _) => some (out.h1 + out.h2 * W32)
  | none => none

/-- The offsets of the full 16-byte blocks of a key of `n` bytes, `0 .. 16 * (n / 16) - 1`,
in ascending order. -/
def blockReads (n : Nat) : List Int := (List.range (16 * (n / 16))).map (Nat.cast : Nat → Int)

/-- The offsets of the `n mod 16` bytes after the last full block of a key of `n` bytes, in
the order of the fall-through of the tail switch (highest first). -/
def tailReads (n : Nat) : List Int :=
  ((List.range (n % 16)).map (fun j => ((16 * (n / 16) + j : Nat) : Int))).reverse

/-- The bytes of an ASCII string. -/
def bytesOf (s : String) : List Byte := s.toList.map (fun c => Fin.ofNat c.toNat)

/-- The tail word `k_j` as the specification gives it, `j` counted from 1: the sum over `i` in
`0 .. 3` of `tail[4 (j - 1) + i] << (8 * i)`, an absent byte taken as 0. -/
def tailWord (tail : List Byte) (j : Nat) : Nat :=
  ((tail.getD (4 * (j - 1)) 0).val <<< 0) + ((tail.getD (4 * (j - 1) + 1) 0).val <<< 8)
    + ((tail.getD (4 * (j - 1) + 2) 0).val <<< 16) + ((tail.getD (4 * (j - 1) + 3) 0).val <<< 24)

/-- Rotation of a 32-bit word to the left by `r`, written as arithmetic and not with the
code's `rotl32`: the low `32 - r` bits are moved up by `r` places, the high `r` bits are moved
down to the bottom. -/
def rotateLeft32 (x r : Nat) : Nat := (x * 2 ^ r) % 2 ^ 32 + x / 2 ^ (32 - r)

/-- The mix of a tail word as the specification gives it, written without the code's `mixk`:
multiply by `ca`, rotate to the left by `r`, multiply by `cb`, on 32-bit words. -/
def tailMix (k ca r cb : Nat) : Nat := (rotateLeft32 ((k * ca) % 2 ^ 32) r * cb) % 2 ^ 32

/-- The tail handling as the specification gives it, one explicit case per lane: exactly when
the tail has more than `4 (j - 1)` bytes, word `j` is multiplied, rotated by 15, 16, 17 or 18,
multiplied, and xored into lane `j`. The multipliers are written as numbers: `0x239b961b` and
`0xab0e9789` for lane 1, `0xab0e9789` and `0x38b34ae5` for lane 2, `0x38b34ae5` and
`0xa1e38b93` for lane 3, `0xa1e38b93` and `0x239b961b` for lane 4. -/
def tailExplicit (h : Lanes) (tail : List Byte) : Lanes :=
  let r := tail.length
  ⟨if r > 0 then h.h1 ^^^ tailMix (tailWord tail 1) 0x239b961b 15 0xab0e9789 else h.h1,
   if r > 4 then h.h2 ^^^ tailMix (tailWord tail 2) 0xab0e9789 16 0x38b34ae5 else h.h2,
   if r > 8 then h.h3 ^^^ tailMix (tailWord tail 3) 0x38b34ae5 17 0xa1e38b93 else h.h3,
   if r > 12 then h.h4 ^^^ tailMix (tailWord tail 4) 0xa1e38b93 18 0x239b961b else h.h4⟩

/-- The two families of atomic primitives `thread.h` selects between. -/
inductive AtomicOps where
  | gcc
  | osx
  deriving DecidableEq

/-- `atomic_add(a, b)`: `__sync_add_and_fetch(a, b)` or `OSAtomicAdd32(b, a)`; both add `b`
to `*a` atomically. The value is the new content of `*a`. -/
def atomic_add (a b : Int) : Int := a + b

/-- `compare_and_swap(a, b, c)` on a cell holding `a`: the value of the macro and the new
content of the cell. `__sync_val_compare_and_swap` returns the content found before the
operation; `OSAtomicCompareAndSwapInt` returns whether the swap was made (1 or 0). -/
def compare_and_swap (ops : AtomicOps) (a b c : Int) : Int × Int :=
  match ops with
  | .gcc => (a, if a = b then c else a)
  | .osx => (if a = b then 1 else 0, if a = b then c else a)

/-- The write-held flag, bit 0 of `l_`. -/
def kWaFlag : Int := 1
/-- The increment of `l_` per reader. -/
def kRcIncr : Int := 2

/-- The data members of `read_write_mutex`. They are kept as unbounded integers: a `long` or
`int` member overflows only with more than `2 ^ 30` threads inside the lock. -/
structure read_write_mutex where
  l_ : Int
  write_pending_ : Int
  deriving DecidableEq

/-- Where a thread stands in the member functions of `read_write_mutex`. Each constructor is
the program point before the next access to the shared members. -/
inductive Pc where
  /-- outside the lock, holding nothing -/
  | idle
  /-- in `write_lock`, after `atomic_add(&write_pending_, 1)`, at the `compare_and_swap` loop -/
  | w_spin
  /-- `write_lock` has returned, `write_unlock` not yet called -/
  | w_held
  /-- in `write_unlock`, after `atomic_add(&l_, -kWaFlag)` -/
  | w_unlock
  /-- in `read_lock`, at `while (write_pending_ > 0)` -/
  | r_wait
  /-- in `read_lock`, past the first loop, before `atomic_add(&l_, kRcIncr)` -/
  | r_incr
  /-- in `read_lock`, at `while ((l_ & kWaFlag) != 0)` -/
  | r_spin
  /-- `read_lock` has returned, `read_unlock` not yet called -/
  | r_held
  deriving DecidableEq

/-- What an idle thread does next. -/
inductive Op where
  | write
  | read
  deriving DecidableEq

/-- A mutex shared by the threads `0 .. pcs.length - 1`. -/
structure Sys where
  m : read_write_mutex
  pcs : List Pc
  deriving DecidableEq

/-- The constructor `read_write_mutex() : l_(0), write_pending_(0)` and `n` idle threads. -/
def Sys.init (n : Nat) : Sys := ⟨⟨0, 0⟩, List.replicate n Pc.idle⟩

/-- One atomic step of thread `t`: its next access to the shared members. An idle thread calls
`write_lock` or `read_lock` as `op` says; a thread that holds the lock calls the matching
unlock. A loop whose condition holds leaves the thread where it is (`yield_processor()`).
`l_ % 2 ≠ 0` is `(l_ & kWaFlag) != 0`. A step of a thread that does not exist changes
nothing. -/
def step (ops : AtomicOps) (s : Sys) (t : Nat) (op : Op) : Sys :=
  match s.pcs[t]? with
  | none => s
  | some Pc.idle =>
    match op with
    | Op.write =>
      ⟨{ s.m with write_pending_ := atomic_add s.m.write_pending_ 1 }, s.pcs.set t Pc.w_spin⟩
    | Op.read => ⟨s.m, s.pcs.set t Pc.r_wait⟩
  | some Pc.w_spin =>
    let r := compare_and_swap ops s.m.l_ 0 kWaFlag
    if r.1 ≠ 0 then ⟨{ s.m with l_ := r.2 }, s.pcs⟩
    else ⟨{ s.m with l_ := r.2 }, s.pcs.set t Pc.w_held⟩
  | some Pc.w_held =>
    ⟨{ s.m with l_ := atomic_add s.m.l_ (-kWaFlag) }, s.pcs.set t Pc.w_unlock⟩
  | some Pc.w_unlock =>
    ⟨{ s.m with write_pending_ := atomic_add s.m.write_pending_ (-1) }, s.pcs.set t Pc.idle⟩
  | some Pc.r_wait =>
    if s.m.write_pending_ > 0 then s else ⟨s.m, s.pcs.set t Pc.r_incr⟩
  | some Pc.r_incr =>
    ⟨{ s.m with l_ := atomic_add s.m.l_ kRcIncr }, s.pcs.set t Pc.r_spin⟩
  | some Pc.r_spin =>
    if s.m.l_ % 2 ≠ 0 then s else ⟨s.m, s.pcs.set t Pc.r_held⟩
  | some Pc.r_held =>
    ⟨{ s.m with l_ := atomic_add s.m.l_ (-kRcIncr) }, s.pcs.set t Pc.idle⟩

/-- An interleaving: the threads scheduled one after the other. -/
def run (ops : AtomicOps) (s : Sys) : List (Nat × Op) → Sys
  | [] => s
  | (t, op) :: rest => run ops (step ops s t op) rest

/-- Whether a thread is between the increment and the decrement of `write_pending_`. -/
def Pc.writing : Pc → Bool
  | Pc.w_spin => true
  | Pc.w_held => true
  | Pc.w_unlock => true
  | _ => false

/-- Whether a thread is in `read_lock` past the first loop, or holds the lock as a reader. -/
def Pc.reading : Pc → Bool
  | Pc.r_incr => true
  | Pc.r_spin => true
  | Pc.r_held => true
  | _ => false

/-- The invariant behind writer exclusion: at most one thread is past a returned
`write_lock`, and while one is, bit 0 of `l_` is set. -/
structure HeldInv (s : Sys) : Prop where
  uniq : ∀ a b : Nat, s.pcs[a]? = some Pc.w_held → s.pcs[b]? = some Pc.w_held → a = b
  odd : ∀ a : Nat, s.pcs[a]? = some Pc.w_held → s.m.l_ % 2 = 1

/-- The counter `write_pending_` is the number of threads between its increment in
`write_lock` and its decrement in `write_unlock`. -/
def PendInv (s : Sys) : Prop := s.m.write_pending_ = ((s.pcs.countP Pc.writing : Nat) : Int)

/-- Thread `r` is not past the first loop of `read_lock`. -/
def NotReading (s : Sys) (r : Nat) : Prop := ∀ pc, s.pcs[r]? = some pc → pc.reading = false

/-- The loop `while (compare_and_swap(&l_, 0, kWaFlag)) yield_processor();` of `write_lock`,
run by a thread while no other thread touches the lock: `none` when the loop has not been
left after `fuel` attempts. -/
def write_lock_loop (ops : AtomicOps) : Nat → read_write_mutex → Option read_write_mutex
  | 0, _ => none
  | fuel + 1, m =>
    let r := compare_and_swap ops m.l_ 0 kWaFlag
    let m := { m with l_ := r.2 }
    if r.1 ≠ 0 then write_lock_loop ops fuel m else some m

/-- Model of `write_lock` run by a thread on its own. -/
def write_lock (ops : AtomicOps) (fuel : Nat) (m : read_write_mutex) :
    Option read_write_mutex :=
  let m := { m with write_pending_ := atomic_add m.write_pending_ 1 }
  write_lock_loop ops fuel m

/-- The loop `while (write_pending_ > 0) yield_processor();` of `read_lock`. -/
def read_lock_wait : Nat → read_write_mutex → Option read_write_mutex
  | 0, _ => none
  | fuel + 1, m => if m.write_pending_ > 0 then read_lock_wait fuel m else some m

/-- The loop `while ((l_ & kWaFlag) != 0) yield_processor();` of `read_lock`. -/
def read_lock_spin : Nat → read_write_mutex → Option read_write_mutex
  | 0, _ => none
  | fuel + 1, m => if m.l_ % 2 ≠ 0 then read_lock_spin fuel m else some m

/-- Model of `read_lock` run by a thread on its own; `fuel` bounds each of its loops. -/
def read_lock (fuel : Nat) (m : read_write_mutex) : Option read_write_mutex :=
  match read_lock_wait fuel m with
  | none => none
  | some m =>
    let m := { m with l_ := atomic_add m.l_ kRcIncr }
    read_lock_spin fuel m

/-- Model of `write_unlock`. -/
def write_unlock (m : read_write_mutex) : read_write_mutex :=
  let m := { m with l_ := atomic_add m.l_ (-kWaFlag) }
  { m with write_pending_ := atomic_add m.write_pending_ (-1) }

/-- Model of `read_unlock`. -/
def read_unlock (m : read_write_mutex) : read_write_mutex :=
  { m with l_ := atomic_add m.l_ (-kRcIncr) }

/-- Whether a thread is at the second loop of `read_lock`. -/
def Pc.spinning : Pc → Bool
  | Pc.r_spin => true
  | _ => false

/-- Whether a thread is past a returned `read_lock`. -/
def Pc.holdsRead : Pc → Bool
  | Pc.r_held => true
  | _ => false

/-- Whether a thread is past a returned `write_lock`. -/
def Pc.holdsWrite : Pc → Bool
  | Pc.w_held => true
  | _ => false

/-- What `l_` holds with the GCC primitives: `kRcIncr` for every thread between the increment
in `read_lock` and `read_unlock`, `kWaFlag` for a thread past a returned `write_lock`; at most
one thread is there, and then none is past a returned `read_lock`. -/
structure CountInv (s : Sys) : Prop where
  l_eq : s.m.l_ = kRcIncr * ((s.pcs.countP Pc.spinning : Nat) : Int)
    + kRcIncr * ((s.pcs.countP Pc.holdsRead : Nat) : Int)
    + kWaFlag * ((s.pcs.countP Pc.holdsWrite : Nat) : Int)
  one : s.pcs.countP Pc.holdsWrite ≤ 1
  excl : s.pcs.countP Pc.holdsWrite = 1 → s.pcs.countP Pc.holdsRead = 0

/-! Path utilities, request flags and resource resolution. -/

theorem testBit_or_if (c : Prop) [Decidable c] (x f i : Nat) :
    (if c then x ||| f else x).testBit i = (x.testBit i || (decide c && f.testBit i)) := by
  by_cases hc : c <;> simp [hc]

/-- The bits of the request mask when every flag is a power of two. -/
theorem load_request_type_testBit (F : RequestFlags) (p : RequestOptions)
    (k0 kN kP kM kA kS : Nat)
    (h0 : F.MECAB_ONE_BEST = 2 ^ k0) (hN : F.MECAB_NBEST = 2 ^ kN)
    (hP : F.MECAB_PARTIAL = 2 ^ kP) (hM : F.MECAB_MARGINAL_PROB = 2 ^ kM)
    (hA : F.MECAB_ALL_MORPHS = 2 ^ kA) (hS : F.MECAB_ALLOCATE_SENTENCE = 2 ^ kS) (i : Nat) :
    (load_request_type F p).testBit i = true ↔
      (i = k0 ∨ (i = kS ∧ p.allocate_sentence = true) ∨ (i = kP ∧ p.partial_parse = true)
        ∨ (i = kA ∧ p.all_morphs = true)
        ∨ (i = kN ∧ (p.nbest ≥ 2 ∨ p.lattice_level ≥ 1))
        ∨ (i = kM ∧ (p.marginal = true ∨ p.lattice_level ≥ 2))) := by
  unfold load_request_type
  simp only [testBit_or_if, h0, hN, hP, hM, hA, hS, Nat.testBit_two_pow, Bool.or_eq_true,
    Bool.and_eq_true, decide_eq_true_eq]
  have e : ∀ k, (k = i) = (i = k) := fun k => propext eq_comm
  simp only [e]
  generalize (p.nbest ≥ 2) = a1
  generalize (p.lattice_level ≥ 1) = a2
  generalize (p.lattice_level ≥ 2) = a3
  generalize (p.allocate_sentence = true) = a4
  generalize (p.partial_parse = true) = a5
  generalize (p.all_morphs = true) = a6
  generalize (p.marginal = true) = a7
  generalize (i = k0) = b0
  generalize (i = kS) = b1
  generalize (i = kP) = b2
  generalize (i = kA) = b3
  generalize (i = kN) = b4
  generalize (i = kM) = b5
  constructor
  · rintro (((((((h | ⟨h1, h2⟩) | ⟨h1, h2⟩) | ⟨h1, h2⟩) | ⟨h1, h2⟩) | ⟨h1, h2⟩) | ⟨h1, h2⟩) |
      ⟨h1, h2⟩) <;> simp [*]
  · rintro (h | ⟨h1, h2⟩ | ⟨h1, h2⟩ | ⟨h1, h2⟩ | ⟨h1, h2 | h2⟩ | ⟨h1, h2 | h2⟩) <;> simp [*]

/-- The value of `create_filename` by cases on the directory. -/
theorem create_filename_eq (path file : Str) :
    create_filename path file
      = if path = [] ∨ path.getLast? = some '/' then path ++ file else path ++ '/' :: file := by
  unfold create_filename
  rw [List.getLast?_eq_getElem?]
  by_cases h0 : path = []
  · simp [h0]
  · have hl : path.length ≠ 0 := fun e => h0 (List.length_eq_zero.mp e)
    by_cases h1 : path[path.length - 1]? = some '/'
    · simp [h0, h1]
    · simp [h0, h1, hl]

theorem scan_back_append_slash (pre suf : Str) (h : '/' ∉ suf) :
    ∀ k, k ≤ suf.length →
      scan_back (pre ++ '/' :: suf) (pre.length + 1 + k) = (pre.length : Int) := by
  intro k
  induction k with
  | zero =>
    intro _
    have h0 : (pre ++ '/' :: suf)[pre.length]? = some '/' := by
      rw [List.getElem?_append_right (le_refl _)]
      simp
    simp only [Nat.add_zero, scan_back, h0, if_true]
  | succ k ih =>
    intro hk
    have hk' : k < suf.length := hk
    have : (pre ++ '/' :: suf)[pre.length + 1 + k]? = some suf[k] := by
      rw [List.getElem?_append_right (by omega)]
      have : pre.length + 1 + k - pre.length = k + 1 := by omega
      rw [this]
      simp [List.getElem?_eq_getElem hk']
    rw [show pre.length + 1 + (k + 1) = (pre.length + 1 + k) + 1 by omega, scan_back, this]
    have hne : suf[k] ≠ '/' := fun e => h (e ▸ List.getElem_mem hk')
    simp [hne]
    exact ih (by omega)

/-- On a path without `'/'` the scan runs off the front. -/
theorem scan_back_no_slash (p : Str) (h : '/' ∉ p) :
    ∀ k, k ≤ p.length → scan_back p k = -1 := by
  intro k
  induction k with
  | zero => intro _; rfl
  | succ k ih =>
    intro hk
    have hk' : k < p.length := hk
    have hne : p[k] ≠ '/' := fun e => h (e ▸ List.getElem_mem hk')
    simp [scan_back, List.getElem?_eq_getElem hk', hne]
    exact ih (by omega)

/-- On a path split at its last `'/'` the scan stops at that `'/'`. -/
theorem scan_back_split (pre suf : Str) (h : '/' ∉ suf) :
    scan_back (pre ++ '/' :: suf) (pre ++ '/' :: suf).length = (pre.length : Int) := by
  have := scan_back_append_slash pre suf h suf.length le_rfl
  simpa [Nat.add_assoc, Nat.add_comm, Nat.add_left_comm] using this

/-- `remove_filename` returns what precedes the last `'/'` when that is not empty. -/
theorem remove_filename_split (pre suf : Str) (hpre : pre ≠ []) (h : '/' ∉ suf) :
    remove_filename (pre ++ '/' :: suf) = pre := by
  have hl : 0 < pre.length := List.length_pos.mpr hpre
  unfold remove_filename
  rw [scan_back_split pre suf h]
  simp only [gt_iff_lt, Int.toNat_ofNat]
  rw [if_pos (by omega)]
  simp

/-- `remove_filename` returns `"."` on a path without `'/'`. -/
theorem remove_filename_no_slash (path : Str) (h : '/' ∉ path) :
    remove_filename path = ['.'] := by
  unfold remove_filename
  rw [scan_back_no_slash path h path.length le_rfl]
  rfl

/-- `remove_filename` returns `"."` when the only `'/'` is the first character. -/
theorem remove_filename_root (suf : Str) (h : '/' ∉ suf) :
    remove_filename ('/' :: suf) = ['.'] := by
  have := scan_back_split [] suf h
  unfold remove_filename
  simp only [List.nil_append, List.length_nil] at this
  rw [this]
  rfl

theorem remove_pathname_split (pre suf : Str) (hpre : pre ≠ []) (h : '/' ∉ suf) :
    remove_pathname (pre ++ '/' :: suf) = suf := by
  have hl : 0 < pre.length := List.length_pos.mpr hpre
  unfold remove_pathname
  rw [scan_back_split pre suf h]
  simp only [gt_iff_lt, Int.toNat_ofNat]
  rw [if_pos (by omega)]
  have : List.drop (pre.length + 1) (pre ++ '/' :: suf) = suf := by
    rw [show pre ++ '/' :: suf = (pre ++ ['/']) ++ suf by simp]
    exact List.drop_left' (by simp)
  rw [this]
  apply List.take_of_length_le
  simp only [List.length_append, List.length_cons]
  omega

theorem remove_pathname_no_slash (path : Str) (h : '/' ∉ path) :
    remove_pathname path = ['.'] := by
  unfold remove_pathname
  rw [scan_back_no_slash path h path.length le_rfl]
  rfl

/-- C8 (as amended): `create_filename(dir, file)` is `dir ++ file` when `dir` is empty or ends
with `'/'`, and `dir ++ "/" ++ file` for every other `dir`; in particular
`create_filename("/a", "b") = create_filename("/a/", "b") = "/a/b"`. -/
theorem create_filename_separator :
    (∀ dir file : Str, create_filename dir file
      = if dir = [] ∨ dir.getLast? = some '/' then dir ++ file else dir ++ "/".toList ++ file)
    ∧ create_filename "/a".toList "b".toList = "/a/b".toList
    ∧ create_filename "/a/".toList "b".toList = "/a/b".toList := by
  refine ⟨fun dir file => ?_, by decide, by decide⟩
  rw [create_filename_eq]
  split <;> simp

/-- C8, the claim as stated fails on the empty directory: it does not end with `'/'`, yet no
separator is inserted. -/
theorem create_filename_empty_dir :
    ([] : Str).getLast? ≠ some '/' ∧
      create_filename [] "b".toList ≠ [] ++ "/".toList ++ "b".toList := by
  decide

/-- C9, evaluated where the code departs from the claim: the last `'/'` of `"/a"` is at
offset 0, the prefix that precedes it is empty, and `remove_filename` returns `"."`. -/
theorem remove_filename_leading_slash :
    "/a".toList = [] ++ '/' :: "a".toList ∧ '/' ∉ "a".toList ∧
      remove_filename "/a".toList = ".".toList ∧ remove_filename "/a".toList ≠ [] := by
  decide

/-- C10 (as amended): for a path whose last `'/'` is not its first character,
`remove_pathname` returns the suffix that follows the last `'/'`; for a path without `'/'`
it returns `"."`. -/
theorem remove_pathname_basename :
    (∀ pre suf : Str, pre ≠ [] → '/' ∉ suf → remove_pathname (pre ++ '/' :: suf) = suf)
    ∧ (∀ path : Str, '/' ∉ path → remove_pathname path = ".".toList) :=
  ⟨remove_pathname_split, remove_pathname_no_slash⟩

/-- C10 (as amended) at `"/a/b/c"` and at `"justfile"`. -/
theorem remove_pathname_basename_witness :
    remove_pathname ("/a/b".toList ++ '/' :: "c".toList) = "c".toList
    ∧ remove_pathname "justfile".toList = ".".toList :=
  ⟨remove_pathname_basename.1 "/a/b".toList "c".toList (by decide) (by decide),
    remove_pathname_basename.2 "justfile".toList (by decide)⟩

/-- C10, the claim as stated fails on a path without `'/'`: the whole path is not returned. -/
theorem remove_pathname_no_separator :
    '/' ∉ "justfile".toList ∧ remove_pathname "justfile".toList ≠ "justfile".toList := by
  decide

/-- C3: with the request flags distinct single bits, the mask returned by `load_request_type`
contains the base one-best flag; the allocate-sentence, partial and all-morphs flags exactly
when the respective option is true; the n-best flag exactly when `nbest >= 2` or
`lattice-level >= 1`; the marginal-probability flag exactly when `marginal` is true or
`lattice-level >= 2`; and no other bit. -/
theorem load_request_type_bitmask (F : RequestFlags) (p : RequestOptions)
    (k0 kN kP kM kA kS : Nat)
    (h0 : F.MECAB_ONE_BEST = 2 ^ k0) (hN : F.MECAB_NBEST = 2 ^ kN)
    (hP : F.MECAB_PARTIAL = 2 ^ kP) (hM : F.MECAB_MARGINAL_PROB = 2 ^ kM)
    (hA : F.MECAB_ALL_MORPHS = 2 ^ kA) (hS : F.MECAB_ALLOCATE_SENTENCE = 2 ^ kS)
    (hd : [k0, kN, kP, kM, kA, kS].Nodup) :
    (load_request_type F p).testBit k0 = true
    ∧ ((load_request_type F p).testBit kS = true ↔ p.allocate_sentence = true)
    ∧ ((load_request_type F p).testBit kP = true ↔ p.partial_parse = true)
    ∧ ((load_request_type F p).testBit kA = true ↔ p.all_morphs = true)
    ∧ ((load_request_type F p).testBit kN = true ↔ (p.nbest ≥ 2 ∨ p.lattice_level ≥ 1))
    ∧ ((load_request_type F p).testBit kM = true ↔ (p.marginal = true ∨ p.lattice_level ≥ 2))
    ∧ (∀ i, i ∉ [k0, kN, kP, kM, kA, kS] → (load_request_type F p).testBit i = false) := by
  have key := load_request_type_testBit F p k0 kN kP kM kA kS h0 hN hP hM hA hS
  simp only [List.nodup_cons, List.mem_cons, List.mem_singleton, not_or, List.not_mem_nil,
    not_false_eq_true, List.nodup_nil, and_true] at hd
  obtain ⟨⟨d1, d2, d3, d4, d5⟩, ⟨d6, d7, d8, d9⟩, ⟨d10, d11, d12⟩, ⟨d13, d14⟩, d15⟩ := hd
  refine ⟨?_, ?_, ?_, ?_, ?_, ?_, ?_⟩
  · rw [key]; exact Or.inl rfl
  · rw [key]
    simp [Ne.symm d5, Ne.symm d9, Ne.symm d12, Ne.symm d14, Ne.symm d15]
  · rw [key]
    simp [Ne.symm d2, Ne.symm d6, d10, d11, d12]
  · rw [key]
    simp [Ne.symm d4, Ne.symm d8, Ne.symm d11, Ne.symm d13, d15]
  · rw [key]
    simp [Ne.symm d1, d6, d7, d8, d9]
  · rw [key]
    simp [Ne.symm d3, Ne.symm d7, Ne.symm d10, d13, d14]
  · intro i hi
    simp only [List.mem_cons, List.mem_singleton, not_or, List.not_mem_nil, not_false_eq_true,
      and_true] at hi
    obtain ⟨e1, e2, e3, e4, e5, e6⟩ := hi
    have := key i
    simp only [e1, e2, e3, e4, e5, e6, false_and, or_self, iff_false] at this
    simpa using this

/-- C3 with the flag values of `mecab.h` and `lattice-level = 2`: the n-best bit and the
marginal-probability bit are set although `marginal` is false. -/
theorem load_request_type_bitmask_witness :
    (load_request_type mecabFlags ⟨false, false, false, false, 1, 2⟩).testBit 1 = true
    ∧ (load_request_type mecabFlags ⟨false, false, false, false, 1, 2⟩).testBit 3 = true :=
  have h := load_request_type_bitmask mecabFlags ⟨false, false, false, false, 1, 2⟩ 0 1 2 3 5 6
    rfl rfl rfl rfl rfl rfl (by decide)
  ⟨h.2.2.2.2.1.mpr (Or.inr (by decide)), h.2.2.2.2.2.1.mpr (Or.inr (by decide))⟩

/-- The three request masks the specification lists, with the flag values of `mecab.h`. -/
theorem load_request_type_examples :
    load_request_type mecabFlags ⟨false, false, false, false, 1, 0⟩ = mecabFlags.MECAB_ONE_BEST
    ∧ load_request_type mecabFlags ⟨false, false, false, false, 3, 0⟩
      = mecabFlags.MECAB_ONE_BEST ||| mecabFlags.MECAB_NBEST
    ∧ load_request_type mecabFlags ⟨false, false, false, false, 1, 2⟩
      = mecabFlags.MECAB_ONE_BEST ||| mecabFlags.MECAB_NBEST ||| mecabFlags.MECAB_MARGINAL_PROB := by
  decide

theorem create_filename_ne_nil (path file : Str) (h : file ≠ []) :
    create_filename path file ≠ [] := by
  unfold create_filename
  simp [h]

/-- C4 (as amended): the rcfile that gets parsed is the explicit rcfile whenever it is
non-empty; otherwise `create_filename(HOME, ".mecabrc")` when `HOME` is set and that file can
be opened; otherwise the `MECABRC` value when it is set and non-empty; otherwise the
compiled-in default. With an explicit rcfile the choice does not depend on the environment,
and the chosen file is the first thing `load_dictionary_resource` parses. -/
theorem resolve_rcfile_precedence (K : Consts) (env : Env) (rcfile : Str) :
    (rcfile ≠ [] → resolve_rcfile K env rcfile = rcfile)
    ∧ (rcfile = [] → ∀ h, env.HOME = some h →
        env.canOpen (create_filename h ".mecabrc".toList) = true →
        resolve_rcfile K env rcfile = create_filename h ".mecabrc".toList)
    ∧ (rcfile = [] →
        (∀ h, env.HOME = some h → env.canOpen (create_filename h ".mecabrc".toList) = false) →
        ∀ v, env.MECABRC = some v → v ≠ [] → resolve_rcfile K env rcfile = v)
    ∧ (rcfile = [] →
        (∀ h, env.HOME = some h → env.canOpen (create_filename h ".mecabrc".toList) = false) →
        (env.MECABRC = none ∨ env.MECABRC = some []) →
        resolve_rcfile K env rcfile = K.MECAB_DEFAULT_RC)
    ∧ (rcfile ≠ [] → ∀ env2 : Env, resolve_rcfile K env2 rcfile = resolve_rcfile K env rcfile)
    ∧ (∀ (P : Type) (ops : ParamOps P) (param : P),
        (load_dictionary_resource K ops env param).2.2.head?
          = some (Action.parse (resolve_rcfile K env (ops.getStr param "rcfile".toList)))) := by
  have hexp : ∀ e : Env, rcfile ≠ [] → resolve_rcfile K e rcfile = rcfile := by
    intro e h
    simp [resolve_rcfile, List.isEmpty_iff, h]
  have hopen : ∀ c : Str, c ≠ [] →
      (if (if c.isEmpty = true then
            (match env.MECABRC with
              | some rcenv => rcenv
              | none => c)
            else c).isEmpty = true
        then K.MECAB_DEFAULT_RC
        else (if c.isEmpty = true then
            (match env.MECABRC with
              | some rcenv => rcenv
              | none => c)
            else c)) = c := by
    intro c hc
    simp [List.isEmpty_iff, hc]
  refine ⟨hexp env, ?_, ?_, ?_, ?_, ?_⟩
  · intro h0 h hh ho
    have hne := create_filename_ne_nil h ".mecabrc".toList (by decide)
    unfold resolve_rcfile
    simp only [h0, hh, ho, List.isEmpty_nil, if_true]
    exact hopen _ hne
  · intro h0 hfail v hv hvne
    unfold resolve_rcfile
    rcases hh : env.HOME with _ | h
    · simp only [h0, hv, List.isEmpty_nil, if_true]
      simp [List.isEmpty_iff, hvne]
    · simp only [h0, hv, hfail h hh, List.isEmpty_nil, if_true, Bool.false_eq_true, if_false]
      simp [List.isEmpty_iff, hvne]
  · intro h0 hfail hm
    unfold resolve_rcfile
    rcases hh : env.HOME with _ | h
    · rcases hm with hm | hm
      · simp only [h0, hm, List.isEmpty_nil, if_true]
      · simp only [h0, hm, List.isEmpty_nil, if_true]
    · rcases hm with hm | hm
      · simp only [h0, hm, hfail h hh, List.isEmpty_nil, if_true, Bool.false_eq_true, if_false]
      · simp only [h0, hm, hfail h hh, List.isEmpty_nil, if_true, Bool.false_eq_true, if_false]
  · intro h env2
    rw [hexp env h, hexp env2 h]
  · intro P ops param
    unfold load_dictionary_resource
    dsimp only
    split <;> rfl

/-- C4, the claim as stated fails when `MECABRC` is set to the empty string: with no explicit
rcfile and no `HOME`, the file parsed is the compiled-in default, not the `MECABRC` value. -/
theorem resolve_rcfile_empty_MECABRC :
    (⟨none, some [], fun _ => false⟩ : Env).MECABRC = some []
    ∧ resolve_rcfile upstreamConsts ⟨none, some [], fun _ => false⟩ []
        = upstreamConsts.MECAB_DEFAULT_RC
    ∧ resolve_rcfile upstreamConsts ⟨none, some [], fun _ => false⟩ [] ≠ [] := by
  decide

/-- C5: `load_dictionary_resource` returns true exactly when parsing the selected rcfile
succeeds and parsing `create_filename(dicdir, DICRC)` in the resolved dictionary directory
succeeds as well; when the rcfile parse fails it returns false having parsed that one file
only, without setting `dicdir`; when it succeeds it sets `dicdir` and parses the second
file. -/
theorem load_dictionary_resource_reports (P : Type) (K : Consts) (ops : ParamOps P) (env : Env)
    (param : P) :
    ((load_dictionary_resource K ops env param).1 = true ↔
      (ops.parseFile param (resolve_rcfile K env (ops.getStr param "rcfile".toList))).1 = true
      ∧ (ops.parseFile
          (ops.set
            (ops.parseFile param (resolve_rcfile K env (ops.getStr param "rcfile".toList))).2
            "dicdir".toList
            (resolve_dicdir (resolve_rcfile K env (ops.getStr param "rcfile".toList))
              (ops.getStr
                (ops.parseFile param
                  (resolve_rcfile K env (ops.getStr param "rcfile".toList))).2
                "dicdir".toList)))
          (create_filename
            (resolve_dicdir (resolve_rcfile K env (ops.getStr param "rcfile".toList))
              (ops.getStr
                (ops.parseFile param
                  (resolve_rcfile K env (ops.getStr param "rcfile".toList))).2
                "dicdir".toList))
            K.DICRC)).1 = true)
    ∧ ((ops.parseFile param (resolve_rcfile K env (ops.getStr param "rcfile".toList))).1 = false →
        load_dictionary_resource K ops env param
          = (false,
              (ops.parseFile param (resolve_rcfile K env (ops.getStr param "rcfile".toList))).2,
              [Action.parse (resolve_rcfile K env (ops.getStr param "rcfile".toList))]))
    ∧ ((ops.parseFile param (resolve_rcfile K env (ops.getStr param "rcfile".toList))).1 = true →
        (load_dictionary_resource K ops env param).2.2
          = [Action.parse (resolve_rcfile K env (ops.getStr param "rcfile".toList)),
              Action.setDicdir
                (resolve_dicdir (resolve_rcfile K env (ops.getStr param "rcfile".toList))
                  (ops.getStr
                    (ops.parseFile param
                      (resolve_rcfile K env (ops.getStr param "rcfile".toList))).2
                    "dicdir".toList)),
              Action.parse
                (create_filename
                  (resolve_dicdir (resolve_rcfile K env (ops.getStr param "rcfile".toList))
                    (ops.getStr
                      (ops.parseFile param
                        (resolve_rcfile K env (ops.getStr param "rcfile".toList))).2
                      "dicdir".toList))
                  K.DICRC)]) := by
  unfold load_dictionary_resource
  dsimp only
  rcases h : (ops.parseFile param (resolve_rcfile K env (ops.getStr param "rcfile".toList))).1
  · simp
  · simp

/-- C5 where no file can be parsed: the call fails after the one attempt on the default
rcfile. -/
theorem load_dictionary_resource_reports_witness :
    load_dictionary_resource upstreamConsts (listOps []) ⟨none, none, fun _ => false⟩ []
      = (false, [], [Action.parse "/usr/local/etc/mecabrc".toList]) :=
  (load_dictionary_resource_reports _ upstreamConsts (listOps []) ⟨none, none, fun _ => false⟩
    []).2.1 (by decide)

/-- The loop of `escape_csv_element` appends the field with its quotes doubled. -/
theorem escape_loop_eq (w : Str) : ∀ tmp : Str, escape_loop w tmp = tmp ++ double_quotes w := by
  induction w with
  | nil => intro tmp; simp [escape_loop, double_quotes]
  | cons c rest ih =>
    intro tmp
    by_cases hc : c = '"'
    · simp [escape_loop, double_quotes, hc, ih]
    · simp [escape_loop, double_quotes, hc, ih]

/-- C11: `escape_csv_element` returns true; a field with neither `','` nor `'"'` is left
unchanged; any other field becomes a `'"'`, the field with every `'"'` doubled and the other
characters kept in order, and a closing `'"'`. -/
theorem escape_csv_element_spec (w : Str) :
    (escape_csv_element w).1 = true
    ∧ ((',' ∉ w ∧ '"' ∉ w) → (escape_csv_element w).2 = w)
    ∧ ((',' ∈ w ∨ '"' ∈ w) → (escape_csv_element w).2 = '"' :: double_quotes w ++ ['"'])
    ∧ (escape_csv_element "hello".toList).2 = "hello".toList
    ∧ (escape_csv_element "a,b".toList).2 = "\"a,b\"".toList
    ∧ (escape_csv_element "say \"hi\"".toList).2 = "\"say \"\"hi\"\"\"".toList := by
  refine ⟨?_, ?_, ?_, by decide, by decide, by decide⟩
  · unfold escape_csv_element
    split <;> rfl
  · rintro ⟨h1, h2⟩
    unfold escape_csv_element
    rw [if_neg (by simp [h1, h2])]
  · intro h
    unfold escape_csv_element
    rw [if_pos (by simpa using h)]
    simp [escape_loop_eq]

/-- The character-wise rule of `to_lower` is ASCII case folding: a letter from `A` to `Z`
becomes the letter 32 places up, every other character is kept. -/
theorem to_lower_char (c : Char) :
    (if 'A' ≤ c ∧ c ≤ 'Z' then Char.ofNat (c.toNat + 'a'.toNat - 'A'.toNat) else c)
      = c.toLower := by
  unfold Char.toLower
  have e1 : ('A' ≤ c) ↔ 65 ≤ c.val := Iff.rfl
  have e2 : (c ≤ 'Z') ↔ c.val ≤ 90 := Iff.rfl
  simp only [e1, e2]
  have e3 : c.toNat + 'a'.toNat - 'A'.toNat = c.toNat + 32 := by
    show c.toNat + 97 - 65 = c.toNat + 32
    omega
  rw [e3]
  rfl

/-- The function `to_lower` folds the case of every character and changes nothing else. -/
theorem to_lower_eq_map (text : Str) : to_lower text = text.map Char.toLower := by
  unfold to_lower
  exact List.map_congr_left (fun c _ => to_lower_char c)

/-- C12: `decode_charset` is decided by the lower-cased name `l = to_lower(name)`: `UTF8` for
`utf8`, `utf_8`, `utf-8`; `UTF16` for `utf16`, `utf_16`, `utf-16`; `UTF16BE` and `UTF16LE` for
the same spellings followed by `be` and `le`; `ASCII` for `ascii`; `UTF8` for every other
name. Here `to_lower` is ASCII case folding (each letter `A` .. `Z` becomes `a` .. `z`, every
other character is kept), so two names that differ in case only get the same charset, and
upper-case and mixed-case spellings are recognised. -/
theorem decode_charset_table (name : Str) :
    (to_lower name ∈ ["utf8".toList, "utf_8".toList, "utf-8".toList] →
      decode_charset name = Charset.UTF8)
    ∧ (to_lower name ∈ ["utf16".toList, "utf_16".toList, "utf-16".toList] →
      decode_charset name = Charset.UTF16)
    ∧ (to_lower name ∈ ["utf16be".toList, "utf_16be".toList, "utf-16be".toList] →
      decode_charset name = Charset.UTF16BE)
    ∧ (to_lower name ∈ ["utf16le".toList, "utf_16le".toList, "utf-16le".toList] →
      decode_charset name = Charset.UTF16LE)
    ∧ (to_lower name = "ascii".toList → decode_charset name = Charset.ASCII)
    ∧ (to_lower name ∉ ["utf8".toList, "utf_8".toList, "utf-8".toList, "utf16".toList,
          "utf_16".toList, "utf-16".toList, "utf16be".toList, "utf_16be".toList,
          "utf-16be".toList, "utf16le".toList, "utf_16le".toList, "utf-16le".toList,
          "ascii".toList] →
      decode_charset name = Charset.UTF8)
    ∧ decode_charset "UTF-8".toList = Charset.UTF8
    ∧ decode_charset "nonsense".toList = Charset.UTF8
    ∧ to_lower name = name.map Char.toLower
    ∧ (∀ other : Str, other.map Char.toLower = name.map Char.toLower →
      decode_charset other = decode_charset name)
    ∧ to_lower "ABCDEFGHIJKLMNOPQRSTUVWXYZ az-_09@[".toList
      = "abcdefghijklmnopqrstuvwxyz az-_09@[".toList
    ∧ decode_charset "UTF8".toList = Charset.UTF8
    ∧ decode_charset "UTF-16".toList = Charset.UTF16
    ∧ decode_charset "Utf_16".toList = Charset.UTF16
    ∧ decode_charset "UTF-16BE".toList = Charset.UTF16BE
    ∧ decode_charset "utf16Be".toList = Charset.UTF16BE
    ∧ decode_charset "UTF_16LE".toList = Charset.UTF16LE
    ∧ decode_charset "ASCII".toList = Charset.ASCII
    ∧ decode_charset "Ascii".toList = Charset.ASCII := by
  refine ⟨?_, ?_, ?_, ?_, ?_, ?_, by decide, by decide, to_lower_eq_map name, ?_, by decide,
    by decide, by decide, by decide, by decide, by decide, by decide, by decide, by decide⟩
  rotate_left 6
  · intro other h
    have e : to_lower other = to_lower name := by
      rw [to_lower_eq_map, to_lower_eq_map, h]
    unfold decode_charset
    dsimp only
    rw [e]
  all_goals
    intro h
    unfold decode_charset
    dsimp only
    generalize to_lower name = l at h ⊢
    try simp only [List.mem_cons, List.mem_singleton, List.not_mem_nil, or_false, not_or] at h
  · rw [if_pos h]
  · rcases h with h | h | h <;> subst h <;> decide
  · rcases h with h | h | h <;> subst h <;> decide
  · rcases h with h | h | h <;> subst h <;> decide
  · subst h; decide
  · obtain ⟨h1, h2, h3, h4, h5, h6, h7, h8, h9, h10, h11, h12, h13⟩ := h
    rw [if_neg (by rintro (e | e | e) <;> contradiction),
      if_neg (by rintro (e | e | e) <;> contradiction),
      if_neg (by rintro (e | e | e) <;> contradiction),
      if_neg (by rintro (e | e | e) <;> contradiction), if_neg h13]

/-- The `readdir` loop appends the full paths of the entries it accepts, in listing order. -/
theorem enum_loop_eq (path : Str) (entries : List Str) : ∀ dics : List Str,
    enum_loop path entries dics = dics ++
      (entries.filter (fun name => decide (5 ≤ name.length ∧
        to_lower ((name.drop (name.length - 4)).take 4) = ".csv".toList))).map
        (create_filename path) := by
  induction entries with
  | nil => intro dics; simp [enum_loop]
  | cons tmp rest ih =>
    intro dics
    unfold enum_loop
    dsimp only
    rw [ih]
    by_cases h5 : tmp.length ≥ 5
    · by_cases he : to_lower ((tmp.drop (tmp.length - 4)).take 4) = ".csv".toList
      · have hd : decide (5 ≤ tmp.length ∧
            to_lower ((tmp.drop (tmp.length - 4)).take 4) = ".csv".toList) = true :=
          decide_eq_true ⟨h5, he⟩
        rw [if_pos h5, if_pos he, List.filter_cons, if_pos hd]
        simp only [List.map_cons, List.append_assoc, List.singleton_append]
      · have hd : ¬ (decide (5 ≤ tmp.length ∧
            to_lower ((tmp.drop (tmp.length - 4)).take 4) = ".csv".toList) = true) := by
          simp only [decide_eq_true_eq, not_and]
          intro _
          exact he
        rw [if_pos h5, if_neg he, List.filter_cons, if_neg hd]
    · have hd : ¬ (decide (5 ≤ tmp.length ∧
          to_lower ((tmp.drop (tmp.length - 4)).take 4) = ".csv".toList) = true) := by
        simp only [decide_eq_true_eq, not_and]
        intro h
        exact absurd h h5
      rw [if_neg h5, List.filter_cons, if_neg hd]

/-- C13 (as amended): with the directory listing an input list of entry names,
`enum_csv_dictionaries` discards the old content of the output list and returns, in listing
order, `create_filename(path, name)` for exactly those entries whose name has at least five
characters and whose last four characters, lower-cased, are `".csv"`. -/
theorem enum_csv_dictionaries_listing (path : Str) (entries : List Str) (dics : List Str) :
    enum_csv_dictionaries path (some entries) dics = some
      ((entries.filter (fun name => decide (5 ≤ name.length ∧
        to_lower ((name.drop (name.length - 4)).take 4) = ".csv".toList))).map
        (create_filename path)) := by
  unfold enum_csv_dictionaries
  simp only [vector_clear, enum_loop_eq, List.nil_append]

/-- C13, the claim as stated fails on the entry `".csv"`: its last four characters are
`".csv"`, yet it is not listed, because the name has fewer than five characters. -/
theorem enum_csv_dictionaries_short_name :
    to_lower ((".csv".toList.drop (".csv".toList.length - 4)).take 4) = ".csv".toList
    ∧ enum_csv_dictionaries "/d".toList (some [".csv".toList]) [] = some [] := by
  decide

/-- C19: for a non-empty `dir` that does not end with `'/'` and a `file` without `'/'`,
`remove_filename` and `remove_pathname` take `create_filename(dir, file)` apart again. -/
theorem path_round_trip (dir file : Str) (hd : dir ≠ []) (hs : dir.getLast? ≠ some '/')
    (hf : '/' ∉ file) :
    remove_filename (create_filename dir file) = dir
    ∧ remove_pathname (create_filename dir file) = file := by
  have e : create_filename dir file = dir ++ '/' :: file := by
    rw [create_filename_eq, if_neg]
    rintro (h | h)
    · exact hd h
    · exact hs h
  rw [e]
  exact ⟨remove_filename_split dir file hd hf, remove_pathname_split dir file hd hf⟩

/-- C19 at `dir = "/a/b"` and `file = "c"`. -/
theorem path_round_trip_witness :
    remove_filename (create_filename "/a/b".toList "c".toList) = "/a/b".toList
    ∧ remove_pathname (create_filename "/a/b".toList "c".toList) = "c".toList :=
  path_round_trip "/a/b".toList "c".toList (by decide) (by decide) (by decide)

/-- Doubling the quotes is one-to-one. -/
theorem double_quotes_inj : ∀ a b : Str, double_quotes a = double_quotes b → a = b := by
  intro a
  induction a with
  | nil =>
    intro b h
    cases b with
    | nil => rfl
    | cons d b =>
      unfold double_quotes at h
      split at h <;> simp at h
  | cons c a ih =>
    intro b h
    cases b with
    | nil =>
      unfold double_quotes at h
      split at h <;> simp at h
    | cons d b =>
      rw [double_quotes, double_quotes] at h
      by_cases hc : c = '"' <;> by_cases hd : d = '"'
      · rw [if_pos hc, if_pos hd] at h
        simp only [List.cons.injEq, true_and] at h
        rw [hc, hd, ih b h]
      · rw [if_pos hc, if_neg hd] at h
        simp only [List.cons.injEq] at h
        exact absurd h.1.symm hd
      · rw [if_neg hc, if_pos hd] at h
        simp only [List.cons.injEq] at h
        exact absurd h.1 hc
      · rw [if_neg hc, if_neg hd] at h
        simp only [List.cons.injEq] at h
        rw [h.1, ih b h.2]

/-- The two shapes of the result of `escape_csv_element`. -/
theorem escape_csv_element_cases (w : Str) :
    ('"' ∉ w ∧ (escape_csv_element w).2 = w)
    ∨ (escape_csv_element w).2 = '"' :: double_quotes w ++ ['"'] := by
  by_cases h : ',' ∈ w ∨ '"' ∈ w
  · right
    unfold escape_csv_element
    rw [if_pos (by simpa using h)]
    simp [escape_loop_eq]
  · left
    rw [not_or] at h
    refine ⟨h.2, ?_⟩
    unfold escape_csv_element
    rw [if_neg (by simp [h.1, h.2])]

/-- C20: `escape_csv_element` is injective: two different fields give two different
strings. -/
theorem escape_csv_element_injective (a b : Str) (hne : a ≠ b) :
    (escape_csv_element a).2 ≠ (escape_csv_element b).2 := by
  intro e
  apply hne
  rcases escape_csv_element_cases a with ⟨ha, ea⟩ | ea <;>
    rcases escape_csv_element_cases b with ⟨hb, eb⟩ | eb
  · rw [ea, eb] at e
    exact e
  · rw [ea, eb] at e
    exact absurd (e ▸ List.mem_cons_self _ _) ha
  · rw [ea, eb] at e
    exact absurd (e ▸ List.mem_cons_self _ _) hb
  · rw [ea, eb] at e
    simp only [List.cons_append, List.cons.injEq, true_and] at e
    exact double_quotes_inj a b (List.append_cancel_right e)

/-- C20 at the fields `a,b` and `"a,b"`. -/
theorem escape_csv_element_injective_witness :
    (escape_csv_element "a,b".toList).2 ≠ (escape_csv_element "\"a,b\"".toList).2 :=
  escape_csv_element_injective "a,b".toList "\"a,b\"".toList (by decide)

/-- The comparison at offset 0 decides whether `source` is a prefix. -/
theorem starts_with_iff : ∀ s source : Str, starts_with s source = true ↔ source <+: s := by
  intro s
  induction s with
  | nil =>
    intro source
    cases source with
    | nil => simp [starts_with]
    | cons d ds => simp [starts_with]
  | cons c cs ih =>
    intro source
    cases source with
    | nil => simp [starts_with]
    | cons d ds =>
      simp only [starts_with, Bool.and_eq_true, beq_iff_eq, ih, List.cons_prefix_cons]
      constructor
      · rintro ⟨h1, h2⟩
        exact ⟨h1.symm, h2⟩
      · rintro ⟨h1, h2⟩
        exact ⟨h1.symm, h2⟩

/-- `find` returns the offset of the first occurrence. -/
theorem str_find_first (source post : Str) : ∀ (pre : Str) (i : Nat),
    (∀ j, j < pre.length → ¬ source <+: (pre ++ source ++ post).drop j) →
    str_find source (pre ++ source ++ post) i = some (i + pre.length) := by
  intro pre
  induction pre with
  | nil =>
    intro i _
    simp only [List.nil_append, List.length_nil, Nat.add_zero]
    rcases h : source ++ post with _ | ⟨c, cs⟩
    · have : source = [] := (List.append_eq_nil.mp h).1
      simp [str_find, this]
    · have hp : starts_with (c :: cs) source = true := by
        rw [starts_with_iff, ← h]
        exact List.prefix_append _ _
      rw [str_find, if_pos hp]
  | cons c pre ih =>
    intro i h
    have h0 : ¬ starts_with (c :: (pre ++ source ++ post)) source = true := by
      rw [starts_with_iff]
      exact h 0 (by simp)
    have hrest : ∀ j, j < pre.length → ¬ source <+: (pre ++ source ++ post).drop j := by
      intro j hj
      have := h (j + 1) (by simp; omega)
      simpa using this
    show str_find source (c :: (pre ++ source ++ post)) i = _
    rw [str_find, if_neg h0, ih (i + 1) hrest]
    simp only [List.length_cons]
    congr 1
    omega

/-- `find` returns `npos` when there is no occurrence. -/
theorem str_find_none (source : Str) : ∀ (s : Str) (i : Nat),
    (∀ j, j ≤ s.length → ¬ source <+: s.drop j) → str_find source s i = none := by
  intro s
  induction s with
  | nil =>
    intro i h
    have : source ≠ [] := by
      intro e
      exact h 0 (by simp) (by simp [e])
    simp [str_find, this]
  | cons c cs ih =>
    intro i h
    have h0 : ¬ starts_with (c :: cs) source = true := by
      rw [starts_with_iff]
      exact h 0 (by simp)
    have hrest : ∀ j, j ≤ cs.length → ¬ source <+: cs.drop j := by
      intro j hj
      have := h (j + 1) (by simp; omega)
      simpa using this
    rw [str_find, if_neg h0, ih (i + 1) hrest]

/-- `replace_string` replaces the first occurrence of `source` and keeps what precedes and
what follows it. -/
theorem replace_string_first (source destination pre post : Str)
    (h : ∀ j, j < pre.length → ¬ source <+: (pre ++ source ++ post).drop j) :
    replace_string (pre ++ source ++ post) source destination = pre ++ destination ++ post := by
  unfold replace_string
  rw [str_find_first source post pre 0 h]
  simp only [Nat.zero_add]
  have e1 : List.take pre.length (pre ++ source ++ post) = pre := by
    rw [List.append_assoc]
    exact List.take_left' rfl
  have e2 : List.drop (pre.length + source.length) (pre ++ source ++ post) = post :=
    List.drop_left' (by simp)
  rw [e1, e2]

/-- `replace_string` returns its argument when `source` does not occur in it. -/
theorem replace_string_absent (string source destination : Str)
    (h : ∀ j, j ≤ string.length → ¬ source <+: string.drop j) :
    replace_string string source destination = string := by
  unfold replace_string
  rw [str_find_none source string 0 h]

/-- C16: when the parse of the selected rcfile `r` succeeds and leaves the store `p1`, with
`d` the `dicdir` configured in `p1`, `d'` equal to `"."` for an empty `d` and to `d`
otherwise, and `v = replace_string(d', "$(rcpath)", remove_filename(r))`, then
`load_dictionary_resource` stores `v`: the store it leaves is what the parse of the `dicrc`
file under `v` makes of `p1` with `dicdir` set to `v`, its result is the result of that parse,
its actions are the two parses with the one `set` between them, and `dicdir` reads back as `v`
for every store in which a value that was set survives a parse. The function
`replace_string` replaces the first occurrence of the placeholder only, keeping the text
before and after it, and returns its argument when the placeholder does not occur. -/
theorem dicdir_resolution :
    (∀ (P : Type) (K : Consts) (ops : ParamOps P) (env : Env) (param p1 : P) (v : Str),
      ops.parseFile param (resolve_rcfile K env (ops.getStr param "rcfile".toList)) = (true, p1) →
      v = replace_string
          (if ops.getStr p1 "dicdir".toList = [] then ".".toList
            else ops.getStr p1 "dicdir".toList)
          "$(rcpath)".toList
          (remove_filename (resolve_rcfile K env (ops.getStr param "rcfile".toList))) →
      (load_dictionary_resource K ops env param).2.1
          = (ops.parseFile (ops.set p1 "dicdir".toList v) (create_filename v K.DICRC)).2
        ∧ (load_dictionary_resource K ops env param).1
          = (ops.parseFile (ops.set p1 "dicdir".toList v) (create_filename v K.DICRC)).1
        ∧ (load_dictionary_resource K ops env param).2.2
          = [Action.parse (resolve_rcfile K env (ops.getStr param "rcfile".toList)),
              Action.setDicdir v, Action.parse (create_filename v K.DICRC)]
        ∧ ((∀ (p : P) (f x : Str),
              ops.getStr (ops.parseFile (ops.set p "dicdir".toList x) f).2 "dicdir".toList = x) →
            ops.getStr (load_dictionary_resource K ops env param).2.1 "dicdir".toList = v))
    ∧ (∀ source destination pre post : Str,
        (∀ j, j < pre.length → ¬ source <+: (pre ++ source ++ post).drop j) →
        replace_string (pre ++ source ++ post) source destination = pre ++ destination ++ post)
    ∧ (∀ string source destination : Str,
        (∀ j, j ≤ string.length → ¬ source <+: string.drop j) →
        replace_string string source destination = string) := by
  refine ⟨?_, replace_string_first, replace_string_absent⟩
  intro P K ops env param p1 v h hv
  have e : load_dictionary_resource K ops env param
      = ((ops.parseFile (ops.set p1 "dicdir".toList v) (create_filename v K.DICRC)).1,
        (ops.parseFile (ops.set p1 "dicdir".toList v) (create_filename v K.DICRC)).2,
        [Action.parse (resolve_rcfile K env (ops.getStr param "rcfile".toList)),
          Action.setDicdir v, Action.parse (create_filename v K.DICRC)]) := by
    unfold load_dictionary_resource
    dsimp only
    rw [h]
    simp only [Bool.not_true, Bool.false_eq_true, if_false]
    unfold resolve_dicdir
    simp only [List.isEmpty_iff]
    rw [← hv]
  rw [e]
  exact ⟨rfl, rfl, rfl, fun law => law p1 _ v⟩

/-- C16 run on a key-value store: the rcfile is `/etc/mecabrc`, the configured `dicdir` holds
the placeholder twice. The call succeeds, the `dicdir` read back from the store it leaves is
`/etc/dic/$(rcpath)` (the first occurrence replaced by the directory of the rcfile, the second
one kept), and the `dicrc` file parsed is the one under that directory. -/
theorem dicdir_resolution_witness :
    (listOps ["/etc/mecabrc".toList, "/etc/dic/$(rcpath)/dicrc".toList]).getStr
        (load_dictionary_resource upstreamConsts
          (listOps ["/etc/mecabrc".toList, "/etc/dic/$(rcpath)/dicrc".toList])
          ⟨none, none, fun _ => false⟩
          [("rcfile".toList, "/etc/mecabrc".toList),
            ("dicdir".toList, "$(rcpath)/dic/$(rcpath)".toList)]).2.1 "dicdir".toList
      = "/etc/dic/$(rcpath)".toList
    ∧ load_dictionary_resource upstreamConsts
        (listOps ["/etc/mecabrc".toList, "/etc/dic/$(rcpath)/dicrc".toList])
        ⟨none, none, fun _ => false⟩
        [("rcfile".toList, "/etc/mecabrc".toList),
          ("dicdir".toList, "$(rcpath)/dic/$(rcpath)".toList)]
      = (true,
        [("dicdir".toList, "/etc/dic/$(rcpath)".toList), ("rcfile".toList, "/etc/mecabrc".toList),
          ("dicdir".toList, "$(rcpath)/dic/$(rcpath)".toList)],
        [Action.parse "/etc/mecabrc".toList, Action.setDicdir "/etc/dic/$(rcpath)".toList,
          Action.parse "/etc/dic/$(rcpath)/dicrc".toList]) :=
  ⟨(dicdir_resolution.1 _ upstreamConsts
      (listOps ["/etc/mecabrc".toList, "/etc/dic/$(rcpath)/dicrc".toList])
      ⟨none, none, fun _ => false⟩
      [("rcfile".toList, "/etc/mecabrc".toList),
        ("dicdir".toList, "$(rcpath)/dic/$(rcpath)".toList)]
      [("rcfile".toList, "/etc/mecabrc".toList),
        ("dicdir".toList, "$(rcpath)/dic/$(rcpath)".toList)]
      "/etc/dic/$(rcpath)".toList (by decide) (by decide)).2.2.2
      (fun p f x => by simp [listOps]),
    by decide⟩

/-! Content fingerprint. -/

theorem Rd.bind_some {α β : Type} {x : Rd α} {f : α → Rd β} {log log1 : List Int} {a : α}
    (h : x log = some (a, log1)) : (x >>= f) log = f a log1 := by
  show Rd.bind x f log = f a log1
  simp [Rd.bind, h]

theorem Rd.pure_run {α : Type} (a : α) (log : List Int) :
    (Pure.pure a : Rd α) log = some (a, log) := rfl

/-- A read inside the buffer succeeds and is logged. -/
theorem readByte_ok (data : List Byte) (idx : Int) (log : List Int)
    (h0 : 0 ≤ idx) (h1 : idx.toNat < data.length) :
    ∃ b, readByte data idx log = some (b, log ++ [idx]) := by
  refine ⟨(data[idx.toNat]).val, ?_⟩
  simp [readByte, h0, List.getElem?_eq_getElem h1]

/-- A word whose four bytes lie inside the buffer is read, and its four offsets are logged
in ascending order. -/
theorem getblock_ok (data : List Byte) (p i : Int) (log : List Int)
    (h0 : 0 ≤ p + 4 * i) (h1 : (p + 4 * i).toNat + 3 < data.length) :
    ∃ w, getblock data p i log
      = some (w, log ++ [p + 4 * i, p + 4 * i + 1, p + 4 * i + 2, p + 4 * i + 3]) := by
  obtain ⟨b0, e0⟩ := readByte_ok data (p + 4 * i) log h0 (by omega)
  obtain ⟨b1, e1⟩ := readByte_ok data (p + 4 * i + 1) (log ++ [p + 4 * i]) (by omega) (by omega)
  obtain ⟨b2, e2⟩ := readByte_ok data (p + 4 * i + 2) (log ++ [p + 4 * i] ++ [p + 4 * i + 1])
    (by omega) (by omega)
  obtain ⟨b3, e3⟩ := readByte_ok data (p + 4 * i + 3)
    (log ++ [p + 4 * i] ++ [p + 4 * i + 1] ++ [p + 4 * i + 2]) (by omega) (by omega)
  refine ⟨b0 + b1 * 256 + b2 * 65536 + b3 * 16777216, ?_⟩
  unfold getblock
  rw [Rd.bind_some e0, Rd.bind_some e1, Rd.bind_some e2, Rd.bind_some e3, Rd.pure_run]
  simp

theorem range16 (s : Nat) : List.range' s 16 =
    [s, s + 1, s + 2, s + 3, s + 4, s + 5, s + 6, s + 7, s + 8, s + 9, s + 10, s + 11, s + 12,
      s + 13, s + 14, s + 15] := by
  simp [List.range']

/-- The last `k` iterations of the body loop over `nb` full blocks succeed and log the
offsets of the last `k` blocks in ascending order. -/
theorem blockLoop_ok (data : List Byte) (nb : Nat) (hlen : 16 * nb ≤ data.length) :
    ∀ (k : Nat), k ≤ nb → ∀ (h : Lanes) (log : List Int),
      ∃ h1, blockLoop data ((nb : Int) * 16) k h log
        = some (h1, log ++ (List.range' (16 * (nb - k)) (16 * k)).map (Nat.cast : Nat → Int)) := by
  intro k
  induction k with
  | zero =>
    intro _ h log
    exact ⟨h, by simp [blockLoop, Rd.pure_run]⟩
  | succ k ih =>
    intro hk h log
    obtain ⟨m, hm⟩ : ∃ m : Nat, m = 16 * (nb - (k + 1)) := ⟨_, rfl⟩
    have hp : ∀ j : Int, 0 ≤ j → j < 4 →
        (nb : Int) * 16 + 4 * (-((k : Int) + 1) * 4 + j) = (m : Int) + 4 * j := by
      intro j _ _
      omega
    obtain ⟨w1, e1⟩ := getblock_ok data ((nb : Int) * 16) (-((k : Int) + 1) * 4 + 0) log
      (by omega) (by omega)
    obtain ⟨w2, e2⟩ := getblock_ok data ((nb : Int) * 16) (-((k : Int) + 1) * 4 + 1) _
      (by omega) (by omega)
    obtain ⟨w3, e3⟩ := getblock_ok data ((nb : Int) * 16) (-((k : Int) + 1) * 4 + 2) _
      (by omega) (by omega)
    obtain ⟨w4, e4⟩ := getblock_ok data ((nb : Int) * 16) (-((k : Int) + 1) * 4 + 3) _
      (by omega) (by omega)
    obtain ⟨h1, e5⟩ := ih (by omega) (blockMix h w1 w2 w3 w4) _
    refine ⟨h1, ?_⟩
    rw [blockLoop]
    rw [Rd.bind_some e1, Rd.bind_some e2, Rd.bind_some e3, Rd.bind_some e4, e5]
    have hs : List.range' (16 * (nb - (k + 1))) (16 * (k + 1))
        = List.range' m 16 ++ List.range' (16 * (nb - k)) (16 * k) := by
      have : 16 * (nb - k) = m + 16 := by omega
      rw [this, hm, List.range'_append_1]
      congr 1
    rw [hs, range16, hp 0 (by omega) (by omega), hp 1 (by omega) (by omega),
      hp 2 (by omega) (by omega), hp 3 (by omega) (by omega)]
    simp [List.append_assoc]
    omega

theorem case1_ok (data : List Byte) (t : Nat) (s : TailState) (log : List Int)
    (h : t + 1 ≤ data.length) :
    ∃ s1, case1 data (t : Int) s log = some (s1, log ++ [(t : Int) + 0]) := by
  obtain ⟨b, e⟩ := readByte_ok data ((t : Int) + 0) log (by omega) (by omega)
  rw [case1, Rd.bind_some e]
  exact ⟨_, rfl⟩

theorem case2_ok (data : List Byte) (t : Nat) (s : TailState) (log : List Int)
    (h : t + 2 ≤ data.length) :
    ∃ s1, case2 data (t : Int) s log = some (s1, log ++ [(t : Int) + 1, (t : Int) + 0]) := by
  obtain ⟨b, e⟩ := readByte_ok data ((t : Int) + 1) log (by omega) (by omega)
  rw [case2, Rd.bind_some e]
  rw [show log ++ [(t : Int) + 1, (t : Int) + 0] = (log ++ [(t : Int) + 1]) ++ [(t : Int) + 0] by simp]
  exact case1_ok data t _ _ (by omega)

theorem case3_ok (data : List Byte) (t : Nat) (s : TailState) (log : List Int)
    (h : t + 3 ≤ data.length) :
    ∃ s1, case3 data (t : Int) s log = some (s1, log ++ [(t : Int) + 2, (t : Int) + 1, (t : Int) + 0]) := by
  obtain ⟨b, e⟩ := readByte_ok data ((t : Int) + 2) log (by omega) (by omega)
  rw [case3, Rd.bind_some e]
  rw [show log ++ [(t : Int) + 2, (t : Int) + 1, (t : Int) + 0] = (log ++ [(t : Int) + 2]) ++ [(t : Int) + 1, (t : Int) + 0] by simp]
  exact case2_ok data t _ _ (by omega)

theorem case4_ok (data : List Byte) (t : Nat) (s : TailState) (log : List Int)
    (h : t + 4 ≤ data.length) :
    ∃ s1, case4 data (t : Int) s log = some (s1, log ++ [(t : Int) + 3, (t : Int) + 2, (t : Int) + 1, (t : Int) + 0]) := by
  obtain ⟨b, e⟩ := readByte_ok data ((t : Int) + 3) log (by omega) (by omega)
  rw [case4, Rd.bind_some e]
  rw [show log ++ [(t : Int) + 3, (t : Int) + 2, (t : Int) + 1, (t : Int) + 0] = (log ++ [(t : Int) + 3]) ++ [(t : Int) + 2, (t : Int) + 1, (t : Int) + 0] by simp]
  exact case3_ok data t _ _ (by omega)

theorem case5_ok (data : List Byte) (t : Nat) (s : TailState) (log : List Int)
    (h : t + 5 ≤ data.length) :
    ∃ s1, case5 data (t : Int) s log = some (s1, log ++ [(t : Int) + 4, (t : Int) + 3, (t : Int) + 2, (t : Int) + 1, (t : Int) + 0]) := by
  obtain ⟨b, e⟩ := readByte_ok data ((t : Int) + 4) log (by omega) (by omega)
  rw [case5, Rd.bind_some e]
  rw [show log ++ [(t : Int) + 4, (t : Int) + 3, (t : Int) + 2, (t : Int) + 1, (t : Int) + 0] = (log ++ [(t : Int) + 4]) ++ [(t : Int) + 3, (t : Int) + 2, (t : Int) + 1, (t : Int) + 0] by simp]
  exact case4_ok data t _ _ (by omega)

theorem case6_ok (data : List Byte) (t : Nat) (s : TailState) (log : List Int)
    (h : t + 6 ≤ data.length) :
    ∃ s1, case6 data (t : Int) s log = some (s1, log ++ [(t : Int) + 5, (t : Int) + 4, (t : Int) + 3, (t : Int) + 2, (t : Int) + 1, (t : Int) + 0]) := by
  obtain ⟨b, e⟩ := readByte_ok data ((t : Int) + 5) log (by omega) (by omega)
  rw [case6, Rd.bind_some e]
  rw [show log ++ [(t : Int) + 5, (t : Int) + 4, (t : Int) + 3, (t : Int) + 2, (t : Int) + 1, (t : Int) + 0] = (log ++ [(t : Int) + 5]) ++ [(t : Int) + 4, (t : Int) + 3, (t : Int) + 2, (t : Int) + 1, (t : Int) + 0] by simp]
  exact case5_ok data t _ _ (by omega)

theorem case7_ok (data : List Byte) (t : Nat) (s : TailState) (log : List Int)
    (h : t + 7 ≤ data.length) :
    ∃ s1, case7 data (t : Int) s log = some (s1, log ++ [(t : Int) + 6, (t : Int) + 5, (t : Int) + 4, (t : Int) + 3, (t : Int) + 2, (t : Int) + 1, (t : Int) + 0]) := by
  obtain ⟨b, e⟩ := readByte_ok data ((t : Int) + 6) log (by omega) (by omega)
  rw [case7, Rd.bind_some e]
  rw [show log ++ [(t : Int) + 6, (t : Int) + 5, (t : Int) + 4, (t : Int) + 3, (t : Int) + 2, (t : Int) + 1, (t : Int) + 0] = (log ++ [(t : Int) + 6]) ++ [(t : Int) + 5, (t : Int) + 4, (t : Int) + 3, (t : Int) + 2, (t : Int) + 1, (t : Int) + 0] by simp]
  exact case6_ok data t _ _ (by omega)

theorem case8_ok (data : List Byte) (t : Nat) (s : TailState) (log : List Int)
    (h : t + 8 ≤ data.length) :
    ∃ s1, case8 data (t : Int) s log = some (s1, log ++ [(t : Int) + 7, (t : Int) + 6, (t : Int) + 5, (t : Int) + 4, (t : Int) + 3, (t : Int) + 2, (t : Int) + 1, (t : Int) + 0]) := by
  obtain ⟨b, e⟩ := readByte_ok data ((t : Int) + 7) log (by omega) (by omega)
  rw [case8, Rd.bind_some e]
  rw [show log ++ [(t : Int) + 7, (t : Int) + 6, (t : Int) + 5, (t : Int) + 4, (t : Int) + 3, (t : Int) + 2, (t : Int) + 1, (t : Int) + 0] = (log ++ [(t : Int) + 7]) ++ [(t : Int) + 6, (t : Int) + 5, (t : Int) + 4, (t : Int) + 3, (t : Int) + 2, (t : Int) + 1, (t : Int) + 0] by simp]
  exact case7_ok data t _ _ (by omega)

theorem case9_ok (data : List Byte) (t : Nat) (s : TailState) (log : List Int)
    (h : t + 9 ≤ data.length) :
    ∃ s1, case9 data (t : Int) s log = some (s1, log ++ [(t : Int) + 8, (t : Int) + 7, (t : Int) + 6, (t : Int) + 5, (t : Int) + 4, (t : Int) + 3, (t : Int) + 2, (t : Int) + 1, (t : Int) + 0]) := by
  obtain ⟨b, e⟩ := readByte_ok data ((t : Int) + 8) log (by omega) (by omega)
  rw [case9, Rd.bind_some e]
  rw [show log ++ [(t : Int) + 8, (t : Int) + 7, (t : Int) + 6, (t : Int) + 5, (t : Int) + 4, (t : Int) + 3, (t : Int) + 2, (t : Int) + 1, (t : Int) + 0] = (log ++ [(t : Int) + 8]) ++ [(t : Int) + 7, (t : Int) + 6, (t : Int) + 5, (t : Int) + 4, (t : Int) + 3, (t : Int) + 2, (t : Int) + 1, (t : Int) + 0] by simp]
  exact case8_ok data t _ _ (by omega)

theorem case10_ok (data : List Byte) (t : Nat) (s : TailState) (log : List Int)
    (h : t + 10 ≤ data.length) :
    ∃ s1, case10 data (t : Int) s log = some (s1, log ++ [(t : Int) + 9, (t : Int) + 8, (t : Int) + 7, (t : Int) + 6, (t : Int) + 5, (t : Int) + 4, (t : Int) + 3, (t : Int) + 2, (t : Int) + 1, (t : Int) + 0]) := by
  obtain ⟨b, e⟩ := readByte_ok data ((t : Int) + 9) log (by omega) (by omega)
  rw [case10, Rd.bind_some e]
  rw [show log ++ [(t : Int) + 9, (t : Int) + 8, (t : Int) + 7, (t : Int) + 6, (t : Int) + 5, (t : Int) + 4, (t : Int) + 3, (t : Int) + 2, (t : Int) + 1, (t : Int) + 0] = (log ++ [(t : Int) + 9]) ++ [(t : Int) + 8, (t : Int) + 7, (t : Int) + 6, (t : Int) + 5, (t : Int) + 4, (t : Int) + 3, (t : Int) + 2, (t : Int) + 1, (t : Int) + 0] by simp]
  exact case9_ok data t _ _ (by omega)

theorem case11_ok (data : List Byte) (t : Nat) (s : TailState) (log : List Int)
    (h : t + 11 ≤ data.length) :
    ∃ s1, case11 data (t : Int) s log = some (s1, log ++ [(t : Int) + 10, (t : Int) + 9, (t : Int) + 8, (t : Int) + 7, (t : Int) + 6, (t : Int) + 5, (t : Int) + 4, (t : Int) + 3, (t : Int) + 2, (t : Int) + 1, (t : Int) + 0]) := by
  obtain ⟨b, e⟩ := readByte_ok data ((t : Int) + 10) log (by omega) (by omega)
  rw [case11, Rd.bind_some e]
  rw [show log ++ [(t : Int) + 10, (t : Int) + 9, (t : Int) + 8, (t : Int) + 7, (t : Int) + 6, (t : Int) + 5, (t : Int) + 4, (t : Int) + 3, (t : Int) + 2, (t : Int) + 1, (t : Int) + 0] = (log ++ [(t : Int) + 10]) ++ [(t : Int) + 9, (t : Int) + 8, (t : Int) + 7, (t : Int) + 6, (t : Int) + 5, (t : Int) + 4, (t : Int) + 3, (t : Int) + 2, (t : Int) + 1, (t : Int) + 0] by simp]
  exact case10_ok data t _ _ (by omega)

theorem case12_ok (data : List Byte) (t : Nat) (s : TailState) (log : List Int)
    (h : t + 12 ≤ data.length) :
    ∃ s1, case12 data (t : Int) s log = some (s1, log ++ [(t : Int) + 11, (t : Int) + 10, (t : Int) + 9, (t : Int) + 8, (t : Int) + 7, (t : Int) + 6, (t : Int) + 5, (t : Int) + 4, (t : Int) + 3, (t : Int) + 2, (t : Int) + 1, (t : Int) + 0]) := by
  obtain ⟨b, e⟩ := readByte_ok data ((t : Int) + 11) log (by omega) (by omega)
  rw [case12, Rd.bind_some e]
  rw [show log ++ [(t : Int) + 11, (t : Int) + 10, (t : Int) + 9, (t : Int) + 8, (t : Int) + 7, (t : Int) + 6, (t : Int) + 5, (t : Int) + 4, (t : Int) + 3, (t : Int) + 2, (t : Int) + 1, (t : Int) + 0] = (log ++ [(t : Int) + 11]) ++ [(t : Int) + 10, (t : Int) + 9, (t : Int) + 8, (t : Int) + 7, (t : Int) + 6, (t : Int) + 5, (t : Int) + 4, (t : Int) + 3, (t : Int) + 2, (t : Int) + 1, (t : Int) + 0] by simp]
  exact case11_ok data t _ _ (by omega)

theorem case13_ok (data : List Byte) (t : Nat) (s : TailState) (log : List Int)
    (h : t + 13 ≤ data.length) :
    ∃ s1, case13 data (t : Int) s log = some (s1, log ++ [(t : Int) + 12, (t : Int) + 11, (t : Int) + 10, (t : Int) + 9, (t : Int) + 8, (t : Int) + 7, (t : Int) + 6, (t : Int) + 5, (t : Int) + 4, (t : Int) + 3, (t : Int) + 2, (t : Int) + 1, (t : Int) + 0]) := by
  obtain ⟨b, e⟩ := readByte_ok data ((t : Int) + 12) log (by omega) (by omega)
  rw [case13, Rd.bind_some e]
  rw [show log ++ [(t : Int) + 12, (t : Int) + 11, (t : Int) + 10, (t : Int) + 9, (t : Int) + 8, (t : Int) + 7, (t : Int) + 6, (t : Int) + 5, (t : Int) + 4, (t : Int) + 3, (t : Int) + 2, (t : Int) + 1, (t : Int) + 0] = (log ++ [(t : Int) + 12]) ++ [(t : Int) + 11, (t : Int) + 10, (t : Int) + 9, (t : Int) + 8, (t : Int) + 7, (t : Int) + 6, (t : Int) + 5, (t : Int) + 4, (t : Int) + 3, (t : Int) + 2, (t : Int) + 1, (t : Int) + 0] by simp]
  exact case12_ok data t _ _ (by omega)

theorem case14_ok (data : List Byte) (t : Nat) (s : TailState) (log : List Int)
    (h : t + 14 ≤ data.length) :
    ∃ s1, case14 data (t : Int) s log = some (s1, log ++ [(t : Int) + 13, (t : Int) + 12, (t : Int) + 11, (t : Int) + 10, (t : Int) + 9, (t : Int) + 8, (t : Int) + 7, (t : Int) + 6, (t : Int) + 5, (t : Int) + 4, (t : Int) + 3, (t : Int) + 2, (t : Int) + 1, (t : Int) + 0]) := by
  obtain ⟨b, e⟩ := readByte_ok data ((t : Int) + 13) log (by omega) (by omega)
  rw [case14, Rd.bind_some e]
  rw [show log ++ [(t : Int) + 13, (t : Int) + 12, (t : Int) + 11, (t : Int) + 10, (t : Int) + 9, (t : Int) + 8, (t : Int) + 7, (t : Int) + 6, (t : Int) + 5, (t : Int) + 4, (t : Int) + 3, (t : Int) + 2, (t : Int) + 1, (t : Int) + 0] = (log ++ [(t : Int) + 13]) ++ [(t : Int) + 12, (t : Int) + 11, (t : Int) + 10, (t : Int) + 9, (t : Int) + 8, (t : Int) + 7, (t : Int) + 6, (t : Int) + 5, (t : Int) + 4, (t : Int) + 3, (t : Int) + 2, (t : Int) + 1, (t : Int) + 0] by simp]
  exact case13_ok data t _ _ (by omega)

theorem case15_ok (data : List Byte) (t : Nat) (s : TailState) (log : List Int)
    (h : t + 15 ≤ data.length) :
    ∃ s1, case15 data (t : Int) s log = some (s1, log ++ [(t : Int) + 14, (t : Int) + 13, (t : Int) + 12, (t : Int) + 11, (t : Int) + 10, (t : Int) + 9, (t : Int) + 8, (t : Int) + 7, (t : Int) + 6, (t : Int) + 5, (t : Int) + 4, (t : Int) + 3, (t : Int) + 2, (t : Int) + 1, (t : Int) + 0]) := by
  obtain ⟨b, e⟩ := readByte_ok data ((t : Int) + 14) log (by omega) (by omega)
  rw [case15, Rd.bind_some e]
  rw [show log ++ [(t : Int) + 14, (t : Int) + 13, (t : Int) + 12, (t : Int) + 11, (t : Int) + 10, (t : Int) + 9, (t : Int) + 8, (t : Int) + 7, (t : Int) + 6, (t : Int) + 5, (t : Int) + 4, (t : Int) + 3, (t : Int) + 2, (t : Int) + 1, (t : Int) + 0] = (log ++ [(t : Int) + 14]) ++ [(t : Int) + 13, (t : Int) + 12, (t : Int) + 11, (t : Int) + 10, (t : Int) + 9, (t : Int) + 8, (t : Int) + 7, (t : Int) + 6, (t : Int) + 5, (t : Int) + 4, (t : Int) + 3, (t : Int) + 2, (t : Int) + 1, (t : Int) + 0] by simp]
  exact case14_ok data t _ _ (by omega)

/-- With `r < 16` bytes after offset `t`, the switch entered at label `r` succeeds and logs
the offsets `t + r - 1` down to `t`. -/
theorem tailSwitch_ok (data : List Byte) (t r : Nat) (hr : r < 16) (s : TailState)
    (log : List Int) (h : t + r ≤ data.length) :
    ∃ s1, tailSwitch data (t : Int) (r : Int) s log
      = some (s1, log ++ ((List.range r).map (fun j => ((t + j : Nat) : Int))).reverse) := by
  interval_cases r
  · exact ⟨s, by simp [tailSwitch, Rd.pure_run]⟩

  · obtain ⟨s1, e⟩ := case1_ok data t s log h
    exact ⟨s1, by simpa [tailSwitch, List.range_succ] using e⟩
  · obtain ⟨s1, e⟩ := case2_ok data t s log h
    exact ⟨s1, by simpa [tailSwitch, List.range_succ] using e⟩
  · obtain ⟨s1, e⟩ := case3_ok data t s log h
    exact ⟨s1, by simpa [tailSwitch, List.range_succ] using e⟩
  · obtain ⟨s1, e⟩ := case4_ok data t s log h
    exact ⟨s1, by simpa [tailSwitch, List.range_succ] using e⟩
  · obtain ⟨s1, e⟩ := case5_ok data t s log h
    exact ⟨s1, by simpa [tailSwitch, List.range_succ] using e⟩
  · obtain ⟨s1, e⟩ := case6_ok data t s log h
    exact ⟨s1, by simpa [tailSwitch, List.range_succ] using e⟩
  · obtain ⟨s1, e⟩ := case7_ok data t s log h
    exact ⟨s1, by simpa [tailSwitch, List.range_succ] using e⟩
  · obtain ⟨s1, e⟩ := case8_ok data t s log h
    exact ⟨s1, by simpa [tailSwitch, List.range_succ] using e⟩
  · obtain ⟨s1, e⟩ := case9_ok data t s log h
    exact ⟨s1, by simpa [tailSwitch, List.range_succ] using e⟩
  · obtain ⟨s1, e⟩ := case10_ok data t s log h
    exact ⟨s1, by simpa [tailSwitch, List.range_succ] using e⟩
  · obtain ⟨s1, e⟩ := case11_ok data t s log h
    exact ⟨s1, by simpa [tailSwitch, List.range_succ] using e⟩
  · obtain ⟨s1, e⟩ := case12_ok data t s log h
    exact ⟨s1, by simpa [tailSwitch, List.range_succ] using e⟩
  · obtain ⟨s1, e⟩ := case13_ok data t s log h
    exact ⟨s1, by simpa [tailSwitch, List.range_succ] using e⟩
  · obtain ⟨s1, e⟩ := case14_ok data t s log h
    exact ⟨s1, by simpa [tailSwitch, List.range_succ] using e⟩
  · obtain ⟨s1, e⟩ := case15_ok data t s log h
    exact ⟨s1, by simpa [tailSwitch, List.range_succ] using e⟩

theorem toInt32_of_lt (n : Nat) (h : n < 2147483648) : toInt32 n = (n : Int) := by
  unfold toInt32 W32
  have : n % 4294967296 = n := Nat.mod_eq_of_lt (by omega)
  rw [this, if_pos h]

/-- The hash of a key whose length is a natural number, as the body loop followed by the
tail switch and the finalization. -/
theorem murmur_nat (b : List Byte) (n seed : Nat) (log : List Int) :
    MurmurHash3_x86_128 b (n : Int) seed log =
      (match blockLoop b (((n / 16 : Nat) : Int) * 16) (n / 16) ⟨seed, seed, seed, seed⟩ log with
       | none => none
       | some (h, l1) =>
         match tailSwitch b (((n / 16 : Nat) : Int) * 16) ((n % 16 : Nat) : Int) ⟨0, 0, 0, 0, h⟩ l1 with
         | none => none
         | some (t, l2) => some (finalize t.h (n % W32), l2)) := by
  have hd : Int.tdiv (n : Int) 16 = ((n / 16 : Nat) : Int) := (Int.ofNat_tdiv n 16).symm
  have hneg : ¬ (((n / 16 : Nat) : Int) < 0) := by omega
  have hm : ((n : Int) % (W32 : Int)).toNat = n % W32 := by
    rw [← Int.ofNat_emod, Int.toNat_ofNat]
  have hr : (n : Int) % 16 = ((n % 16 : Nat) : Int) := by omega
  unfold MurmurHash3_x86_128
  simp only [hd, hneg, if_false, hm, hr, Int.toNat_ofNat]
  show Rd.bind _ _ log = _
  rcases hx : blockLoop b (((n / 16 : Nat) : Int) * 16) (n / 16) ⟨seed, seed, seed, seed⟩ log
    with _ | ⟨h, l1⟩
  · simp only [Rd.bind, hx]
  · simp only [Rd.bind, hx]
    show Rd.bind _ _ l1 = _
    rcases hy : tailSwitch b (((n / 16 : Nat) : Int) * 16) ((n % 16 : Nat) : Int)
      ⟨0, 0, 0, 0, h⟩ l1 with _ | ⟨t, l2⟩
    · simp only [Rd.bind, hy]
    · simp only [Rd.bind, hy]
      rfl

/-- Bits at and above position `n` of a number below `2 ^ n` are clear. -/
theorem testBit_high (x n i : Nat) (h : x < 2 ^ n) (hi : n ≤ i) : x.testBit i = false :=
  Nat.testBit_eq_false_of_lt (lt_of_lt_of_le h (Nat.pow_le_pow_right (by decide) hi))

/-- Xor with a number that fits below the shift is addition. -/
theorem shift_xor_eq_add (a b k : Nat) (hb : b < 2 ^ k) : (a <<< k) ^^^ b = a * 2 ^ k + b := by
  apply Nat.eq_of_testBit_eq
  intro j
  rw [Nat.mul_comm a, Nat.testBit_mul_pow_two_add a hb j, Nat.testBit_xor, Nat.testBit_shiftLeft]
  by_cases hj : j < k
  · have : ¬ j ≥ k := by omega
    simp [hj, this]
  · have : j ≥ k := by omega
    simp [hj, this, testBit_high b k j hb this]

/-- The right xor-shift by 16 is an involution on 32-bit words. -/
theorem xorshift16_inv (h : Nat) (hh : h < 2 ^ 32) :
    (h ^^^ (h >>> 16)) ^^^ ((h ^^^ (h >>> 16)) >>> 16) = h := by
  apply Nat.eq_of_testBit_eq
  intro i
  simp only [Nat.testBit_xor, Nat.testBit_shiftRight]
  have : h.testBit (16 + (16 + i)) = false := testBit_high h 32 _ hh (by omega)
  rw [this]
  cases h.testBit i <;> cases h.testBit (16 + i) <;> rfl

/-- The right xor-shift by 13 is undone by xoring the shifts by 13 and 26. -/
theorem xorshift13_inv (h : Nat) (hh : h < 2 ^ 32) :
    (h ^^^ (h >>> 13)) ^^^ ((h ^^^ (h >>> 13)) >>> 13) ^^^ ((h ^^^ (h >>> 13)) >>> 26) = h := by
  apply Nat.eq_of_testBit_eq
  intro i
  simp only [Nat.testBit_xor, Nat.testBit_shiftRight]
  have e1 : h.testBit (13 + (26 + i)) = false := testBit_high h 32 _ hh (by omega)
  have e2 : 13 + (13 + i) = 26 + i := by omega
  rw [e1, e2]
  cases h.testBit i <;> cases h.testBit (13 + i) <;> cases h.testBit (26 + i) <;> rfl

theorem xorshift_lt (h s : Nat) (hh : h < 2 ^ 32) : h ^^^ (h >>> s) < 2 ^ 32 := by
  apply Nat.xor_lt_two_pow hh
  rw [Nat.shiftRight_eq_div_pow]
  exact lt_of_le_of_lt (Nat.div_le_self _ _) hh

theorem xorshift16_inj (a b : Nat) (ha : a < 2 ^ 32) (hb : b < 2 ^ 32)
    (e : a ^^^ (a >>> 16) = b ^^^ (b >>> 16)) : a = b := by
  rw [← xorshift16_inv a ha, ← xorshift16_inv b hb, e]

theorem xorshift13_inj (a b : Nat) (ha : a < 2 ^ 32) (hb : b < 2 ^ 32)
    (e : a ^^^ (a >>> 13) = b ^^^ (b >>> 13)) : a = b := by
  rw [← xorshift13_inv a ha, ← xorshift13_inv b hb, e]

/-- Multiplication by a unit modulo `2 ^ 32` is injective on 32-bit words. -/
theorem mul_unit_inj (c d a b : Nat) (hcd : c * d % W32 = 1) (ha : a < W32) (hb : b < W32)
    (e : a * c % W32 = b * c % W32) : a = b := by
  have key : ∀ x, x < W32 → (x * c % W32) * d % W32 = x := by
    intro x hx
    rw [Nat.mod_mul_mod, Nat.mul_assoc, ← Nat.mul_mod_mod, hcd, Nat.mul_one, Nat.mod_eq_of_lt hx]
  rw [← key a ha, ← key b hb, e]

theorem W32_eq : W32 = 2 ^ 32 := by decide

theorem fmix_lt (h : Nat) : fmix h < W32 := by
  unfold fmix
  simp only []
  rw [W32_eq]
  apply xorshift_lt
  exact Nat.mod_lt _ (by decide)

/-- The finalization mix is injective on 32-bit words. -/
theorem fmix_inj (a b : Nat) (ha : a < W32) (hb : b < W32) (e : fmix a = fmix b) : a = b := by
  rw [W32_eq] at ha hb
  unfold fmix at e
  simp only [] at e
  have m2 : ∀ x : Nat, x % W32 < 2 ^ 32 := fun x => by
    rw [← W32_eq]; exact Nat.mod_lt _ (by decide)
  have s1 := xorshift16_inj _ _ (m2 _) (m2 _) e
  have s2 := mul_unit_inj 0xc2b2ae35 0x7ed1b41d _ _ (by decide)
    (by rw [W32_eq]; exact xorshift_lt _ 13 (m2 _)) (by rw [W32_eq]; exact xorshift_lt _ 13 (m2 _)) s1
  have s3 := xorshift13_inj _ _ (m2 _) (m2 _) s2
  have s4 := mul_unit_inj 0x85ebca6b 0xa5cb9243 _ _ (by decide)
    (by rw [W32_eq]; exact xorshift_lt _ 16 ha) (by rw [W32_eq]; exact xorshift_lt _ 16 hb) s3
  exact xorshift16_inj _ _ ha hb s4

/-- On a 32-bit word, rotating left by 15 moves the low 17 bits up and the high 15 bits down. -/
theorem rotl32_15 (x : Nat) (hx : x < W32) :
    rotl32 x 15 = (x % 131072) * 32768 + x / 131072 := by
  unfold rotl32 W32 at *
  have e1 : (x <<< 15) % 4294967296 = 2 ^ 15 * (x % 131072) := by
    rw [Nat.shiftLeft_eq]
    omega
  have e2 : x >>> (32 - 15) = x / 131072 := by
    rw [Nat.shiftRight_eq_div_pow]
  have e3 : x / 131072 < 2 ^ 15 := by omega
  rw [e1, e2, ← Nat.mul_add_lt_is_or e3]
  omega

theorem rotl32_15_lt (x : Nat) (hx : x < W32) : rotl32 x 15 < W32 := by
  rw [rotl32_15 x hx]
  unfold W32 at *
  omega

theorem rotl32_15_inj (x y : Nat) (hx : x < W32) (hy : y < W32)
    (e : rotl32 x 15 = rotl32 y 15) : x = y := by
  rw [rotl32_15 x hx, rotl32_15 y hy] at e
  unfold W32 at *
  omega

theorem mixk1_lt (k : Nat) : mixk k c1 15 c2 < W32 := Nat.mod_lt _ (by decide)

/-- The scrambling of the first tail word is injective on 32-bit words. -/
theorem mixk1_inj (a b : Nat) (ha : a < W32) (hb : b < W32)
    (e : mixk a c1 15 c2 = mixk b c1 15 c2) : a = b := by
  unfold mixk at e
  have ma : a * c1 % W32 < W32 := Nat.mod_lt _ (by decide)
  have mb : b * c1 % W32 < W32 := Nat.mod_lt _ (by decide)
  have s1 := mul_unit_inj c2 0xdf130eb9 _ _ (by decide) (rotl32_15_lt _ ma) (rotl32_15_lt _ mb) e
  have s2 := rotl32_15_inj _ _ ma mb s1
  exact mul_unit_inj c1 0x89c95413 _ _ (by decide) ha hb s2

/-- The fingerprint of a key of one to four bytes, in closed form: only the first tail word
enters the lanes. -/
theorem fingerprint_len1 (x0 : Byte) : fingerprint [x0] = some
    ((finalize ⟨kFingerPrint32Seed ^^^ mixk (0 ^^^ (x0.val <<< 0)) c1 15 c2,
      kFingerPrint32Seed, kFingerPrint32Seed, kFingerPrint32Seed⟩ 1).h1 +
     (finalize ⟨kFingerPrint32Seed ^^^ mixk (0 ^^^ (x0.val <<< 0)) c1 15 c2,
      kFingerPrint32Seed, kFingerPrint32Seed, kFingerPrint32Seed⟩ 1).h2 * W32) := by
  have e : toInt32 ([x0] : List Byte).length = 1 := by
    rw [toInt32_of_lt _ (by simp)]
    rfl
  unfold fingerprint
  rw [e]
  rfl

theorem fingerprint_len2 (x0 x1 : Byte) : fingerprint [x0, x1] = some
    ((finalize ⟨kFingerPrint32Seed ^^^ mixk (0 ^^^ (x1.val <<< 8) ^^^ (x0.val <<< 0)) c1 15 c2,
      kFingerPrint32Seed, kFingerPrint32Seed, kFingerPrint32Seed⟩ 2).h1 +
     (finalize ⟨kFingerPrint32Seed ^^^ mixk (0 ^^^ (x1.val <<< 8) ^^^ (x0.val <<< 0)) c1 15 c2,
      kFingerPrint32Seed, kFingerPrint32Seed, kFingerPrint32Seed⟩ 2).h2 * W32) := by
  have e : toInt32 ([x0, x1] : List Byte).length = 2 := by
    rw [toInt32_of_lt _ (by simp)]
    rfl
  unfold fingerprint
  rw [e]
  rfl

theorem fingerprint_len3 (x0 x1 x2 : Byte) : fingerprint [x0, x1, x2] = some
    ((finalize ⟨kFingerPrint32Seed ^^^ mixk (0 ^^^ (x2.val <<< 16) ^^^ (x1.val <<< 8) ^^^ (x0.val <<< 0)) c1 15 c2,
      kFingerPrint32Seed, kFingerPrint32Seed, kFingerPrint32Seed⟩ 3).h1 +
     (finalize ⟨kFingerPrint32Seed ^^^ mixk (0 ^^^ (x2.val <<< 16) ^^^ (x1.val <<< 8) ^^^ (x0.val <<< 0)) c1 15 c2,
      kFingerPrint32Seed, kFingerPrint32Seed, kFingerPrint32Seed⟩ 3).h2 * W32) := by
  have e : toInt32 ([x0, x1, x2] : List Byte).length = 3 := by
    rw [toInt32_of_lt _ (by simp)]
    rfl
  unfold fingerprint
  rw [e]
  rfl

theorem fingerprint_len4 (x0 x1 x2 x3 : Byte) : fingerprint [x0, x1, x2, x3] = some
    ((finalize ⟨kFingerPrint32Seed ^^^ mixk (0 ^^^ (x3.val <<< 24) ^^^ (x2.val <<< 16) ^^^ (x1.val <<< 8) ^^^ (x0.val <<< 0)) c1 15 c2,
      kFingerPrint32Seed, kFingerPrint32Seed, kFingerPrint32Seed⟩ 4).h1 +
     (finalize ⟨kFingerPrint32Seed ^^^ mixk (0 ^^^ (x3.val <<< 24) ^^^ (x2.val <<< 16) ^^^ (x1.val <<< 8) ^^^ (x0.val <<< 0)) c1 15 c2,
      kFingerPrint32Seed, kFingerPrint32Seed, kFingerPrint32Seed⟩ 4).h2 * W32) := by
  have e : toInt32 ([x0, x1, x2, x3] : List Byte).length = 4 := by
    rw [toInt32_of_lt _ (by simp)]
    rfl
  unfold fingerprint
  rw [e]
  rfl
theorem finalize_lt (h : Lanes) (n : Nat) :
    (finalize h n).h1 < W32 ∧ (finalize h n).h2 < W32 :=
  ⟨Nat.mod_lt _ (by decide), Nat.mod_lt _ (by decide)⟩

/-- With the last three lanes equal, the first two output words determine the first lane. -/
theorem finalize_inj (x y s n : Nat) (hx : x < W32) (hy : y < W32) (hs : s < W32) (hn : n < W32)
    (e1 : (finalize ⟨x, s, s, s⟩ n).h1 = (finalize ⟨y, s, s, s⟩ n).h1)
    (e2 : (finalize ⟨x, s, s, s⟩ n).h2 = (finalize ⟨y, s, s, s⟩ n).h2) : x = y := by
  have hxn : x ^^^ n < W32 := by rw [W32_eq] at *; exact Nat.xor_lt_two_pow hx hn
  have hyn : y ^^^ n < W32 := by rw [W32_eq] at *; exact Nat.xor_lt_two_pow hy hn
  have hsn : s ^^^ n < W32 := by rw [W32_eq] at *; exact Nat.xor_lt_two_pow hs hn
  simp only [finalize] at e1 e2
  generalize ha : x ^^^ n = a at *
  generalize hb : y ^^^ n = b at *
  generalize s ^^^ n = c at *
  generalize hP : (((a + c) % W32 + c) % W32 + c) % W32 = P at e1 e2
  generalize hQ : (((b + c) % W32 + c) % W32 + c) % W32 = Q at e1 e2
  have f2 : fmix ((c + P) % W32) = fmix ((c + Q) % W32) := by
    have l1 := fmix_lt ((c + P) % W32)
    have l2 := fmix_lt ((c + Q) % W32)
    generalize fmix ((c + P) % W32) = u at *
    generalize fmix ((c + Q) % W32) = v at *
    generalize fmix P = u1 at *
    generalize fmix Q = v1 at *
    unfold W32 at *
    omega
  have q := fmix_inj _ _ (Nat.mod_lt _ (by decide)) (Nat.mod_lt _ (by decide)) f2
  have hab : a = b := by
    unfold W32 at *
    omega
  rw [← ha, ← hb] at hab
  exact Nat.xor_left_injective hab

/-- The tail word of at most four bytes is their little-endian value. -/
theorem pack4 (x3 x2 x1 x0 : Nat) (h2 : x2 < 256) (h1 : x1 < 256) (h0 : x0 < 256) :
    0 ^^^ (x3 <<< 24) ^^^ (x2 <<< 16) ^^^ (x1 <<< 8) ^^^ (x0 <<< 0)
      = x3 * 16777216 + x2 * 65536 + x1 * 256 + x0 := by
  have e1 : (x3 <<< 24) ^^^ (x2 <<< 16) = (x3 * 256 + x2) <<< 16 := by
    have : x2 <<< 16 < 2 ^ 24 := by rw [Nat.shiftLeft_eq]; omega
    rw [shift_xor_eq_add _ _ 24 this]
    simp only [Nat.shiftLeft_eq]
    omega
  have e2 : ((x3 * 256 + x2) <<< 16) ^^^ (x1 <<< 8) = (x3 * 65536 + x2 * 256 + x1) <<< 8 := by
    have : x1 <<< 8 < 2 ^ 16 := by rw [Nat.shiftLeft_eq]; omega
    rw [shift_xor_eq_add _ _ 16 this]
    simp only [Nat.shiftLeft_eq]
    omega
  rw [Nat.zero_xor, e1, e2, Nat.shiftLeft_zero, shift_xor_eq_add _ _ 8 (by omega)]
  omega

theorem pack3 (x2 x1 x0 : Nat) (h2 : x2 < 256) (h1 : x1 < 256) (h0 : x0 < 256) :
    0 ^^^ (x2 <<< 16) ^^^ (x1 <<< 8) ^^^ (x0 <<< 0) = x2 * 65536 + x1 * 256 + x0 := by
  have := pack4 0 x2 x1 x0 h2 h1 h0
  simpa using this

theorem pack2 (x1 x0 : Nat) (h1 : x1 < 256) (h0 : x0 < 256) :
    0 ^^^ (x1 <<< 8) ^^^ (x0 <<< 0) = x1 * 256 + x0 := by
  have := pack4 0 0 x1 x0 (by omega) h1 h0
  simpa using this

theorem pack1 (x0 : Nat) : 0 ^^^ (x0 <<< 0) = x0 := by simp

/-- Equal digests of two keys whose lanes differ in the first tail word only force equal
tail words. -/
theorem digest_word_inj (ka kb n : Nat) (hka : ka < W32) (hkb : kb < W32) (hn : n < W32)
    (e : (finalize ⟨kFingerPrint32Seed ^^^ mixk ka c1 15 c2,
          kFingerPrint32Seed, kFingerPrint32Seed, kFingerPrint32Seed⟩ n).h1 +
        (finalize ⟨kFingerPrint32Seed ^^^ mixk ka c1 15 c2,
          kFingerPrint32Seed, kFingerPrint32Seed, kFingerPrint32Seed⟩ n).h2 * W32
      = (finalize ⟨kFingerPrint32Seed ^^^ mixk kb c1 15 c2,
          kFingerPrint32Seed, kFingerPrint32Seed, kFingerPrint32Seed⟩ n).h1 +
        (finalize ⟨kFingerPrint32Seed ^^^ mixk kb c1 15 c2,
          kFingerPrint32Seed, kFingerPrint32Seed, kFingerPrint32Seed⟩ n).h2 * W32) :
    ka = kb := by
  have hs : kFingerPrint32Seed < W32 := by decide
  have la := finalize_lt ⟨kFingerPrint32Seed ^^^ mixk ka c1 15 c2,
          kFingerPrint32Seed, kFingerPrint32Seed, kFingerPrint32Seed⟩ n
  have lb := finalize_lt ⟨kFingerPrint32Seed ^^^ mixk kb c1 15 c2,
          kFingerPrint32Seed, kFingerPrint32Seed, kFingerPrint32Seed⟩ n
  have hxa : kFingerPrint32Seed ^^^ mixk ka c1 15 c2 < W32 := by
    rw [W32_eq]; exact Nat.xor_lt_two_pow (by decide) (by rw [← W32_eq]; exact mixk1_lt ka)
  have hxb : kFingerPrint32Seed ^^^ mixk kb c1 15 c2 < W32 := by
    rw [W32_eq]; exact Nat.xor_lt_two_pow (by decide) (by rw [← W32_eq]; exact mixk1_lt kb)
  have hx := finalize_inj _ _ _ n hxa hxb hs hn (by unfold W32 at *; omega)
    (by unfold W32 at *; omega)
  exact mixk1_inj ka kb hka hkb (Nat.xor_right_injective hx)

/-- C2: two different byte sequences of the same length `n`, `1 <= n <= 4`, have different
fingerprints under the fixed seed `0xfd14deff`: both digests exist and they differ. -/
theorem fingerprint_short_injective (a b : List Byte) (hlen : a.length = b.length)
    (h1 : 1 ≤ a.length) (h4 : a.length ≤ 4) (hne : a ≠ b) :
    ∃ x y, fingerprint a = some x ∧ fingerprint b = some y ∧ x ≠ y := by
  match a, b, hlen, h1, h4, hne with
  | [a0], [b0], _, _, _, hne =>
    refine ⟨_, _, fingerprint_len1 a0, fingerprint_len1 b0, fun e => hne ?_⟩
    rw [pack1, pack1] at e
    have := digest_word_inj _ _ 1 (by unfold W32; omega) (by unfold W32; omega) (by decide) e
    have h0 : a0 = b0 := Fin.ext this
    rw [h0]
  | [a0, a1], [b0, b1], _, _, _, hne =>
    refine ⟨_, _, fingerprint_len2 a0 a1, fingerprint_len2 b0 b1, fun e => hne ?_⟩
    rw [pack2 _ _ a1.isLt a0.isLt, pack2 _ _ b1.isLt b0.isLt] at e
    have := digest_word_inj _ _ 2 (by unfold W32; omega) (by unfold W32; omega) (by decide) e
    have h0 : a0 = b0 := Fin.ext (by omega)
    have h1 : a1 = b1 := Fin.ext (by omega)
    rw [h0, h1]
  | [a0, a1, a2], [b0, b1, b2], _, _, _, hne =>
    refine ⟨_, _, fingerprint_len3 a0 a1 a2, fingerprint_len3 b0 b1 b2, fun e => hne ?_⟩
    rw [pack3 _ _ _ a2.isLt a1.isLt a0.isLt, pack3 _ _ _ b2.isLt b1.isLt b0.isLt] at e
    have := digest_word_inj _ _ 3 (by unfold W32; omega) (by unfold W32; omega) (by decide) e
    have h0 : a0 = b0 := Fin.ext (by omega)
    have h1 : a1 = b1 := Fin.ext (by omega)
    have h2 : a2 = b2 := Fin.ext (by omega)
    rw [h0, h1, h2]
  | [a0, a1, a2, a3], [b0, b1, b2, b3], _, _, _, hne =>
    refine ⟨_, _, fingerprint_len4 a0 a1 a2 a3, fingerprint_len4 b0 b1 b2 b3, fun e => hne ?_⟩
    rw [pack4 _ _ _ _ a2.isLt a1.isLt a0.isLt, pack4 _ _ _ _ b2.isLt b1.isLt b0.isLt] at e
    have := digest_word_inj _ _ 4 (by unfold W32; omega) (by unfold W32; omega) (by decide) e
    have h0 : a0 = b0 := Fin.ext (by omega)
    have h1 : a1 = b1 := Fin.ext (by omega)
    have h2 : a2 = b2 := Fin.ext (by omega)
    have h3 : a3 = b3 := Fin.ext (by omega)
    rw [h0, h1, h2, h3]

/-- C2 at the pair of the specification: `"abc"` and `"abd"` have different fingerprints. -/
theorem fingerprint_abc_abd :
    ∃ x y, fingerprint (bytesOf "abc") = some x ∧ fingerprint (bytesOf "abd") = some y ∧ x ≠ y :=
  fingerprint_short_injective (bytesOf "abc") (bytesOf "abd") (by decide) (by decide)
    (by decide) (by decide)

/-- C1: for every byte sequence `b` of length `n < 2^31` the hash returns a value and reads
inside the buffer only. The block loop reads exactly the offsets `0 .. 16 * (n / 16) - 1`, the
tail switch exactly the remaining `n mod 16` offsets, and `fingerprint` is a function of the
byte sequence alone. -/
theorem fingerprint_total (b : List Byte) (hn : b.length < 2 ^ 31) :
    ∃ (body : Lanes) (t : TailState) (out : Lanes),
      blockLoop b (((b.length / 16 : Nat) : Int) * 16) (b.length / 16)
          ⟨kFingerPrint32Seed, kFingerPrint32Seed, kFingerPrint32Seed, kFingerPrint32Seed⟩ []
        = some (body, blockReads b.length)
      ∧ tailSwitch b (((b.length / 16 : Nat) : Int) * 16) ((b.length % 16 : Nat) : Int)
          ⟨0, 0, 0, 0, body⟩ [] = some (t, tailReads b.length)
      ∧ MurmurHash3_x86_128 b (toInt32 b.length) kFingerPrint32Seed []
        = some (out, blockReads b.length ++ tailReads b.length)
      ∧ fingerprint b = some (out.h1 + out.h2 * W32)
      ∧ (∀ i ∈ blockReads b.length ++ tailReads b.length, 0 ≤ i ∧ i < (b.length : Int))
      ∧ (∀ b2 : List Byte, b2 = b → fingerprint b2 = fingerprint b) := by
  have hn1 : b.length < 2147483648 := by simpa using hn
  have hcast : (((b.length / 16 : Nat) : Int) * 16) = ((16 * (b.length / 16) : Nat) : Int) := by
    omega
  obtain ⟨body, e1⟩ := blockLoop_ok b (b.length / 16) (by omega) (b.length / 16) le_rfl
    ⟨kFingerPrint32Seed, kFingerPrint32Seed, kFingerPrint32Seed, kFingerPrint32Seed⟩ []
  have e1a : blockLoop b (((b.length / 16 : Nat) : Int) * 16) (b.length / 16)
      ⟨kFingerPrint32Seed, kFingerPrint32Seed, kFingerPrint32Seed, kFingerPrint32Seed⟩ []
        = some (body, blockReads b.length) := by
    rw [e1]
    simp [blockReads, List.range_eq_range']
  have ht : ∀ log, ∃ t, tailSwitch b (((b.length / 16 : Nat) : Int) * 16)
      ((b.length % 16 : Nat) : Int) ⟨0, 0, 0, 0, body⟩ log
        = some (t, log ++ tailReads b.length) := by
    intro log
    rw [hcast]
    exact tailSwitch_ok b (16 * (b.length / 16)) (b.length % 16) (Nat.mod_lt _ (by omega))
      _ log (by omega)
  obtain ⟨t0, e2⟩ := ht []
  obtain ⟨t, e3⟩ := ht (blockReads b.length)
  have e4 : MurmurHash3_x86_128 b (toInt32 b.length) kFingerPrint32Seed []
      = some (finalize t.h (b.length % W32), blockReads b.length ++ tailReads b.length) := by
    rw [toInt32_of_lt _ hn1, murmur_nat, e1a]
    simp only [e3]
  refine ⟨body, t0, finalize t.h (b.length % W32), e1a, by simpa using e2, e4, ?_, ?_, ?_⟩
  · simp [fingerprint, e4]
  · intro i hi
    simp only [blockReads, tailReads, List.mem_append, List.mem_map, List.mem_reverse,
      List.mem_range] at hi
    rcases hi with ⟨j, hj, rfl⟩ | ⟨j, hj, rfl⟩
    · constructor <;> omega
    · constructor <;> omega
  · intro b2 h2
    rw [h2]

/-- C1 at the three bytes of `"abc"`. -/
theorem fingerprint_total_witness :
    ∃ (body : Lanes) (t : TailState) (out : Lanes),
      blockLoop (bytesOf "abc") ((((bytesOf "abc").length / 16 : Nat) : Int) * 16)
          ((bytesOf "abc").length / 16)
          ⟨kFingerPrint32Seed, kFingerPrint32Seed, kFingerPrint32Seed, kFingerPrint32Seed⟩ []
        = some (body, blockReads (bytesOf "abc").length)
      ∧ tailSwitch (bytesOf "abc") ((((bytesOf "abc").length / 16 : Nat) : Int) * 16)
          (((bytesOf "abc").length % 16 : Nat) : Int)
          ⟨0, 0, 0, 0, body⟩ [] = some (t, tailReads (bytesOf "abc").length)
      ∧ MurmurHash3_x86_128 (bytesOf "abc") (toInt32 (bytesOf "abc").length) kFingerPrint32Seed []
        = some (out, blockReads (bytesOf "abc").length ++ tailReads (bytesOf "abc").length)
      ∧ fingerprint (bytesOf "abc") = some (out.h1 + out.h2 * W32)
      ∧ (∀ i ∈ blockReads (bytesOf "abc").length ++ tailReads (bytesOf "abc").length,
          0 ≤ i ∧ i < ((bytesOf "abc").length : Int))
      ∧ (∀ b2 : List Byte, b2 = bytesOf "abc" → fingerprint b2 = fingerprint (bytesOf "abc")) :=
  fingerprint_total (bytesOf "abc") (by decide)

/-- A byte of the second part of a buffer, read at its offset from the end of the first
part. -/
theorem readByte_append (pre tail : List Byte) (j : Int) (b : Byte) (log : List Int)
    (hj : 0 ≤ j) (h : tail[j.toNat]? = some b) :
    readByte (pre ++ tail) ((pre.length : Int) + j) log
      = some (b.val, log ++ [(pre.length : Int) + j]) := by
  have h0 : 0 ≤ (pre.length : Int) + j := by omega
  have h1 : ((pre.length : Int) + j).toNat = pre.length + j.toNat := by omega
  unfold readByte
  rw [if_pos h0, h1, List.getElem?_append_right (Nat.le_add_right _ _), Nat.add_sub_cancel_left, h]

/-- Four bytes xored in at the shifts 24, 16, 8, 0 are their little-endian sum. -/
theorem word4 (x3 x2 x1 x0 : Nat) (h2 : x2 < 256) (h1 : x1 < 256) (h0 : x0 < 256) :
    0 ^^^ (x3 <<< 24) ^^^ (x2 <<< 16) ^^^ (x1 <<< 8) ^^^ (x0 <<< 0)
      = (x0 <<< 0) + (x1 <<< 8) + (x2 <<< 16) + (x3 <<< 24) := by
  rw [pack4 x3 x2 x1 x0 h2 h1 h0]
  simp only [Nat.shiftLeft_eq]
  omega

/-- Three bytes xored in at the shifts 16, 8, 0 are the little-endian sum with a zero fourth
byte. -/
theorem word3 (x2 x1 x0 : Nat) (h2 : x2 < 256) (h1 : x1 < 256) (h0 : x0 < 256) :
    0 ^^^ (x2 <<< 16) ^^^ (x1 <<< 8) ^^^ (x0 <<< 0)
      = (x0 <<< 0) + (x1 <<< 8) + (x2 <<< 16) + (0 <<< 24) := by
  rw [pack3 x2 x1 x0 h2 h1 h0]
  simp only [Nat.shiftLeft_eq]
  omega

/-- Two bytes xored in at the shifts 8, 0 are the little-endian sum with zero third and fourth
bytes. -/
theorem word2 (x1 x0 : Nat) (h1 : x1 < 256) (h0 : x0 < 256) :
    0 ^^^ (x1 <<< 8) ^^^ (x0 <<< 0) = (x0 <<< 0) + (x1 <<< 8) + (0 <<< 16) + (0 <<< 24) := by
  rw [pack2 x1 x0 h1 h0]
  simp only [Nat.shiftLeft_eq]
  omega

/-- One byte xored in at the shift 0 is the little-endian sum with three zero bytes. -/
theorem word1 (x0 : Nat) :
    0 ^^^ (x0 <<< 0) = (x0 <<< 0) + (0 <<< 8) + (0 <<< 16) + (0 <<< 24) := by
  rw [pack1 x0]
  simp only [Nat.shiftLeft_eq]
  omega

/-- On a 32-bit word the code's rotation by 15, a shift to the left or-ed with a shift to the
right, is the arithmetic rotation. -/
theorem rotl32_15_arith (x : Nat) (hx : x < W32) : rotl32 x 15 = rotateLeft32 x 15 := by
  unfold rotl32 rotateLeft32 W32 at *
  have e1 : (x <<< 15) % 4294967296 = 2 ^ 15 * (x % 131072) := by
    rw [Nat.shiftLeft_eq]
    omega
  have e2 : x >>> (32 - 15) = x / 131072 := by
    rw [Nat.shiftRight_eq_div_pow]
  have e3 : x / 131072 < 2 ^ 15 := by omega
  have e4 : (x * 2 ^ 15) % 2 ^ 32 = 2 ^ 15 * (x % 131072) := by omega
  have e5 : x / 2 ^ (32 - 15) = x / 131072 := by norm_num
  rw [e1, e2, e4, e5, ← Nat.mul_add_lt_is_or e3]

/-- On a 32-bit word the code's rotation by 16, a shift to the left or-ed with a shift to the
right, is the arithmetic rotation. -/
theorem rotl32_16_arith (x : Nat) (hx : x < W32) : rotl32 x 16 = rotateLeft32 x 16 := by
  unfold rotl32 rotateLeft32 W32 at *
  have e1 : (x <<< 16) % 4294967296 = 2 ^ 16 * (x % 65536) := by
    rw [Nat.shiftLeft_eq]
    omega
  have e2 : x >>> (32 - 16) = x / 65536 := by
    rw [Nat.shiftRight_eq_div_pow]
  have e3 : x / 65536 < 2 ^ 16 := by omega
  have e4 : (x * 2 ^ 16) % 2 ^ 32 = 2 ^ 16 * (x % 65536) := by omega
  have e5 : x / 2 ^ (32 - 16) = x / 65536 := by norm_num
  rw [e1, e2, e4, e5, ← Nat.mul_add_lt_is_or e3]

/-- On a 32-bit word the code's rotation by 17, a shift to the left or-ed with a shift to the
right, is the arithmetic rotation. -/
theorem rotl32_17_arith (x : Nat) (hx : x < W32) : rotl32 x 17 = rotateLeft32 x 17 := by
  unfold rotl32 rotateLeft32 W32 at *
  have e1 : (x <<< 17) % 4294967296 = 2 ^ 17 * (x % 32768) := by
    rw [Nat.shiftLeft_eq]
    omega
  have e2 : x >>> (32 - 17) = x / 32768 := by
    rw [Nat.shiftRight_eq_div_pow]
  have e3 : x / 32768 < 2 ^ 17 := by omega
  have e4 : (x * 2 ^ 17) % 2 ^ 32 = 2 ^ 17 * (x % 32768) := by omega
  have e5 : x / 2 ^ (32 - 17) = x / 32768 := by norm_num
  rw [e1, e2, e4, e5, ← Nat.mul_add_lt_is_or e3]

/-- On a 32-bit word the code's rotation by 18, a shift to the left or-ed with a shift to the
right, is the arithmetic rotation. -/
theorem rotl32_18_arith (x : Nat) (hx : x < W32) : rotl32 x 18 = rotateLeft32 x 18 := by
  unfold rotl32 rotateLeft32 W32 at *
  have e1 : (x <<< 18) % 4294967296 = 2 ^ 18 * (x % 16384) := by
    rw [Nat.shiftLeft_eq]
    omega
  have e2 : x >>> (32 - 18) = x / 16384 := by
    rw [Nat.shiftRight_eq_div_pow]
  have e3 : x / 16384 < 2 ^ 18 := by omega
  have e4 : (x * 2 ^ 18) % 2 ^ 32 = 2 ^ 18 * (x % 16384) := by omega
  have e5 : x / 2 ^ (32 - 18) = x / 16384 := by norm_num
  rw [e1, e2, e4, e5, ← Nat.mul_add_lt_is_or e3]

/-- The code's mix of lane 1, with its constants `c1` and `c2` and its rotation, is the mix
of the specification with the multipliers written as numbers. -/
theorem mixk_lane1 (k : Nat) : mixk k c1 15 c2 = tailMix k 0x239b961b 15 0xab0e9789 := by
  unfold mixk tailMix
  rw [rotl32_15_arith _ (Nat.mod_lt _ (by decide))]
  rfl

/-- The code's mix of lane 2, with its constants `c2` and `c3` and its rotation, is the mix
of the specification with the multipliers written as numbers. -/
theorem mixk_lane2 (k : Nat) : mixk k c2 16 c3 = tailMix k 0xab0e9789 16 0x38b34ae5 := by
  unfold mixk tailMix
  rw [rotl32_16_arith _ (Nat.mod_lt _ (by decide))]
  rfl

/-- The code's mix of lane 3, with its constants `c3` and `c4` and its rotation, is the mix
of the specification with the multipliers written as numbers. -/
theorem mixk_lane3 (k : Nat) : mixk k c3 17 c4 = tailMix k 0x38b34ae5 17 0xa1e38b93 := by
  unfold mixk tailMix
  rw [rotl32_17_arith _ (Nat.mod_lt _ (by decide))]
  rfl

/-- The code's mix of lane 4, with its constants `c4` and `c1` and its rotation, is the mix
of the specification with the multipliers written as numbers. -/
theorem mixk_lane4 (k : Nat) : mixk k c4 18 c1 = tailMix k 0xa1e38b93 18 0x239b961b := by
  unfold mixk tailMix
  rw [rotl32_18_arith _ (Nat.mod_lt _ (by decide))]
  rfl

/-- The switch entered at label 1 on a tail of 1 byte. -/
theorem tail_eq_1 (pre : List Byte) (b0 : Byte) (h : Lanes) (log : List Int) :
    ∃ st log1, tailSwitch (pre ++ [b0]) (pre.length : Int) 1 ⟨0, 0, 0, 0, h⟩ log
        = some (st, log1)
      ∧ st.h = tailExplicit h [b0] := by
  have hrun : ∃ st log1, tailSwitch (pre ++ [b0]) (pre.length : Int) 1 ⟨0, 0, 0, 0, h⟩ log
        = some (st, log1)
      ∧ st.h = ⟨h.h1 ^^^ mixk (0 ^^^ (b0.val <<< 0)) c1 15 c2,
        h.h2,
        h.h3,
        h.h4⟩ := by
    refine ⟨?st, ?lg, ?run, ?eq⟩
    case run =>
      show case1 (pre ++ [b0]) (pre.length : Int) ⟨0, 0, 0, 0, h⟩ log = _
      rewrite [case1, Rd.bind_some (readByte_append pre _ 0 b0 _ (by decide) rfl)]
      exact Rd.pure_run _ _
    case eq => rfl
  obtain ⟨st, log1, hrun, hst⟩ := hrun
  refine ⟨st, log1, hrun, hst.trans ?_⟩
  rewrite [word1 b0.val,
    mixk_lane1]
  rfl

/-- The switch entered at label 2 on a tail of 2 bytes. -/
theorem tail_eq_2 (pre : List Byte) (b0 b1 : Byte) (h : Lanes) (log : List Int) :
    ∃ st log1, tailSwitch (pre ++ [b0, b1]) (pre.length : Int) 2 ⟨0, 0, 0, 0, h⟩ log
        = some (st, log1)
      ∧ st.h = tailExplicit h [b0, b1] := by
  have hrun : ∃ st log1, tailSwitch (pre ++ [b0, b1]) (pre.length : Int) 2 ⟨0, 0, 0, 0, h⟩ log
        = some (st, log1)
      ∧ st.h = ⟨h.h1 ^^^ mixk (0 ^^^ (b1.val <<< 8) ^^^ (b0.val <<< 0)) c1 15 c2,
        h.h2,
        h.h3,
        h.h4⟩ := by
    refine ⟨?st, ?lg, ?run, ?eq⟩
    case run =>
      show case2 (pre ++ [b0, b1]) (pre.length : Int) ⟨0, 0, 0, 0, h⟩ log = _
      rewrite [case2, Rd.bind_some (readByte_append pre _ 1 b1 _ (by decide) rfl),
        case1, Rd.bind_some (readByte_append pre _ 0 b0 _ (by decide) rfl)]
      exact Rd.pure_run _ _
    case eq => rfl
  obtain ⟨st, log1, hrun, hst⟩ := hrun
  refine ⟨st, log1, hrun, hst.trans ?_⟩
  rewrite [word2 b1.val b0.val b1.isLt b0.isLt,
    mixk_lane1]
  rfl

/-- The switch entered at label 3 on a tail of 3 bytes. -/
theorem tail_eq_3 (pre : List Byte) (b0 b1 b2 : Byte) (h : Lanes) (log : List Int) :
    ∃ st log1, tailSwitch (pre ++ [b0, b1, b2]) (pre.length : Int) 3 ⟨0, 0, 0, 0, h⟩ log
        = some (st, log1)
      ∧ st.h = tailExplicit h [b0, b1, b2] := by
  have hrun : ∃ st log1, tailSwitch (pre ++ [b0, b1, b2]) (pre.length : Int) 3 ⟨0, 0, 0, 0, h⟩ log
        = some (st, log1)
      ∧ st.h = ⟨h.h1 ^^^ mixk (0 ^^^ (b2.val <<< 16) ^^^ (b1.val <<< 8) ^^^ (b0.val <<< 0)) c1 15 c2,
        h.h2,
        h.h3,
        h.h4⟩ := by
    refine ⟨?st, ?lg, ?run, ?eq⟩
    case run =>
      show case3 (pre ++ [b0, b1, b2]) (pre.length : Int) ⟨0, 0, 0, 0, h⟩ log = _
      rewrite [case3, Rd.bind_some (readByte_append pre _ 2 b2 _ (by decide) rfl),
        case2, Rd.bind_some (readByte_append pre _ 1 b1 _ (by decide) rfl),
        case1, Rd.bind_some (readByte_append pre _ 0 b0 _ (by decide) rfl)]
      exact Rd.pure_run _ _
    case eq => rfl
  obtain ⟨st, log1, hrun, hst⟩ := hrun
  refine ⟨st, log1, hrun, hst.trans ?_⟩
  rewrite [word3 b2.val b1.val b0.val b2.isLt b1.isLt b0.isLt,
    mixk_lane1]
  rfl

/-- The switch entered at label 4 on a tail of 4 bytes. -/
theorem tail_eq_4 (pre : List Byte) (b0 b1 b2 b3 : Byte) (h : Lanes) (log : List Int) :
    ∃ st log1, tailSwitch (pre ++ [b0, b1, b2, b3]) (pre.length : Int) 4 ⟨0, 0, 0, 0, h⟩ log
        = some (st, log1)
      ∧ st.h = tailExplicit h [b0, b1, b2, b3] := by
  have hrun : ∃ st log1, tailSwitch (pre ++ [b0, b1, b2, b3]) (pre.length : Int) 4 ⟨0, 0, 0, 0, h⟩ log
        = some (st, log1)
      ∧ st.h = ⟨h.h1 ^^^ mixk (0 ^^^ (b3.val <<< 24) ^^^ (b2.val <<< 16) ^^^ (b1.val <<< 8) ^^^ (b0.val <<< 0)) c1 15 c2,
        h.h2,
        h.h3,
        h.h4⟩ := by
    refine ⟨?st, ?lg, ?run, ?eq⟩
    case run =>
      show case4 (pre ++ [b0, b1, b2, b3]) (pre.length : Int) ⟨0, 0, 0, 0, h⟩ log = _
      rewrite [case4, Rd.bind_some (readByte_append pre _ 3 b3 _ (by decide) rfl),
        case3, Rd.bind_some (readByte_append pre _ 2 b2 _ (by decide) rfl),
        case2, Rd.bind_some (readByte_append pre _ 1 b1 _ (by decide) rfl),
        case1, Rd.bind_some (readByte_append pre _ 0 b0 _ (by decide) rfl)]
      exact Rd.pure_run _ _
    case eq => rfl
  obtain ⟨st, log1, hrun, hst⟩ := hrun
  refine ⟨st, log1, hrun, hst.trans ?_⟩
  rewrite [word4 b3.val b2.val b1.val b0.val b2.isLt b1.isLt b0.isLt,
    mixk_lane1]
  rfl

/-- The switch entered at label 5 on a tail of 5 bytes. -/
theorem tail_eq_5 (pre : List Byte) (b0 b1 b2 b3 b4 : Byte) (h : Lanes) (log : List Int) :
    ∃ st log1, tailSwitch (pre ++ [b0, b1, b2, b3, b4]) (pre.length : Int) 5 ⟨0, 0, 0, 0, h⟩ log
        = some (st, log1)
      ∧ st.h = tailExplicit h [b0, b1, b2, b3, b4] := by
  have hrun : ∃ st log1, tailSwitch (pre ++ [b0, b1, b2, b3, b4]) (pre.length : Int) 5 ⟨0, 0, 0, 0, h⟩ log
        = some (st, log1)
      ∧ st.h = ⟨h.h1 ^^^ mixk (0 ^^^ (b3.val <<< 24) ^^^ (b2.val <<< 16) ^^^ (b1.val <<< 8) ^^^ (b0.val <<< 0)) c1 15 c2,
        h.h2 ^^^ mixk (0 ^^^ (b4.val <<< 0)) c2 16 c3,
        h.h3,
        h.h4⟩ := by
    refine ⟨?st, ?lg, ?run, ?eq⟩
    case run =>
      show case5 (pre ++ [b0, b1, b2, b3, b4]) (pre.length : Int) ⟨0, 0, 0, 0, h⟩ log = _
      rewrite [case5, Rd.bind_some (readByte_append pre _ 4 b4 _ (by decide) rfl),
        case4, Rd.bind_some (readByte_append pre _ 3 b3 _ (by decide) rfl),
        case3, Rd.bind_some (readByte_append pre _ 2 b2 _ (by decide) rfl),
        case2, Rd.bind_some (readByte_append pre _ 1 b1 _ (by decide) rfl),
        case1, Rd.bind_some (readByte_append pre _ 0 b0 _ (by decide) rfl)]
      exact Rd.pure_run _ _
    case eq => rfl
  obtain ⟨st, log1, hrun, hst⟩ := hrun
  refine ⟨st, log1, hrun, hst.trans ?_⟩
  rewrite [word4 b3.val b2.val b1.val b0.val b2.isLt b1.isLt b0.isLt,
    mixk_lane1,
    word1 b4.val,
    mixk_lane2]
  rfl

/-- The switch entered at label 6 on a tail of 6 bytes. -/
theorem tail_eq_6 (pre : List Byte) (b0 b1 b2 b3 b4 b5 : Byte) (h : Lanes) (log : List Int) :
    ∃ st log1, tailSwitch (pre ++ [b0, b1, b2, b3, b4, b5]) (pre.length : Int) 6 ⟨0, 0, 0, 0, h⟩ log
        = some (st, log1)
      ∧ st.h = tailExplicit h [b0, b1, b2, b3, b4, b5] := by
  have hrun : ∃ st log1, tailSwitch (pre ++ [b0, b1, b2, b3, b4, b5]) (pre.length : Int) 6 ⟨0, 0, 0, 0, h⟩ log
        = some (st, log1)
      ∧ st.h = ⟨h.h1 ^^^ mixk (0 ^^^ (b3.val <<< 24) ^^^ (b2.val <<< 16) ^^^ (b1.val <<< 8) ^^^ (b0.val <<< 0)) c1 15 c2,
        h.h2 ^^^ mixk (0 ^^^ (b5.val <<< 8) ^^^ (b4.val <<< 0)) c2 16 c3,
        h.h3,
        h.h4⟩ := by
    refine ⟨?st, ?lg, ?run, ?eq⟩
    case run =>
      show case6 (pre ++ [b0, b1, b2, b3, b4, b5]) (pre.length : Int) ⟨0, 0, 0, 0, h⟩ log = _
      rewrite [case6, Rd.bind_some (readByte_append pre _ 5 b5 _ (by decide) rfl),
        case5, Rd.bind_some (readByte_append pre _ 4 b4 _ (by decide) rfl),
        case4, Rd.bind_some (readByte_append pre _ 3 b3 _ (by decide) rfl),
        case3, Rd.bind_some (readByte_append pre _ 2 b2 _ (by decide) rfl),
        case2, Rd.bind_some (readByte_append pre _ 1 b1 _ (by decide) rfl),
        case1, Rd.bind_some (readByte_append pre _ 0 b0 _ (by decide) rfl)]
      exact Rd.pure_run _ _
    case eq => rfl
  obtain ⟨st, log1, hrun, hst⟩ := hrun
  refine ⟨st, log1, hrun, hst.trans ?_⟩
  rewrite [word4 b3.val b2.val b1.val b0.val b2.isLt b1.isLt b0.isLt,
    mixk_lane1,
    word2 b5.val b4.val b5.isLt b4.isLt,
    mixk_lane2]
  rfl

/-- The switch entered at label 7 on a tail of 7 bytes. -/
theorem tail_eq_7 (pre : List Byte) (b0 b1 b2 b3 b4 b5 b6 : Byte) (h : Lanes) (log : List Int) :
    ∃ st log1, tailSwitch (pre ++ [b0, b1, b2, b3, b4, b5, b6]) (pre.length : Int) 7 ⟨0, 0, 0, 0, h⟩ log
        = some (st, log1)
      ∧ st.h = tailExplicit h [b0, b1, b2, b3, b4, b5, b6] := by
  have hrun : ∃ st log1, tailSwitch (pre ++ [b0, b1, b2, b3, b4, b5, b6]) (pre.length : Int) 7 ⟨0, 0, 0, 0, h⟩ log
        = some (st, log1)
      ∧ st.h = ⟨h.h1 ^^^ mixk (0 ^^^ (b3.val <<< 24) ^^^ (b2.val <<< 16) ^^^ (b1.val <<< 8) ^^^ (b0.val <<< 0)) c1 15 c2,
        h.h2 ^^^ mixk (0 ^^^ (b6.val <<< 16) ^^^ (b5.val <<< 8) ^^^ (b4.val <<< 0)) c2 16 c3,
        h.h3,
        h.h4⟩ := by
    refine ⟨?st, ?lg, ?run, ?eq⟩
    case run =>
      show case7 (pre ++ [b0, b1, b2, b3, b4, b5, b6]) (pre.length : Int) ⟨0, 0, 0, 0, h⟩ log = _
      rewrite [case7, Rd.bind_some (readByte_append pre _ 6 b6 _ (by decide) rfl),
        case6, Rd.bind_some (readByte_append pre _ 5 b5 _ (by decide) rfl),
        case5, Rd.bind_some (readByte_append pre _ 4 b4 _ (by decide) rfl),
        case4, Rd.bind_some (readByte_append pre _ 3 b3 _ (by decide) rfl),
        case3, Rd.bind_some (readByte_append pre _ 2 b2 _ (by decide) rfl),
        case2, Rd.bind_some (readByte_append pre _ 1 b1 _ (by decide) rfl),
        case1, Rd.bind_some (readByte_append pre _ 0 b0 _ (by decide) rfl)]
      exact Rd.pure_run _ _
    case eq => rfl
  obtain ⟨st, log1, hrun, hst⟩ := hrun
  refine ⟨st, log1, hrun, hst.trans ?_⟩
  rewrite [word4 b3.val b2.val b1.val b0.val b2.isLt b1.isLt b0.isLt,
    mixk_lane1,
    word3 b6.val b5.val b4.val b6.isLt b5.isLt b4.isLt,
    mixk_lane2]
  rfl

/-- The switch entered at label 8 on a tail of 8 bytes. -/
theorem tail_eq_8 (pre : List Byte) (b0 b1 b2 b3 b4 b5 b6 b7 : Byte) (h : Lanes) (log : List Int) :
    ∃ st log1, tailSwitch (pre ++ [b0, b1, b2, b3, b4, b5, b6, b7]) (pre.length : Int) 8 ⟨0, 0, 0, 0, h⟩ log
        = some (st, log1)
      ∧ st.h = tailExplicit h [b0, b1, b2, b3, b4, b5, b6, b7] := by
  have hrun : ∃ st log1, tailSwitch (pre ++ [b0, b1, b2, b3, b4, b5, b6, b7]) (pre.length : Int) 8 ⟨0, 0, 0, 0, h⟩ log
        = some (st, log1)
      ∧ st.h = ⟨h.h1 ^^^ mixk (0 ^^^ (b3.val <<< 24) ^^^ (b2.val <<< 16) ^^^ (b1.val <<< 8) ^^^ (b0.val <<< 0)) c1 15 c2,
        h.h2 ^^^ mixk (0 ^^^ (b7.val <<< 24) ^^^ (b6.val <<< 16) ^^^ (b5.val <<< 8) ^^^ (b4.val <<< 0)) c2 16 c3,
        h.h3,
        h.h4⟩ := by
    refine ⟨?st, ?lg, ?run, ?eq⟩
    case run =>
      show case8 (pre ++ [b0, b1, b2, b3, b4, b5, b6, b7]) (pre.length : Int) ⟨0, 0, 0, 0, h⟩ log = _
      rewrite [case8, Rd.bind_some (readByte_append pre _ 7 b7 _ (by decide) rfl),
        case7, Rd.bind_some (readByte_append pre _ 6 b6 _ (by decide) rfl),
        case6, Rd.bind_some (readByte_append pre _ 5 b5 _ (by decide) rfl),
        case5, Rd.bind_some (readByte_append pre _ 4 b4 _ (by decide) rfl),
        case4, Rd.bind_some (readByte_append pre _ 3 b3 _ (by decide) rfl),
        case3, Rd.bind_some (readByte_append pre _ 2 b2 _ (by decide) rfl),
        case2, Rd.bind_some (readByte_append pre _ 1 b1 _ (by decide) rfl),
        case1, Rd.bind_some (readByte_append pre _ 0 b0 _ (by decide) rfl)]
      exact Rd.pure_run _ _
    case eq => rfl
  obtain ⟨st, log1, hrun, hst⟩ := hrun
  refine ⟨st, log1, hrun, hst.trans ?_⟩
  rewrite [word4 b3.val b2.val b1.val b0.val b2.isLt b1.isLt b0.isLt,
    mixk_lane1,
    word4 b7.val b6.val b5.val b4.val b6.isLt b5.isLt b4.isLt,
    mixk_lane2]
  rfl

/-- The switch entered at label 9 on a tail of 9 bytes. -/
theorem tail_eq_9 (pre : List Byte) (b0 b1 b2 b3 b4 b5 b6 b7 b8 : Byte) (h : Lanes) (log : List Int) :
    ∃ st log1, tailSwitch (pre ++ [b0, b1, b2, b3, b4, b5, b6, b7, b8]) (pre.length : Int) 9 ⟨0, 0, 0, 0, h⟩ log
        = some (st, log1)
      ∧ st.h = tailExplicit h [b0, b1, b2, b3, b4, b5, b6, b7, b8] := by
  have hrun : ∃ st log1, tailSwitch (pre ++ [b0, b1, b2, b3, b4, b5, b6, b7, b8]) (pre.length : Int) 9 ⟨0, 0, 0, 0, h⟩ log
        = some (st, log1)
      ∧ st.h = ⟨h.h1 ^^^ mixk (0 ^^^ (b3.val <<< 24) ^^^ (b2.val <<< 16) ^^^ (b1.val <<< 8) ^^^ (b0.val <<< 0)) c1 15 c2,
        h.h2 ^^^ mixk (0 ^^^ (b7.val <<< 24) ^^^ (b6.val <<< 16) ^^^ (b5.val <<< 8) ^^^ (b4.val <<< 0)) c2 16 c3,
        h.h3 ^^^ mixk (0 ^^^ (b8.val <<< 0)) c3 17 c4,
        h.h4⟩ := by
    refine ⟨?st, ?lg, ?run, ?eq⟩
    case run =>
      show case9 (pre ++ [b0, b1, b2, b3, b4, b5, b6, b7, b8]) (pre.length : Int) ⟨0, 0, 0, 0, h⟩ log = _
      rewrite [case9, Rd.bind_some (readByte_append pre _ 8 b8 _ (by decide) rfl),
        case8, Rd.bind_some (readByte_append pre _ 7 b7 _ (by decide) rfl),
        case7, Rd.bind_some (readByte_append pre _ 6 b6 _ (by decide) rfl),
        case6, Rd.bind_some (readByte_append pre _ 5 b5 _ (by decide) rfl),
        case5, Rd.bind_some (readByte_append pre _ 4 b4 _ (by decide) rfl),
        case4, Rd.bind_some (readByte_append pre _ 3 b3 _ (by decide) rfl),
        case3, Rd.bind_some (readByte_append pre _ 2 b2 _ (by decide) rfl),
        case2, Rd.bind_some (readByte_append pre _ 1 b1 _ (by decide) rfl),
        case1, Rd.bind_some (readByte_append pre _ 0 b0 _ (by decide) rfl)]
      exact Rd.pure_run _ _
    case eq => rfl
  obtain ⟨st, log1, hrun, hst⟩ := hrun
  refine ⟨st, log1, hrun, hst.trans ?_⟩
  rewrite [word4 b3.val b2.val b1.val b0.val b2.isLt b1.isLt b0.isLt,
    mixk_lane1,
    word4 b7.val b6.val b5.val b4.val b6.isLt b5.isLt b4.isLt,
    mixk_lane2,
    word1 b8.val,
    mixk_lane3]
  rfl

/-- The switch entered at label 10 on a tail of 10 bytes. -/
theorem tail_eq_10 (pre : List Byte) (b0 b1 b2 b3 b4 b5 b6 b7 b8 b9 : Byte) (h : Lanes) (log : List Int) :
    ∃ st log1, tailSwitch (pre ++ [b0, b1, b2, b3, b4, b5, b6, b7, b8, b9]) (pre.length : Int) 10 ⟨0, 0, 0, 0, h⟩ log
        = some (st, log1)
      ∧ st.h = tailExplicit h [b0, b1, b2, b3, b4, b5, b6, b7, b8, b9] := by
  have hrun : ∃ st log1, tailSwitch (pre ++ [b0, b1, b2, b3, b4, b5, b6, b7, b8, b9]) (pre.length : Int) 10 ⟨0, 0, 0, 0, h⟩ log
        = some (st, log1)
      ∧ st.h = ⟨h.h1 ^^^ mixk (0 ^^^ (b3.val <<< 24) ^^^ (b2.val <<< 16) ^^^ (b1.val <<< 8) ^^^ (b0.val <<< 0)) c1 15 c2,
        h.h2 ^^^ mixk (0 ^^^ (b7.val <<< 24) ^^^ (b6.val <<< 16) ^^^ (b5.val <<< 8) ^^^ (b4.val <<< 0)) c2 16 c3,
        h.h3 ^^^ mixk (0 ^^^ (b9.val <<< 8) ^^^ (b8.val <<< 0)) c3 17 c4,
        h.h4⟩ := by
    refine ⟨?st, ?lg, ?run, ?eq⟩
    case run =>
      show case10 (pre ++ [b0, b1, b2, b3, b4, b5, b6, b7, b8, b9]) (pre.length : Int) ⟨0, 0, 0, 0, h⟩ log = _
      rewrite [case10, Rd.bind_some (readByte_append pre _ 9 b9 _ (by decide) rfl),
        case9, Rd.bind_some (readByte_append pre _ 8 b8 _ (by decide) rfl),
        case8, Rd.bind_some (readByte_append pre _ 7 b7 _ (by decide) rfl),
        case7, Rd.bind_some (readByte_append pre _ 6 b6 _ (by decide) rfl),
        case6, Rd.bind_some (readByte_append pre _ 5 b5 _ (by decide) rfl),
        case5, Rd.bind_some (readByte_append pre _ 4 b4 _ (by decide) rfl),
        case4, Rd.bind_some (readByte_append pre _ 3 b3 _ (by decide) rfl),
        case3, Rd.bind_some (readByte_append pre _ 2 b2 _ (by decide) rfl),
        case2, Rd.bind_some (readByte_append pre _ 1 b1 _ (by decide) rfl),
        case1, Rd.bind_some (readByte_append pre _ 0 b0 _ (by decide) rfl)]
      exact Rd.pure_run _ _
    case eq => rfl
  obtain ⟨st, log1, hrun, hst⟩ := hrun
  refine ⟨st, log1, hrun, hst.trans ?_⟩
  rewrite [word4 b3.val b2.val b1.val b0.val b2.isLt b1.isLt b0.isLt,
    mixk_lane1,
    word4 b7.val b6.val b5.val b4.val b6.isLt b5.isLt b4.isLt,
    mixk_lane2,
    word2 b9.val b8.val b9.isLt b8.isLt,
    mixk_lane3]
  rfl

/-- The switch entered at label 11 on a tail of 11 bytes. -/
theorem tail_eq_11 (pre : List Byte) (b0 b1 b2 b3 b4 b5 b6 b7 b8 b9 b10 : Byte) (h : Lanes) (log : List Int) :
    ∃ st log1, tailSwitch (pre ++ [b0, b1, b2, b3, b4, b5, b6, b7, b8, b9, b10]) (pre.length : Int) 11 ⟨0, 0, 0, 0, h⟩ log
        = some (st, log1)
      ∧ st.h = tailExplicit h [b0, b1, b2, b3, b4, b5, b6, b7, b8, b9, b10] := by
  have hrun : ∃ st log1, tailSwitch (pre ++ [b0, b1, b2, b3, b4, b5, b6, b7, b8, b9, b10]) (pre.length : Int) 11 ⟨0, 0, 0, 0, h⟩ log
        = some (st, log1)
      ∧ st.h = ⟨h.h1 ^^^ mixk (0 ^^^ (b3.val <<< 24) ^^^ (b2.val <<< 16) ^^^ (b1.val <<< 8) ^^^ (b0.val <<< 0)) c1 15 c2,
        h.h2 ^^^ mixk (0 ^^^ (b7.val <<< 24) ^^^ (b6.val <<< 16) ^^^ (b5.val <<< 8) ^^^ (b4.val <<< 0)) c2 16 c3,
        h.h3 ^^^ mixk (0 ^^^ (b10.val <<< 16) ^^^ (b9.val <<< 8) ^^^ (b8.val <<< 0)) c3 17 c4,
        h.h4⟩ := by
    refine ⟨?st, ?lg, ?run, ?eq⟩
    case run =>
      show case11 (pre ++ [b0, b1, b2, b3, b4, b5, b6, b7, b8, b9, b10]) (pre.length : Int) ⟨0, 0, 0, 0, h⟩ log = _
      rewrite [case11, Rd.bind_some (readByte_append pre _ 10 b10 _ (by decide) rfl),
        case10, Rd.bind_some (readByte_append pre _ 9 b9 _ (by decide) rfl),
        case9, Rd.bind_some (readByte_append pre _ 8 b8 _ (by decide) rfl),
        case8, Rd.bind_some (readByte_append pre _ 7 b7 _ (by decide) rfl),
        case7, Rd.bind_some (readByte_append pre _ 6 b6 _ (by decide) rfl),
        case6, Rd.bind_some (readByte_append pre _ 5 b5 _ (by decide) rfl),
        case5, Rd.bind_some (readByte_append pre _ 4 b4 _ (by decide) rfl),
        case4, Rd.bind_some (readByte_append pre _ 3 b3 _ (by decide) rfl),
        case3, Rd.bind_some (readByte_append pre _ 2 b2 _ (by decide) rfl),
        case2, Rd.bind_some (readByte_append pre _ 1 b1 _ (by decide) rfl),
        case1, Rd.bind_some (readByte_append pre _ 0 b0 _ (by decide) rfl)]
      exact Rd.pure_run _ _
    case eq => rfl
  obtain ⟨st, log1, hrun, hst⟩ := hrun
  refine ⟨st, log1, hrun, hst.trans ?_⟩
  rewrite [word4 b3.val b2.val b1.val b0.val b2.isLt b1.isLt b0.isLt,
    mixk_lane1,
    word4 b7.val b6.val b5.val b4.val b6.isLt b5.isLt b4.isLt,
    mixk_lane2,
    word3 b10.val b9.val b8.val b10.isLt b9.isLt b8.isLt,
    mixk_lane3]
  rfl

/-- The switch entered at label 12 on a tail of 12 bytes. -/
theorem tail_eq_12 (pre : List Byte) (b0 b1 b2 b3 b4 b5 b6 b7 b8 b9 b10 b11 : Byte) (h : Lanes) (log : List Int) :
    ∃ st log1, tailSwitch (pre ++ [b0, b1, b2, b3, b4, b5, b6, b7, b8, b9, b10, b11]) (pre.length : Int) 12 ⟨0, 0, 0, 0, h⟩ log
        = some (st, log1)
      ∧ st.h = tailExplicit h [b0, b1, b2, b3, b4, b5, b6, b7, b8, b9, b10, b11] := by
  have hrun : ∃ st log1, tailSwitch (pre ++ [b0, b1, b2, b3, b4, b5, b6, b7, b8, b9, b10, b11]) (pre.length : Int) 12 ⟨0, 0, 0, 0, h⟩ log
        = some (st, log1)
      ∧ st.h = ⟨h.h1 ^^^ mixk (0 ^^^ (b3.val <<< 24) ^^^ (b2.val <<< 16) ^^^ (b1.val <<< 8) ^^^ (b0.val <<< 0)) c1 15 c2,
        h.h2 ^^^ mixk (0 ^^^ (b7.val <<< 24) ^^^ (b6.val <<< 16) ^^^ (b5.val <<< 8) ^^^ (b4.val <<< 0)) c2 16 c3,
        h.h3 ^^^ mixk (0 ^^^ (b11.val <<< 24) ^^^ (b10.val <<< 16) ^^^ (b9.val <<< 8) ^^^ (b8.val <<< 0)) c3 17 c4,
        h.h4⟩ := by
    refine ⟨?st, ?lg, ?run, ?eq⟩
    case run =>
      show case12 (pre ++ [b0, b1, b2, b3, b4, b5, b6, b7, b8, b9, b10, b11]) (pre.length : Int) ⟨0, 0, 0, 0, h⟩ log = _
      rewrite [case12, Rd.bind_some (readByte_append pre _ 11 b11 _ (by decide) rfl),
        case11, Rd.bind_some (readByte_append pre _ 10 b10 _ (by decide) rfl),
        case10, Rd.bind_some (readByte_append pre _ 9 b9 _ (by decide) rfl),
        case9, Rd.bind_some (readByte_append pre _ 8 b8 _ (by decide) rfl),
        case8, Rd.bind_some (readByte_append pre _ 7 b7 _ (by decide) rfl),
        case7, Rd.bind_some (readByte_append pre _ 6 b6 _ (by decide) rfl),
        case6, Rd.bind_some (readByte_append pre _ 5 b5 _ (by decide) rfl),
        case5, Rd.bind_some (readByte_append pre _ 4 b4 _ (by decide) rfl),
        case4, Rd.bind_some (readByte_append pre _ 3 b3 _ (by decide) rfl),
        case3, Rd.bind_some (readByte_append pre _ 2 b2 _ (by decide) rfl),
        case2, Rd.bind_some (readByte_append pre _ 1 b1 _ (by decide) rfl),
        case1, Rd.bind_some (readByte_append pre _ 0 b0 _ (by decide) rfl)]
      exact Rd.pure_run _ _
    case eq => rfl
  obtain ⟨st, log1, hrun, hst⟩ := hrun
  refine ⟨st, log1, hrun, hst.trans ?_⟩
  rewrite [word4 b3.val b2.val b1.val b0.val b2.isLt b1.isLt b0.isLt,
    mixk_lane1,
    word4 b7.val b6.val b5.val b4.val b6.isLt b5.isLt b4.isLt,
    mixk_lane2,
    word4 b11.val b10.val b9.val b8.val b10.isLt b9.isLt b8.isLt,
    mixk_lane3]
  rfl

/-- The switch entered at label 13 on a tail of 13 bytes. -/
theorem tail_eq_13 (pre : List Byte) (b0 b1 b2 b3 b4 b5 b6 b7 b8 b9 b10 b11 b12 : Byte) (h : Lanes) (log : List Int) :
    ∃ st log1, tailSwitch (pre ++ [b0, b1, b2, b3, b4, b5, b6, b7, b8, b9, b10, b11, b12]) (pre.length : Int) 13 ⟨0, 0, 0, 0, h⟩ log
        = some (st, log1)
      ∧ st.h = tailExplicit h [b0, b1, b2, b3, b4, b5, b6, b7, b8, b9, b10, b11, b12] := by
  have hrun : ∃ st log1, tailSwitch (pre ++ [b0, b1, b2, b3, b4, b5, b6, b7, b8, b9, b10, b11, b12]) (pre.length : Int) 13 ⟨0, 0, 0, 0, h⟩ log
        = some (st, log1)
      ∧ st.h = ⟨h.h1 ^^^ mixk (0 ^^^ (b3.val <<< 24) ^^^ (b2.val <<< 16) ^^^ (b1.val <<< 8) ^^^ (b0.val <<< 0)) c1 15 c2,
        h.h2 ^^^ mixk (0 ^^^ (b7.val <<< 24) ^^^ (b6.val <<< 16) ^^^ (b5.val <<< 8) ^^^ (b4.val <<< 0)) c2 16 c3,
        h.h3 ^^^ mixk (0 ^^^ (b11.val <<< 24) ^^^ (b10.val <<< 16) ^^^ (b9.val <<< 8) ^^^ (b8.val <<< 0)) c3 17 c4,
        h.h4 ^^^ mixk (0 ^^^ (b12.val <<< 0)) c4 18 c1⟩ := by
    refine ⟨?st, ?lg, ?run, ?eq⟩
    case run =>
      show case13 (pre ++ [b0, b1, b2, b3, b4, b5, b6, b7, b8, b9, b10, b11, b12]) (pre.length : Int) ⟨0, 0, 0, 0, h⟩ log = _
      rewrite [case13, Rd.bind_some (readByte_append pre _ 12 b12 _ (by decide) rfl),
        case12, Rd.bind_some (readByte_append pre _ 11 b11 _ (by decide) rfl),
        case11, Rd.bind_some (readByte_append pre _ 10 b10 _ (by decide) rfl),
        case10, Rd.bind_some (readByte_append pre _ 9 b9 _ (by decide) rfl),
        case9, Rd.bind_some (readByte_append pre _ 8 b8 _ (by decide) rfl),
        case8, Rd.bind_some (readByte_append pre _ 7 b7 _ (by decide) rfl),
        case7, Rd.bind_some (readByte_append pre _ 6 b6 _ (by decide) rfl),
        case6, Rd.bind_some (readByte_append pre _ 5 b5 _ (by decide) rfl),
        case5, Rd.bind_some (readByte_append pre _ 4 b4 _ (by decide) rfl),
        case4, Rd.bind_some (readByte_append pre _ 3 b3 _ (by decide) rfl),
        case3, Rd.bind_some (readByte_append pre _ 2 b2 _ (by decide) rfl),
        case2, Rd.bind_some (readByte_append pre _ 1 b1 _ (by decide) rfl),
        case1, Rd.bind_some (readByte_append pre _ 0 b0 _ (by decide) rfl)]
      exact Rd.pure_run _ _
    case eq => rfl
  obtain ⟨st, log1, hrun, hst⟩ := hrun
  refine ⟨st, log1, hrun, hst.trans ?_⟩
  rewrite [word4 b3.val b2.val b1.val b0.val b2.isLt b1.isLt b0.isLt,
    mixk_lane1,
    word4 b7.val b6.val b5.val b4.val b6.isLt b5.isLt b4.isLt,
    mixk_lane2,
    word4 b11.val b10.val b9.val b8.val b10.isLt b9.isLt b8.isLt,
    mixk_lane3,
    word1 b12.val,
    mixk_lane4]
  rfl

/-- The switch entered at label 14 on a tail of 14 bytes. -/
theorem tail_eq_14 (pre : List Byte) (b0 b1 b2 b3 b4 b5 b6 b7 b8 b9 b10 b11 b12 b13 : Byte) (h : Lanes) (log : List Int) :
    ∃ st log1, tailSwitch (pre ++ [b0, b1, b2, b3, b4, b5, b6, b7, b8, b9, b10, b11, b12, b13]) (pre.length : Int) 14 ⟨0, 0, 0, 0, h⟩ log
        = some (st, log1)
      ∧ st.h = tailExplicit h [b0, b1, b2, b3, b4, b5, b6, b7, b8, b9, b10, b11, b12, b13] := by
  have hrun : ∃ st log1, tailSwitch (pre ++ [b0, b1, b2, b3, b4, b5, b6, b7, b8, b9, b10, b11, b12, b13]) (pre.length : Int) 14 ⟨0, 0, 0, 0, h⟩ log
        = some (st, log1)
      ∧ st.h = ⟨h.h1 ^^^ mixk (0 ^^^ (b3.val <<< 24) ^^^ (b2.val <<< 16) ^^^ (b1.val <<< 8) ^^^ (b0.val <<< 0)) c1 15 c2,
        h.h2 ^^^ mixk (0 ^^^ (b7.val <<< 24) ^^^ (b6.val <<< 16) ^^^ (b5.val <<< 8) ^^^ (b4.val <<< 0)) c2 16 c3,
        h.h3 ^^^ mixk (0 ^^^ (b11.val <<< 24) ^^^ (b10.val <<< 16) ^^^ (b9.val <<< 8) ^^^ (b8.val <<< 0)) c3 17 c4,
        h.h4 ^^^ mixk (0 ^^^ (b13.val <<< 8) ^^^ (b12.val <<< 0)) c4 18 c1⟩ := by
    refine ⟨?st, ?lg, ?run, ?eq⟩
    case run =>
      show case14 (pre ++ [b0, b1, b2, b3, b4, b5, b6, b7, b8, b9, b10, b11, b12, b13]) (pre.length : Int) ⟨0, 0, 0, 0, h⟩ log = _
      rewrite [case14, Rd.bind_some (readByte_append pre _ 13 b13 _ (by decide) rfl),
        case13, Rd.bind_some (readByte_append pre _ 12 b12 _ (by decide) rfl),
        case12, Rd.bind_some (readByte_append pre _ 11 b11 _ (by decide) rfl),
        case11, Rd.bind_some (readByte_append pre _ 10 b10 _ (by decide) rfl),
        case10, Rd.bind_some (readByte_append pre _ 9 b9 _ (by decide) rfl),
        case9, Rd.bind_some (readByte_append pre _ 8 b8 _ (by decide) rfl),
        case8, Rd.bind_some (readByte_append pre _ 7 b7 _ (by decide) rfl),
        case7, Rd.bind_some (readByte_append pre _ 6 b6 _ (by decide) rfl),
        case6, Rd.bind_some (readByte_append pre _ 5 b5 _ (by decide) rfl),
        case5, Rd.bind_some (readByte_append pre _ 4 b4 _ (by decide) rfl),
        case4, Rd.bind_some (readByte_append pre _ 3 b3 _ (by decide) rfl),
        case3, Rd.bind_some (readByte_append pre _ 2 b2 _ (by decide) rfl),
        case2, Rd.bind_some (readByte_append pre _ 1 b1 _ (by decide) rfl),
        case1, Rd.bind_some (readByte_append pre _ 0 b0 _ (by decide) rfl)]
      exact Rd.pure_run _ _
    case eq => rfl
  obtain ⟨st, log1, hrun, hst⟩ := hrun
  refine ⟨st, log1, hrun, hst.trans ?_⟩
  rewrite [word4 b3.val b2.val b1.val b0.val b2.isLt b1.isLt b0.isLt,
    mixk_lane1,
    word4 b7.val b6.val b5.val b4.val b6.isLt b5.isLt b4.isLt,
    mixk_lane2,
    word4 b11.val b10.val b9.val b8.val b10.isLt b9.isLt b8.isLt,
    mixk_lane3,
    word2 b13.val b12.val b13.isLt b12.isLt,
    mixk_lane4]
  rfl

/-- The switch entered at label 15 on a tail of 15 bytes. -/
theorem tail_eq_15 (pre : List Byte) (b0 b1 b2 b3 b4 b5 b6 b7 b8 b9 b10 b11 b12 b13 b14 : Byte) (h : Lanes) (log : List Int) :
    ∃ st log1, tailSwitch (pre ++ [b0, b1, b2, b3, b4, b5, b6, b7, b8, b9, b10, b11, b12, b13, b14]) (pre.length : Int) 15 ⟨0, 0, 0, 0, h⟩ log
        = some (st, log1)
      ∧ st.h = tailExplicit h [b0, b1, b2, b3, b4, b5, b6, b7, b8, b9, b10, b11, b12, b13, b14] := by
  have hrun : ∃ st log1, tailSwitch (pre ++ [b0, b1, b2, b3, b4, b5, b6, b7, b8, b9, b10, b11, b12, b13, b14]) (pre.length : Int) 15 ⟨0, 0, 0, 0, h⟩ log
        = some (st, log1)
      ∧ st.h = ⟨h.h1 ^^^ mixk (0 ^^^ (b3.val <<< 24) ^^^ (b2.val <<< 16) ^^^ (b1.val <<< 8) ^^^ (b0.val <<< 0)) c1 15 c2,
        h.h2 ^^^ mixk (0 ^^^ (b7.val <<< 24) ^^^ (b6.val <<< 16) ^^^ (b5.val <<< 8) ^^^ (b4.val <<< 0)) c2 16 c3,
        h.h3 ^^^ mixk (0 ^^^ (b11.val <<< 24) ^^^ (b10.val <<< 16) ^^^ (b9.val <<< 8) ^^^ (b8.val <<< 0)) c3 17 c4,
        h.h4 ^^^ mixk (0 ^^^ (b14.val <<< 16) ^^^ (b13.val <<< 8) ^^^ (b12.val <<< 0)) c4 18 c1⟩ := by
    refine ⟨?st, ?lg, ?run, ?eq⟩
    case run =>
      show case15 (pre ++ [b0, b1, b2, b3, b4, b5, b6, b7, b8, b9, b10, b11, b12, b13, b14]) (pre.length : Int) ⟨0, 0, 0, 0, h⟩ log = _
      rewrite [case15, Rd.bind_some (readByte_append pre _ 14 b14 _ (by decide) rfl),
        case14, Rd.bind_some (readByte_append pre _ 13 b13 _ (by decide) rfl),
        case13, Rd.bind_some (readByte_append pre _ 12 b12 _ (by decide) rfl),
        case12, Rd.bind_some (readByte_append pre _ 11 b11 _ (by decide) rfl),
        case11, Rd.bind_some (readByte_append pre _ 10 b10 _ (by decide) rfl),
        case10, Rd.bind_some (readByte_append pre _ 9 b9 _ (by decide) rfl),
        case9, Rd.bind_some (readByte_append pre _ 8 b8 _ (by decide) rfl),
        case8, Rd.bind_some (readByte_append pre _ 7 b7 _ (by decide) rfl),
        case7, Rd.bind_some (readByte_append pre _ 6 b6 _ (by decide) rfl),
        case6, Rd.bind_some (readByte_append pre _ 5 b5 _ (by decide) rfl),
        case5, Rd.bind_some (readByte_append pre _ 4 b4 _ (by decide) rfl),
        case4, Rd.bind_some (readByte_append pre _ 3 b3 _ (by decide) rfl),
        case3, Rd.bind_some (readByte_append pre _ 2 b2 _ (by decide) rfl),
        case2, Rd.bind_some (readByte_append pre _ 1 b1 _ (by decide) rfl),
        case1, Rd.bind_some (readByte_append pre _ 0 b0 _ (by decide) rfl)]
      exact Rd.pure_run _ _
    case eq => rfl
  obtain ⟨st, log1, hrun, hst⟩ := hrun
  refine ⟨st, log1, hrun, hst.trans ?_⟩
  rewrite [word4 b3.val b2.val b1.val b0.val b2.isLt b1.isLt b0.isLt,
    mixk_lane1,
    word4 b7.val b6.val b5.val b4.val b6.isLt b5.isLt b4.isLt,
    mixk_lane2,
    word4 b11.val b10.val b9.val b8.val b10.isLt b9.isLt b8.isLt,
    mixk_lane3,
    word3 b14.val b13.val b12.val b14.isLt b13.isLt b12.isLt,
    mixk_lane4]
  rfl

/-- C17: on a tail of at most 15 bytes the fall-through switch, entered at the label that is
the number of tail bytes with the key words 0, returns, and the lanes it leaves are those of
the explicit definition: lane `j` is xored with the little-endian word `j` of the zero-padded
tail, multiplied, rotated by 15, 16, 17 or 18 and multiplied (the rotation and the
multiplications written as arithmetic modulo `2 ^ 32`, not with the code's functions), exactly
when the tail has more than `4 (j - 1)` bytes; the empty tail changes no lane. -/
theorem tailSwitch_explicit (pre tail : List Byte) (h : Lanes) (log : List Int)
    (hl : tail.length ≤ 15) :
    (tail = [] → tailExplicit h tail = h)
    ∧ ∃ st log1, tailSwitch (pre ++ tail) (pre.length : Int) (tail.length : Int)
          ⟨0, 0, 0, 0, h⟩ log = some (st, log1)
        ∧ st.h = tailExplicit h tail := by
  match tail, hl with
  | [], _ => exact ⟨fun _ => rfl, _, _, rfl, rfl⟩
  | [b0], _ => exact ⟨fun e => absurd e (by simp), tail_eq_1 pre b0 h log⟩
  | [b0, b1], _ => exact ⟨fun e => absurd e (by simp), tail_eq_2 pre b0 b1 h log⟩
  | [b0, b1, b2], _ => exact ⟨fun e => absurd e (by simp), tail_eq_3 pre b0 b1 b2 h log⟩
  | [b0, b1, b2, b3], _ => exact ⟨fun e => absurd e (by simp), tail_eq_4 pre b0 b1 b2 b3 h log⟩
  | [b0, b1, b2, b3, b4], _ => exact ⟨fun e => absurd e (by simp), tail_eq_5 pre b0 b1 b2 b3 b4 h log⟩
  | [b0, b1, b2, b3, b4, b5], _ => exact ⟨fun e => absurd e (by simp), tail_eq_6 pre b0 b1 b2 b3 b4 b5 h log⟩
  | [b0, b1, b2, b3, b4, b5, b6], _ => exact ⟨fun e => absurd e (by simp), tail_eq_7 pre b0 b1 b2 b3 b4 b5 b6 h log⟩
  | [b0, b1, b2, b3, b4, b5, b6, b7], _ => exact ⟨fun e => absurd e (by simp), tail_eq_8 pre b0 b1 b2 b3 b4 b5 b6 b7 h log⟩
  | [b0, b1, b2, b3, b4, b5, b6, b7, b8], _ => exact ⟨fun e => absurd e (by simp), tail_eq_9 pre b0 b1 b2 b3 b4 b5 b6 b7 b8 h log⟩
  | [b0, b1, b2, b3, b4, b5, b6, b7, b8, b9], _ => exact ⟨fun e => absurd e (by simp), tail_eq_10 pre b0 b1 b2 b3 b4 b5 b6 b7 b8 b9 h log⟩
  | [b0, b1, b2, b3, b4, b5, b6, b7, b8, b9, b10], _ => exact ⟨fun e => absurd e (by simp), tail_eq_11 pre b0 b1 b2 b3 b4 b5 b6 b7 b8 b9 b10 h log⟩
  | [b0, b1, b2, b3, b4, b5, b6, b7, b8, b9, b10, b11], _ => exact ⟨fun e => absurd e (by simp), tail_eq_12 pre b0 b1 b2 b3 b4 b5 b6 b7 b8 b9 b10 b11 h log⟩
  | [b0, b1, b2, b3, b4, b5, b6, b7, b8, b9, b10, b11, b12], _ => exact ⟨fun e => absurd e (by simp), tail_eq_13 pre b0 b1 b2 b3 b4 b5 b6 b7 b8 b9 b10 b11 b12 h log⟩
  | [b0, b1, b2, b3, b4, b5, b6, b7, b8, b9, b10, b11, b12, b13], _ => exact ⟨fun e => absurd e (by simp), tail_eq_14 pre b0 b1 b2 b3 b4 b5 b6 b7 b8 b9 b10 b11 b12 b13 h log⟩
  | [b0, b1, b2, b3, b4, b5, b6, b7, b8, b9, b10, b11, b12, b13, b14], _ => exact ⟨fun e => absurd e (by simp), tail_eq_15 pre b0 b1 b2 b3 b4 b5 b6 b7 b8 b9 b10 b11 b12 b13 b14 h log⟩
  | b0 :: b1 :: b2 :: b3 :: b4 :: b5 :: b6 :: b7 :: b8 :: b9 :: b10 :: b11 :: b12 :: b13 :: b14 :: b15 :: rest, hl => simp only [List.length_cons] at hl; omega

/-- The switch on the fifteen-byte tail `01 02 .. 0f` after one byte, from lanes 0: it returns
the lanes of the explicit definition, which are the four numbers obtained by multiplying,
rotating and multiplying the words `0x04030201`, `0x08070605`, `0x0c0b0a09`, `0x000f0e0d`. -/
theorem tailSwitch_explicit_witness :
    ([1, 2, 3, 4, 5, 6, 7, 8, 9, 10, 11, 12, 13, 14, 15] : List Byte).length ≤ 15
    ∧ ((([1, 2, 3, 4, 5, 6, 7, 8, 9, 10, 11, 12, 13, 14, 15] : List Byte) = [] →
        tailExplicit ⟨0, 0, 0, 0⟩ [1, 2, 3, 4, 5, 6, 7, 8, 9, 10, 11, 12, 13, 14, 15]
          = ⟨0, 0, 0, 0⟩)
      ∧ ∃ st log1, tailSwitch ([9] ++ [1, 2, 3, 4, 5, 6, 7, 8, 9, 10, 11, 12, 13, 14, 15])
            (([9] : List Byte).length : Int)
            (([1, 2, 3, 4, 5, 6, 7, 8, 9, 10, 11, 12, 13, 14, 15] : List Byte).length : Int)
            ⟨0, 0, 0, 0, ⟨0, 0, 0, 0⟩⟩ [] = some (st, log1)
          ∧ st.h = tailExplicit ⟨0, 0, 0, 0⟩
            [1, 2, 3, 4, 5, 6, 7, 8, 9, 10, 11, 12, 13, 14, 15])
    ∧ tailExplicit ⟨0, 0, 0, 0⟩ [1, 2, 3, 4, 5, 6, 7, 8, 9, 10, 11, 12, 13, 14, 15]
      = ⟨4294230764, 4244749897, 1107502873, 1423147644⟩
    ∧ tailExplicit ⟨0, 0, 0, 0⟩ [1, 2, 3] = ⟨3959282924, 0, 0, 0⟩ :=
  ⟨by decide,
    tailSwitch_explicit [9] [1, 2, 3, 4, 5, 6, 7, 8, 9, 10, 11, 12, 13, 14, 15] ⟨0, 0, 0, 0⟩ []
      (by decide),
    by decide, by decide⟩

/-- Multiplying by a unit modulo `2 ^ 32` and then by its inverse gives the word back. -/
theorem mul_unit_cancel (c d x : Nat) (hcd : c * d % W32 = 1) (hx : x < W32) :
    (x * c % W32) * d % W32 = x := by
  rw [Nat.mod_mul_mod, Nat.mul_assoc, ← Nat.mul_mod_mod, hcd, Nat.mul_one, Nat.mod_eq_of_lt hx]

/-- Xoring the shifts by 13 and 26 gives a word that the right xor-shift by 13 takes back:
the other side of `xorshift13_inv`. -/
theorem xorshift13_rinv (h : Nat) (hh : h < 2 ^ 32) :
    (h ^^^ (h >>> 13) ^^^ (h >>> 26)) ^^^ ((h ^^^ (h >>> 13) ^^^ (h >>> 26)) >>> 13) = h := by
  apply Nat.eq_of_testBit_eq
  intro i
  simp only [Nat.testBit_xor, Nat.testBit_shiftRight]
  have e1 : h.testBit (26 + (13 + i)) = false := testBit_high h 32 _ hh (by omega)
  have e2 : 13 + (13 + i) = 26 + i := by omega
  rw [e1, e2]
  cases h.testBit i <;> cases h.testBit (13 + i) <;> cases h.testBit (26 + i) <;> rfl

/-- The word undone by xoring the shifts by 13 and 26 is a 32-bit word. -/
theorem xorshift13_rinv_lt (h : Nat) (hh : h < 2 ^ 32) :
    h ^^^ (h >>> 13) ^^^ (h >>> 26) < 2 ^ 32 := by
  apply Nat.xor_lt_two_pow (xorshift_lt h 13 hh)
  rw [Nat.shiftRight_eq_div_pow]
  exact lt_of_le_of_lt (Nat.div_le_self _ _) hh

/-- The finalization mix is the composition of its five statements. -/
theorem fmix_of_steps (x u4 u3 u2 u1 y : Nat) (e1 : x ^^^ (x >>> 16) = u4)
    (e2 : u4 * 0x85ebca6b % W32 = u3) (e3 : u3 ^^^ (u3 >>> 13) = u2)
    (e4 : u2 * 0xc2b2ae35 % W32 = u1) (e5 : u1 ^^^ (u1 >>> 16) = y) : fmix x = y := by
  subst e1 e2 e3 e4 e5
  rfl

/-- Every 32-bit word is the finalization mix of a 32-bit word: the five statements are undone
last to first, the multiplications by the inverses `0x7ed1b41d` and `0xa5cb9243` of the two
constants modulo `2 ^ 32`. -/
theorem fmix_surj (y : Nat) (hy : y < W32) : ∃ x, x < W32 ∧ fmix x = y := by
  rw [W32_eq] at hy
  have m2 : ∀ x : Nat, x % W32 < 2 ^ 32 := fun x => by
    rw [← W32_eq]; exact Nat.mod_lt _ (by decide)
  have h1 : y ^^^ (y >>> 16) < 2 ^ 32 := xorshift_lt y 16 hy
  have h2 := m2 ((y ^^^ (y >>> 16)) * 0x7ed1b41d)
  have h3 := xorshift13_rinv_lt _ h2
  have h4 := m2 ((((y ^^^ (y >>> 16)) * 0x7ed1b41d % W32)
    ^^^ (((y ^^^ (y >>> 16)) * 0x7ed1b41d % W32) >>> 13)
    ^^^ (((y ^^^ (y >>> 16)) * 0x7ed1b41d % W32) >>> 26)) * 0xa5cb9243)
  refine ⟨_, ?_, fmix_of_steps _ _ _ _ _ y (xorshift16_inv _ h4)
    (mul_unit_cancel 0xa5cb9243 0x85ebca6b _ (by decide) (by rw [W32_eq]; exact h3))
    (xorshift13_rinv _ h2)
    (mul_unit_cancel 0x7ed1b41d 0xc2b2ae35 _ (by decide) (by rw [W32_eq]; exact h1))
    (xorshift16_inv y hy)⟩
  rw [W32_eq]
  exact xorshift_lt _ 16 h4

/-- C21: the finalization mix is a bijection on 32-bit words, and `fmix(0) = 0`. It maps
32-bit words to 32-bit words, different words to different words, and every 32-bit word is
reached; each of its statements is undone on 32-bit words: the xor with the shift by 16 by
itself, the xor with the shift by 13 by xoring the shifts by 13 and 26, the two
multiplications by the multiplications with `0xa5cb9243` and `0x7ed1b41d`. -/
theorem fmix_bijective :
    (∀ h : Nat, fmix h < W32)
    ∧ (∀ a b : Nat, a < W32 → b < W32 → fmix a = fmix b → a = b)
    ∧ (∀ y : Nat, y < W32 → ∃ x, x < W32 ∧ fmix x = y)
    ∧ fmix 0 = 0
    ∧ (∀ h : Nat, h < W32 → (h ^^^ (h >>> 16)) ^^^ ((h ^^^ (h >>> 16)) >>> 16) = h)
    ∧ (∀ h : Nat, h < W32 →
        (h ^^^ (h >>> 13)) ^^^ ((h ^^^ (h >>> 13)) >>> 13) ^^^ ((h ^^^ (h >>> 13)) >>> 26) = h)
    ∧ (∀ h : Nat, h < W32 → (h * 0x85ebca6b % W32) * 0xa5cb9243 % W32 = h)
    ∧ (∀ h : Nat, h < W32 → (h * 0xc2b2ae35 % W32) * 0x7ed1b41d % W32 = h) := by
  refine ⟨fmix_lt, fmix_inj, fmix_surj, by decide, ?_, ?_, ?_, ?_⟩
  · intro h hh
    exact xorshift16_inv h (by rw [← W32_eq]; exact hh)
  · intro h hh
    exact xorshift13_inv h (by rw [← W32_eq]; exact hh)
  · intro h hh
    exact mul_unit_cancel 0x85ebca6b 0xa5cb9243 h (by decide) hh
  · intro h hh
    exact mul_unit_cancel 0xc2b2ae35 0x7ed1b41d h (by decide) hh

/-! Reader-writer lock. -/

/-- A thread found in `w_held` after another program point was written at `t` was there
before, and is not `t`. -/
theorem getElem?_set_held {l : List Pc} {t a : Nat} {x : Pc} (hx : x ≠ Pc.w_held)
    (h : (l.set t x)[a]? = some Pc.w_held) : l[a]? = some Pc.w_held ∧ a ≠ t := by
  rw [List.getElem?_set] at h
  by_cases e : t = a
  · subst e
    simp only [if_true] at h
    split at h
    · exact absurd (Option.some.inj h) hx
    · exact absurd h (by simp)
  · simp only [e, if_false] at h
    exact ⟨h, fun e2 => e e2.symm⟩

/-- The invariant holds when every thread is idle. -/
theorem HeldInv_init (n : Nat) : HeldInv (Sys.init n) := by
  have h : ∀ a : Nat, (Sys.init n).pcs[a]? ≠ some Pc.w_held := by
    intro a e
    have := List.getElem?_mem e
    simp [Sys.init, List.mem_replicate] at this
  exact ⟨fun a _ ha => absurd ha (h a), fun a ha => absurd ha (h a)⟩

/-- When the scheduled thread does not end in `w_held` and the parity of `l_` is kept,
the invariant is kept. -/
theorem HeldInv_set {s : Sys} (hs : HeldInv s) (t : Nat) (x : Pc) (hx : x ≠ Pc.w_held)
    (m : read_write_mutex) (hm : m.l_ % 2 = s.m.l_ % 2) : HeldInv ⟨m, s.pcs.set t x⟩ := by
  refine ⟨fun a b ha hb => ?_, fun a ha => ?_⟩
  · exact hs.uniq a b (getElem?_set_held hx ha).1 (getElem?_set_held hx hb).1
  · show m.l_ % 2 = 1
    rw [hm]
    exact hs.odd a (getElem?_set_held hx ha).1

/-- Every step with the GCC primitives keeps the invariant. -/
theorem HeldInv_step (s : Sys) (hs : HeldInv s) (t : Nat) (op : Op) :
    HeldInv (step AtomicOps.gcc s t op) := by
  unfold step
  rcases h : s.pcs[t]? with _ | pc
  · exact hs
  · cases pc with
    | idle =>
      cases op with
      | write => exact HeldInv_set hs t _ (by decide) _ rfl
      | read => exact HeldInv_set hs t _ (by decide) _ rfl
    | w_spin =>
      by_cases h0 : s.m.l_ = 0
      · have hno : ∀ a : Nat, s.pcs[a]? ≠ some Pc.w_held := by
          intro a ha
          have := hs.odd a ha
          omega
        have ht : t < s.pcs.length := by
          rcases Nat.lt_or_ge t s.pcs.length with h1 | h1
          · exact h1
          · rw [List.getElem?_eq_none h1] at h
            exact absurd h (by simp)
        have hset : ∀ a : Nat, (s.pcs.set t Pc.w_held)[a]? = some Pc.w_held → a = t := by
          intro a ha
          rw [List.getElem?_set] at ha
          by_cases e : t = a
          · exact e.symm
          · simp only [e, if_false] at ha
            exact absurd ha (hno a)
        simp only [compare_and_swap, h0, kWaFlag, if_true, ne_eq, not_true_eq_false, if_false]
        exact ⟨fun a b ha hb => (hset a ha).trans (hset b hb).symm, fun _ _ => rfl⟩
      · simp only [compare_and_swap, h0, if_false, ne_eq, not_false_eq_true, if_true]
        exact hs
    | w_held =>
      have hno : ∀ a : Nat, (s.pcs.set t Pc.w_unlock)[a]? ≠ some Pc.w_held := by
        intro a ha
        have h1 := getElem?_set_held (by decide) ha
        exact h1.2 (hs.uniq a t h1.1 h)
      exact ⟨fun a _ ha => absurd ha (hno a), fun a ha => absurd ha (hno a)⟩
    | w_unlock => exact HeldInv_set hs t _ (by decide) _ rfl
    | r_wait =>
      dsimp only
      split
      · exact hs
      · exact HeldInv_set hs t _ (by decide) _ rfl
    | r_incr =>
      refine HeldInv_set hs t _ (by decide) _ ?_
      simp only [atomic_add, kRcIncr]
      omega
    | r_spin =>
      dsimp only
      split
      · exact hs
      · exact HeldInv_set hs t _ (by decide) _ rfl
    | r_held =>
      refine HeldInv_set hs t _ (by decide) _ ?_
      simp only [atomic_add, kRcIncr]
      omega

/-- Every interleaving with the GCC primitives keeps the invariant. -/
theorem HeldInv_run (σ : List (Nat × Op)) : ∀ s, HeldInv s → HeldInv (run AtomicOps.gcc s σ) := by
  induction σ with
  | nil => intro s hs; exact hs
  | cons x σ ih =>
    intro s hs
    obtain ⟨t, op⟩ := x
    exact ih _ (HeldInv_step s hs t op)

/-- With the GCC primitives no two threads are past a returned `write_lock` at once. -/
theorem write_exclusion_gcc (n : Nat) (σ : List (Nat × Op)) (a b : Nat)
    (ha : (run AtomicOps.gcc (Sys.init n) σ).pcs[a]? = some Pc.w_held)
    (hb : (run AtomicOps.gcc (Sys.init n) σ).pcs[b]? = some Pc.w_held) : a = b :=
  (HeldInv_run σ _ (HeldInv_init n)).uniq a b ha hb

/-- C6, evaluated on the build with the OS X primitives: thread 0 runs `write_lock` to its
return, then thread 1 calls `write_lock`; its `compare_and_swap` fails, which that build takes
as the end of the loop, and both threads are past a returned `write_lock` at once. -/
theorem write_exclusion_osx_fails :
    run AtomicOps.osx (Sys.init 2)
      [(0, Op.write), (0, Op.write), (0, Op.write), (1, Op.write), (1, Op.write)]
      = ⟨⟨kWaFlag, 2⟩, [Pc.w_held, Pc.w_held]⟩ := by decide

theorem lt_of_getElem?_some {l : List Pc} {t : Nat} {pc : Pc} (h : l[t]? = some pc) :
    t < l.length := by
  rcases Nat.lt_or_ge t l.length with h1 | h1
  · exact h1
  · rw [List.getElem?_eq_none h1] at h
    exact absurd h (by simp)

/-- Overwriting one entry of a list changes a count by what the old and the new entry
contribute. -/
theorem countP_set (p : Pc → Bool) (x : Pc) :
    ∀ (l : List Pc) (t : Nat) (old : Pc), l[t]? = some old →
      (l.set t x).countP p + (if p old then 1 else 0) = l.countP p + (if p x then 1 else 0) := by
  intro l
  induction l with
  | nil => intro t old h; simp at h
  | cons a l ih =>
    intro t old h
    cases t with
    | zero =>
      simp only [List.getElem?_cons_zero, Option.some.injEq] at h
      subst h
      simp only [List.set_cons_zero, List.countP_cons]
      omega
    | succ t =>
      simp only [List.getElem?_cons_succ] at h
      have := ih t old h
      simp only [List.set_cons_succ, List.countP_cons]
      omega

theorem PendInv_init (n : Nat) : PendInv (Sys.init n) := by
  have : (List.replicate n Pc.idle).countP Pc.writing = 0 := by
    rw [List.countP_eq_zero]
    intro a ha
    rw [List.mem_replicate] at ha
    rw [ha.2]
    decide
  simp [PendInv, Sys.init, this]

theorem PendInv_set {s : Sys} (hs : PendInv s) (t : Nat) (old x : Pc) (h : s.pcs[t]? = some old)
    (m : read_write_mutex)
    (hm : m.write_pending_ + (if old.writing then 1 else 0)
      = s.m.write_pending_ + (if x.writing then 1 else 0)) : PendInv ⟨m, s.pcs.set t x⟩ := by
  have := countP_set Pc.writing x s.pcs t old h
  unfold PendInv at *
  show m.write_pending_ = (((s.pcs.set t x).countP Pc.writing : Nat) : Int)
  split at hm <;> split at hm
  all_goals simp_all
  all_goals omega

/-- Every step keeps `write_pending_` equal to the number of writing threads, with either
family of primitives. -/
theorem PendInv_step (ops : AtomicOps) (s : Sys) (hs : PendInv s) (t : Nat) (op : Op) :
    PendInv (step ops s t op) := by
  unfold step
  rcases h : s.pcs[t]? with _ | pc
  · exact hs
  · cases pc with
    | idle =>
      cases op with
      | write => exact PendInv_set hs t _ _ h _ (by simp [atomic_add, Pc.writing])
      | read => exact PendInv_set hs t _ _ h _ (by simp [Pc.writing])
    | w_spin =>
      dsimp only
      split
      · exact hs
      · exact PendInv_set hs t _ _ h _ (by simp [Pc.writing])
    | w_held => exact PendInv_set hs t _ _ h _ (by simp [Pc.writing])
    | w_unlock => exact PendInv_set hs t _ _ h _ (by simp [atomic_add, Pc.writing])
    | r_wait =>
      dsimp only
      split
      · exact hs
      · exact PendInv_set hs t _ _ h _ (by simp [Pc.writing])
    | r_incr => exact PendInv_set hs t _ _ h _ (by simp [Pc.writing])
    | r_spin =>
      dsimp only
      split
      · exact hs
      · exact PendInv_set hs t _ _ h _ (by simp [Pc.writing])
    | r_held => exact PendInv_set hs t _ _ h _ (by simp [Pc.writing])

theorem PendInv_run (ops : AtomicOps) (σ : List (Nat × Op)) :
    ∀ s, PendInv s → PendInv (run ops s σ) := by
  induction σ with
  | nil => intro s hs; exact hs
  | cons x σ ih =>
    intro s hs
    obtain ⟨t, op⟩ := x
    exact ih _ (PendInv_step ops s hs t op)

/-- While a thread is between the increment and the decrement, `write_pending_` is
positive. -/
theorem pending_pos {s : Sys} (hs : PendInv s) {w : Nat} {pc : Pc} (h : s.pcs[w]? = some pc)
    (hw : pc.writing = true) : 0 < s.m.write_pending_ := by
  have : 0 < s.pcs.countP Pc.writing := List.countP_pos_iff.mpr ⟨pc, List.getElem?_mem h, hw⟩
  unfold PendInv at hs
  omega

theorem run_append (ops : AtomicOps) (σ τ : List (Nat × Op)) :
    ∀ s, run ops s (σ ++ τ) = run ops (run ops s σ) τ := by
  induction σ with
  | nil => intro s; rfl
  | cons x σ ih =>
    intro s
    obtain ⟨t, op⟩ := x
    exact ih _

/-- A step changes the program point of the scheduled thread only. -/
theorem step_other (ops : AtomicOps) (s : Sys) (t : Nat) (op : Op) (a : Nat) (h : t ≠ a) :
    (step ops s t op).pcs[a]? = s.pcs[a]? := by
  unfold step
  rcases ht : s.pcs[t]? with _ | pc
  · rfl
  · cases pc <;> try cases op
    all_goals dsimp only
    all_goals try split
    all_goals first
      | rfl
      | exact List.getElem?_set_ne h

theorem set_self {l : List Pc} {t : Nat} {pc : Pc} (x : Pc) (h : l[t]? = some pc) :
    (l.set t x)[t]? = some x :=
  List.getElem?_set_self (lt_of_getElem?_some h)

/-- The steps of a thread inside `write_lock` and `write_unlock`. -/
theorem step_writer (ops : AtomicOps) (s : Sys) (t : Nat) (op : Op) :
    (s.pcs[t]? = some Pc.w_spin →
      (step ops s t op).pcs[t]? = some Pc.w_spin ∨ (step ops s t op).pcs[t]? = some Pc.w_held) ∧
    (s.pcs[t]? = some Pc.w_held → (step ops s t op).pcs[t]? = some Pc.w_unlock) ∧
    (s.pcs[t]? = some Pc.w_unlock → (step ops s t op).pcs[t]? = some Pc.idle) := by
  refine ⟨fun h => ?_, fun h => ?_, fun h => ?_⟩
  · unfold step
    rw [h]
    dsimp only
    split
    · exact Or.inl h
    · exact Or.inr (set_self _ h)
  · unfold step
    rw [h]
    exact set_self _ h
  · unfold step
    rw [h]
    exact set_self _ h

/-- While `write_pending_` is positive, a thread that is not past the first loop of
`read_lock` does not get past it. -/
theorem step_reader_blocked (ops : AtomicOps) (s : Sys) (t : Nat) (op : Op) (pc : Pc)
    (h : s.pcs[t]? = some pc) (hpc : pc.reading = false) (hp : 0 < s.m.write_pending_) :
    ∃ pc1, (step ops s t op).pcs[t]? = some pc1 ∧ pc1.reading = false := by
  unfold step
  rw [h]
  cases pc with
  | idle =>
    cases op with
    | write => exact ⟨_, set_self _ h, rfl⟩
    | read => exact ⟨_, set_self _ h, rfl⟩
  | w_spin =>
    dsimp only
    split
    · exact ⟨_, h, rfl⟩
    · exact ⟨_, set_self _ h, rfl⟩
  | w_held => exact ⟨_, set_self _ h, rfl⟩
  | w_unlock => exact ⟨_, set_self _ h, rfl⟩
  | r_wait =>
    dsimp only
    rw [if_pos hp]
    exact ⟨_, h, rfl⟩
  | r_incr => exact absurd hpc (by decide)
  | r_spin => exact absurd hpc (by decide)
  | r_held => exact absurd hpc (by decide)

/-- While `write_pending_` is positive no step takes `r` past the first loop of
`read_lock`. -/
theorem NotReading_step (ops : AtomicOps) (s : Sys) (t : Nat) (op : Op) (r : Nat)
    (hr : NotReading s r) (hp : 0 < s.m.write_pending_) : NotReading (step ops s t op) r := by
  intro pc hpc
  by_cases e : t = r
  · subst e
    rcases h : s.pcs[t]? with _ | pc0
    · have : step ops s t op = s := by unfold step; rw [h]
      rw [this, h] at hpc
      exact absurd hpc (by simp)
    · obtain ⟨pc1, h1, h2⟩ := step_reader_blocked ops s t op pc0 h (hr pc0 h) hp
      rw [h1] at hpc
      rw [← Option.some.inj hpc]
      exact h2
  · rw [step_other ops s t op r e] at hpc
    exact hr pc hpc

/-- From a state in which writer `w` holds the lock or is releasing it, reader `r` returns
from `read_lock` only after `w` has completed `write_unlock`. -/
theorem released_before_read (ops : AtomicOps) (w r : Nat) :
    ∀ (σ : List (Nat × Op)) (s : Sys), PendInv s →
      (s.pcs[w]? = some Pc.w_held ∨ s.pcs[w]? = some Pc.w_unlock) → NotReading s r →
      (run ops s σ).pcs[r]? = some Pc.r_held →
      ∃ σb σc, σ = σb ++ σc ∧ (run ops s σb).pcs[w]? = some Pc.idle := by
  intro σ
  induction σ with
  | nil =>
    intro s _ _ hr hend
    exact absurd (hr _ hend) (by decide)
  | cons x σ ih =>
    intro s hP hw hr hend
    obtain ⟨t, op⟩ := x
    have hpos : 0 < s.m.write_pending_ := by
      rcases hw with hw | hw
      · exact pending_pos hP hw rfl
      · exact pending_pos hP hw rfl
    have hP1 := PendInv_step ops s hP t op
    have hr1 := NotReading_step ops s t op r hr hpos
    have next : (step ops s t op).pcs[w]? = some Pc.idle ∨
        ((step ops s t op).pcs[w]? = some Pc.w_held ∨
          (step ops s t op).pcs[w]? = some Pc.w_unlock) := by
      by_cases e : t = w
      · subst e
        rcases hw with hw | hw
        · exact Or.inr (Or.inr ((step_writer ops s t op).2.1 hw))
        · exact Or.inl ((step_writer ops s t op).2.2 hw)
      · rw [step_other ops s t op w e]
        exact Or.inr hw
    rcases next with hidle | hstill
    · exact ⟨[(t, op)], σ, rfl, hidle⟩
    · obtain ⟨σb, σc, e1, e2⟩ := ih _ hP1 hstill hr1 hend
      exact ⟨(t, op) :: σb, σc, by rw [e1]; rfl, e2⟩

/-- From a state in which writer `w` waits in `write_lock`, reader `r` returns from
`read_lock` only after `w` has left `write_lock` and then completed `write_unlock`. -/
theorem acquired_released_before_read (ops : AtomicOps) (w r : Nat) :
    ∀ (σ : List (Nat × Op)) (s : Sys), PendInv s → s.pcs[w]? = some Pc.w_spin →
      NotReading s r → (run ops s σ).pcs[r]? = some Pc.r_held →
      ∃ σa σb σc, σ = σa ++ σb ++ σc ∧ (run ops s σa).pcs[w]? = some Pc.w_held ∧
        (run ops s (σa ++ σb)).pcs[w]? = some Pc.idle := by
  intro σ
  induction σ with
  | nil =>
    intro s _ _ hr hend
    exact absurd (hr _ hend) (by decide)
  | cons x σ ih =>
    intro s hP hw hr hend
    obtain ⟨t, op⟩ := x
    have hpos : 0 < s.m.write_pending_ := pending_pos hP hw rfl
    have hP1 := PendInv_step ops s hP t op
    have hr1 := NotReading_step ops s t op r hr hpos
    have next : (step ops s t op).pcs[w]? = some Pc.w_spin ∨
        (step ops s t op).pcs[w]? = some Pc.w_held := by
      by_cases e : t = w
      · subst e
        exact (step_writer ops s t op).1 hw
      · rw [step_other ops s t op w e]
        exact Or.inl hw
    rcases next with hspin | hheld
    · obtain ⟨σa, σb, σc, e1, e2, e3⟩ := ih _ hP1 hspin hr1 hend
      exact ⟨(t, op) :: σa, σb, σc, by rw [e1]; rfl, e2, e3⟩
    · obtain ⟨σb, σc, e1, e2⟩ :=
        released_before_read ops w r σ _ hP1 (Or.inl hheld) hr1 hend
      exact ⟨[(t, op)], σb, σc, by rw [e1]; rfl, hheld, e2⟩

/-- A writer that waits in `write_lock` either still waits at the end of a schedule or has
left `write_lock` at some moment of it. -/
theorem spin_until_held (ops : AtomicOps) (w : Nat) :
    ∀ (σ : List (Nat × Op)) (s : Sys), s.pcs[w]? = some Pc.w_spin →
      (run ops s σ).pcs[w]? = some Pc.w_spin ∨
        ∃ σa σd, σ = σa ++ σd ∧ (run ops s σa).pcs[w]? = some Pc.w_held := by
  intro σ
  induction σ with
  | nil => intro s hw; exact Or.inl hw
  | cons x σ ih =>
    intro s hw
    obtain ⟨t, op⟩ := x
    have next : (step ops s t op).pcs[w]? = some Pc.w_spin ∨
        (step ops s t op).pcs[w]? = some Pc.w_held := by
      by_cases e : t = w
      · subst e
        exact (step_writer ops s t op).1 hw
      · rw [step_other ops s t op w e]
        exact Or.inl hw
    rcases next with hspin | hheld
    · rcases ih _ hspin with h1 | ⟨σa, σd, e1, e2⟩
      · exact Or.inl h1
      · exact Or.inr ⟨(t, op) :: σa, σd, by rw [e1]; rfl, e2⟩
    · exact Or.inr ⟨[(t, op)], σ, rfl, hheld⟩

/-- A writer that holds the lock or is releasing it either has completed `write_unlock` at
some moment of a schedule or still holds or releases at its end. -/
theorem held_until_idle (ops : AtomicOps) (w : Nat) :
    ∀ (σ : List (Nat × Op)) (s : Sys),
      (s.pcs[w]? = some Pc.w_held ∨ s.pcs[w]? = some Pc.w_unlock) →
      (∃ σb σc, σ = σb ++ σc ∧ (run ops s σb).pcs[w]? = some Pc.idle) ∨
        ((run ops s σ).pcs[w]? = some Pc.w_held ∨ (run ops s σ).pcs[w]? = some Pc.w_unlock) := by
  intro σ
  induction σ with
  | nil => intro s hw; exact Or.inr hw
  | cons x σ ih =>
    intro s hw
    obtain ⟨t, op⟩ := x
    have next : (step ops s t op).pcs[w]? = some Pc.idle ∨
        ((step ops s t op).pcs[w]? = some Pc.w_held ∨
          (step ops s t op).pcs[w]? = some Pc.w_unlock) := by
      by_cases e : t = w
      · subst e
        rcases hw with hw | hw
        · exact Or.inr (Or.inr ((step_writer ops s t op).2.1 hw))
        · exact Or.inl ((step_writer ops s t op).2.2 hw)
      · rw [step_other ops s t op w e]
        exact Or.inr hw
    rcases next with hidle | hstill
    · exact Or.inl ⟨[(t, op)], σ, rfl, hidle⟩
    · rcases ih _ hstill with ⟨σb, σc, e1, e2⟩ | h1
      · exact Or.inl ⟨(t, op) :: σb, σc, by rw [e1]; rfl, e2⟩
      · exact Or.inr h1

/-- A thread that has not begun `read_lock` is not past its first loop. -/
theorem NotReading_idle {s : Sys} {r : Nat} (h : s.pcs[r]? = some Pc.idle) : NotReading s r := by
  intro pc hpc
  rw [h] at hpc
  rw [← Option.some.inj hpc]
  rfl

/-- Writer `w` holds the lock or is releasing it; later thread `r` has not begun `read_lock`;
later still `r` is past a returned `read_lock`. Then `w` has completed `write_unlock` in
between. -/
theorem released_core (ops : AtomicOps) (w r : Nat) (s : Sys) (hP : PendInv s)
    (σ2 σ3 : List (Nat × Op))
    (hw : s.pcs[w]? = some Pc.w_held ∨ s.pcs[w]? = some Pc.w_unlock)
    (hr : (run ops s σ2).pcs[r]? = some Pc.idle)
    (hret : (run ops s (σ2 ++ σ3)).pcs[r]? = some Pc.r_held) :
    ∃ σb σc, σ2 ++ σ3 = σb ++ σc ∧ (run ops s σb).pcs[w]? = some Pc.idle := by
  rcases held_until_idle ops w σ2 s hw with ⟨σb, σc, e1, e2⟩ | hstill
  · exact ⟨σb, σc ++ σ3, by rw [e1, List.append_assoc], e2⟩
  · rw [run_append] at hret
    obtain ⟨σb, σc, e1, e2⟩ := released_before_read ops w r σ3 _ (PendInv_run ops σ2 s hP)
      hstill (NotReading_idle hr) hret
    refine ⟨σ2 ++ σb, σc, by rw [e1, List.append_assoc], ?_⟩
    rw [run_append]
    exact e2

/-- Writer `w` waits in `write_lock`; later thread `r` has not begun `read_lock`; later still
`r` is past a returned `read_lock`. Then `w` has left `write_lock` and after that completed
`write_unlock` in between. -/
theorem acquired_core (ops : AtomicOps) (w r : Nat) (s : Sys) (hP : PendInv s)
    (σ2 σ3 : List (Nat × Op)) (hw : s.pcs[w]? = some Pc.w_spin)
    (hr : (run ops s σ2).pcs[r]? = some Pc.idle)
    (hret : (run ops s (σ2 ++ σ3)).pcs[r]? = some Pc.r_held) :
    ∃ σa σb σc, σ2 ++ σ3 = σa ++ σb ++ σc ∧ (run ops s σa).pcs[w]? = some Pc.w_held ∧
      (run ops s (σa ++ σb)).pcs[w]? = some Pc.idle := by
  rcases spin_until_held ops w σ2 s hw with hspin | ⟨σa, σd, e1, e2⟩
  · rw [run_append] at hret
    obtain ⟨σa, σb, σc, e1, e2, e3⟩ := acquired_released_before_read ops w r σ3 _
      (PendInv_run ops σ2 s hP) hspin (NotReading_idle hr) hret
    refine ⟨σ2 ++ σa, σb, σc, by rw [e1]; simp only [List.append_assoc], ?_, ?_⟩
    · rw [run_append]
      exact e2
    · rw [List.append_assoc, run_append]
      exact e3
  · subst e1
    rw [run_append] at hr
    rw [List.append_assoc, run_append] at hret
    obtain ⟨σb, σc, e3, e4⟩ := released_core ops w r _ (PendInv_run ops σa s hP) σd σ3
      (Or.inl e2) hr hret
    refine ⟨σa, σb, σc, by rw [List.append_assoc, List.append_assoc, e3], e2, ?_⟩
    rw [run_append]
    exact e4

/-- C7: in every interleaving, let writer `w` have incremented `write_pending_` and not yet
decremented it (it waits in `write_lock`, holds the lock or is in `write_unlock`), let thread
`r` not have begun `read_lock` at that moment or at any later one, and let `r` be past a
returned `read_lock` later still. Then `w` has completed `write_unlock` after the first
moment and before the last; and when `w` was still waiting in `write_lock` at the first
moment, it has returned from `write_lock` and then completed `write_unlock` in
between. -/
theorem writer_preference (ops : AtomicOps) (n : Nat) (σ1 σ2 σ3 : List (Nat × Op)) (w r : Nat)
    (hw : ∃ pc, (run ops (Sys.init n) σ1).pcs[w]? = some pc ∧ pc.writing = true)
    (hr : (run ops (Sys.init n) (σ1 ++ σ2)).pcs[r]? = some Pc.idle)
    (hret : (run ops (Sys.init n) (σ1 ++ σ2 ++ σ3)).pcs[r]? = some Pc.r_held) :
    (∃ σb σc, σ2 ++ σ3 = σb ++ σc ∧
      (run ops (Sys.init n) (σ1 ++ σb)).pcs[w]? = some Pc.idle)
    ∧ ((run ops (Sys.init n) σ1).pcs[w]? = some Pc.w_spin →
      ∃ σa σb σc, σ2 ++ σ3 = σa ++ σb ++ σc ∧
        (run ops (Sys.init n) (σ1 ++ σa)).pcs[w]? = some Pc.w_held ∧
        (run ops (Sys.init n) (σ1 ++ σa ++ σb)).pcs[w]? = some Pc.idle) := by
  have hP := PendInv_run ops σ1 _ (PendInv_init n)
  rw [run_append] at hr
  rw [List.append_assoc, run_append] at hret
  have spin : (run ops (Sys.init n) σ1).pcs[w]? = some Pc.w_spin →
      ∃ σa σb σc, σ2 ++ σ3 = σa ++ σb ++ σc ∧
        (run ops (Sys.init n) (σ1 ++ σa)).pcs[w]? = some Pc.w_held ∧
        (run ops (Sys.init n) (σ1 ++ σa ++ σb)).pcs[w]? = some Pc.idle := by
    intro hs
    obtain ⟨σa, σb, σc, e1, e2, e3⟩ := acquired_core ops w r _ hP σ2 σ3 hs hr hret
    refine ⟨σa, σb, σc, e1, ?_, ?_⟩
    · rw [run_append]
      exact e2
    · rw [List.append_assoc, run_append]
      exact e3
  refine ⟨?_, spin⟩
  obtain ⟨pc, hpc, hwr⟩ := hw
  cases pc with
  | w_spin =>
    obtain ⟨σa, σb, σc, e1, _, e3⟩ := spin hpc
    exact ⟨σa ++ σb, σc, e1, by rw [← List.append_assoc]; exact e3⟩
  | w_held =>
    obtain ⟨σb, σc, e1, e2⟩ := released_core ops w r _ hP σ2 σ3 (Or.inl hpc) hr hret
    exact ⟨σb, σc, e1, by rw [run_append]; exact e2⟩
  | w_unlock =>
    obtain ⟨σb, σc, e1, e2⟩ := released_core ops w r _ hP σ2 σ3 (Or.inr hpc) hr hret
    exact ⟨σb, σc, e1, by rw [run_append]; exact e2⟩
  | idle => exact absurd hwr (by decide)
  | r_wait => exact absurd hwr (by decide)
  | r_incr => exact absurd hwr (by decide)
  | r_spin => exact absurd hwr (by decide)
  | r_held => exact absurd hwr (by decide)

/-- C7 at a schedule of two threads in which the reader begins while the writer already
holds the lock: thread 0 increments `write_pending_`, then takes the lock; only then thread 1,
idle until now, calls `read_lock`, is kept in its first loop, and gets its read lock after
thread 0 has run `write_unlock`. -/
theorem writer_preference_witness :
    (∃ σb σc,
      [(0, Op.write)] ++ [(1, Op.read), (1, Op.read), (0, Op.write), (0, Op.write), (1, Op.read),
        (1, Op.read), (1, Op.read)] = σb ++ σc ∧
      (run AtomicOps.gcc (Sys.init 2) ([(0, Op.write)] ++ σb)).pcs[0]? = some Pc.idle)
    ∧ ((run AtomicOps.gcc (Sys.init 2) [(0, Op.write)]).pcs[0]? = some Pc.w_spin →
      ∃ σa σb σc,
        [(0, Op.write)] ++ [(1, Op.read), (1, Op.read), (0, Op.write), (0, Op.write),
          (1, Op.read), (1, Op.read), (1, Op.read)] = σa ++ σb ++ σc ∧
        (run AtomicOps.gcc (Sys.init 2) ([(0, Op.write)] ++ σa)).pcs[0]? = some Pc.w_held ∧
        (run AtomicOps.gcc (Sys.init 2) ([(0, Op.write)] ++ σa ++ σb)).pcs[0]? = some Pc.idle) :=
  writer_preference AtomicOps.gcc 2 [(0, Op.write)] [(0, Op.write)]
    [(1, Op.read), (1, Op.read), (0, Op.write), (0, Op.write), (1, Op.read), (1, Op.read),
      (1, Op.read)] 0 1 ⟨Pc.w_spin, by decide, rfl⟩ (by decide) (by decide)

/-- The loop of `write_lock` run by a thread on its own is the thread's steps in the
transition system: when the loop is left, scheduling the thread often enough takes it from
the loop to the point past `write_lock`, with the same lock state. -/
theorem write_lock_loop_run (ops : AtomicOps) (fuel : Nat) :
    ∀ m m1 : read_write_mutex, write_lock_loop ops fuel m = some m1 →
      ∃ k : Nat, run ops ⟨m, [Pc.w_spin]⟩ (List.replicate k (0, Op.write))
        = ⟨m1, [Pc.w_held]⟩ := by
  induction fuel with
  | zero => intro m m1 h; exact absurd h (by simp [write_lock_loop])
  | succ fuel ih =>
    intro m m1 h
    simp only [write_lock_loop] at h
    by_cases hr : (compare_and_swap ops m.l_ 0 kWaFlag).1 ≠ 0
    · rw [if_pos hr] at h
      obtain ⟨k, hk⟩ := ih _ _ h
      refine ⟨k + 1, ?_⟩
      rw [List.replicate_succ]
      show run ops (step ops ⟨m, [Pc.w_spin]⟩ 0 Op.write) _ = _
      have : step ops ⟨m, [Pc.w_spin]⟩ 0 Op.write
          = ⟨{ m with l_ := (compare_and_swap ops m.l_ 0 kWaFlag).2 }, [Pc.w_spin]⟩ := by
        simp only [step, List.getElem?_cons_zero, if_pos hr]
      rw [this]
      exact hk
    · rw [if_neg hr] at h
      refine ⟨1, ?_⟩
      show step ops ⟨m, [Pc.w_spin]⟩ 0 Op.write = _
      simp only [step, List.getElem?_cons_zero, if_neg hr, List.set_cons_zero]
      rw [Option.some.inj h]

/-- No thread contributes to a count when every thread is idle and the predicate is false
there. -/
theorem countP_init (p : Pc → Bool) (hp : p Pc.idle = false) (n : Nat) :
    (Sys.init n).pcs.countP p = 0 := by
  rw [List.countP_eq_zero]
  intro a ha
  simp only [Sys.init, List.mem_replicate] at ha
  rw [ha.2, hp]
  decide

/-- The counting invariant holds when every thread is idle. -/
theorem CountInv_init (n : Nat) : CountInv (Sys.init n) := by
  have h1 := countP_init Pc.spinning rfl n
  have h2 := countP_init Pc.holdsRead rfl n
  have h3 := countP_init Pc.holdsWrite rfl n
  refine ⟨?_, ?_, ?_⟩
  · rw [h1, h2, h3]
    rfl
  · rw [h3]
    exact Nat.zero_le 1
  · intro _
    exact h2

/-- The counting invariant for a state whose counts and `l_` are related to those of a state
that has it. -/
theorem CountInv_of_counts {s s1 : Sys} (hs : CountInv s) (a b c : Int)
    (h1 : (s1.pcs.countP Pc.spinning : Int) = (s.pcs.countP Pc.spinning : Int) + a)
    (h2 : (s1.pcs.countP Pc.holdsRead : Int) = (s.pcs.countP Pc.holdsRead : Int) + b)
    (h3 : (s1.pcs.countP Pc.holdsWrite : Int) = (s.pcs.countP Pc.holdsWrite : Int) + c)
    (hl : s1.m.l_ = s.m.l_ + 2 * a + 2 * b + c)
    (hc : c ≤ 0 ∨ (c = 1 ∧ s.m.l_ = 0))
    (hb : b ≤ 0 ∨ (c = 0 ∧ s.m.l_ % 2 = 0)) : CountInv s1 := by
  obtain ⟨l_eq, one, excl⟩ := hs
  simp only [kRcIncr, kWaFlag] at l_eq
  refine ⟨?_, ?_, ?_⟩
  · simp only [kRcIncr, kWaFlag]
    omega
  · omega
  · intro hW
    omega

/-- Every step with the GCC primitives keeps the counting invariant. -/
theorem CountInv_step (s : Sys) (hs : CountInv s) (t : Nat) (op : Op) :
    CountInv (step AtomicOps.gcc s t op) := by
  unfold step
  rcases h : s.pcs[t]? with _ | pc
  · exact hs
  · cases pc with
    | idle =>
      cases op with
      | write =>
        have c1 := countP_set Pc.spinning Pc.w_spin s.pcs t _ h
        have c2 := countP_set Pc.holdsRead Pc.w_spin s.pcs t _ h
        have c3 := countP_set Pc.holdsWrite Pc.w_spin s.pcs t _ h
        simp [Pc.spinning, Pc.holdsRead, Pc.holdsWrite] at c1 c2 c3
        exact CountInv_of_counts hs 0 0 0 (by simp [c1]) (by simp [c2]) (by simp [c3])
          (by simp) (by simp) (by simp)
      | read =>
        have c1 := countP_set Pc.spinning Pc.r_wait s.pcs t _ h
        have c2 := countP_set Pc.holdsRead Pc.r_wait s.pcs t _ h
        have c3 := countP_set Pc.holdsWrite Pc.r_wait s.pcs t _ h
        simp [Pc.spinning, Pc.holdsRead, Pc.holdsWrite] at c1 c2 c3
        exact CountInv_of_counts hs 0 0 0 (by simp [c1]) (by simp [c2]) (by simp [c3])
          (by simp) (by simp) (by simp)
    | w_spin =>
      by_cases h0 : s.m.l_ = 0
      · have c1 := countP_set Pc.spinning Pc.w_held s.pcs t _ h
        have c2 := countP_set Pc.holdsRead Pc.w_held s.pcs t _ h
        have c3 := countP_set Pc.holdsWrite Pc.w_held s.pcs t _ h
        simp [Pc.spinning, Pc.holdsRead, Pc.holdsWrite] at c1 c2 c3
        simp only [compare_and_swap, h0, kWaFlag, if_true, ne_eq, not_true_eq_false, if_false]
        exact CountInv_of_counts hs 0 0 1 (by simp [c1]) (by simp [c2]) (by simp [c3])
          (by simp [h0]) (Or.inr ⟨rfl, h0⟩) (by simp)
      · simp only [compare_and_swap, h0, if_false, ne_eq, not_false_eq_true, if_true]
        exact hs
    | w_held =>
      have c1 := countP_set Pc.spinning Pc.w_unlock s.pcs t _ h
      have c2 := countP_set Pc.holdsRead Pc.w_unlock s.pcs t _ h
      have c3 := countP_set Pc.holdsWrite Pc.w_unlock s.pcs t _ h
      simp [Pc.spinning, Pc.holdsRead, Pc.holdsWrite] at c1 c2 c3
      refine CountInv_of_counts hs 0 0 (-1) (by simp [c1]) (by simp [c2]) ?_
        (by simp [atomic_add, kWaFlag]) (by simp) (by simp)
      show ((List.countP Pc.holdsWrite (s.pcs.set t Pc.w_unlock) : Nat) : Int) = _
      omega
    | w_unlock =>
      have c1 := countP_set Pc.spinning Pc.idle s.pcs t _ h
      have c2 := countP_set Pc.holdsRead Pc.idle s.pcs t _ h
      have c3 := countP_set Pc.holdsWrite Pc.idle s.pcs t _ h
      simp [Pc.spinning, Pc.holdsRead, Pc.holdsWrite] at c1 c2 c3
      exact CountInv_of_counts hs 0 0 0 (by simp [c1]) (by simp [c2]) (by simp [c3])
        (by simp) (by simp) (by simp)
    | r_wait =>
      dsimp only
      split
      · exact hs
      · have c1 := countP_set Pc.spinning Pc.r_incr s.pcs t _ h
        have c2 := countP_set Pc.holdsRead Pc.r_incr s.pcs t _ h
        have c3 := countP_set Pc.holdsWrite Pc.r_incr s.pcs t _ h
        simp [Pc.spinning, Pc.holdsRead, Pc.holdsWrite] at c1 c2 c3
        exact CountInv_of_counts hs 0 0 0 (by simp [c1]) (by simp [c2]) (by simp [c3])
          (by simp) (by simp) (by simp)
    | r_incr =>
      have c1 := countP_set Pc.spinning Pc.r_spin s.pcs t _ h
      have c2 := countP_set Pc.holdsRead Pc.r_spin s.pcs t _ h
      have c3 := countP_set Pc.holdsWrite Pc.r_spin s.pcs t _ h
      simp [Pc.spinning, Pc.holdsRead, Pc.holdsWrite] at c1 c2 c3
      exact CountInv_of_counts hs 1 0 0 (by simp [c1]) (by simp [c2]) (by simp [c3])
        (by simp [atomic_add, kRcIncr]) (by simp) (by simp)
    | r_spin =>
      dsimp only
      split
      · exact hs
      · rename_i hpar
        have c1 := countP_set Pc.spinning Pc.r_held s.pcs t _ h
        have c2 := countP_set Pc.holdsRead Pc.r_held s.pcs t _ h
        have c3 := countP_set Pc.holdsWrite Pc.r_held s.pcs t _ h
        simp [Pc.spinning, Pc.holdsRead, Pc.holdsWrite] at c1 c2 c3
        refine CountInv_of_counts hs (-1) 1 0 ?_ (by simp [c2]) (by simp [c3])
          (by simp) (by simp) (Or.inr ⟨rfl, by omega⟩)
        show ((List.countP Pc.spinning (s.pcs.set t Pc.r_held) : Nat) : Int) = _
        omega
    | r_held =>
      have c1 := countP_set Pc.spinning Pc.idle s.pcs t _ h
      have c2 := countP_set Pc.holdsRead Pc.idle s.pcs t _ h
      have c3 := countP_set Pc.holdsWrite Pc.idle s.pcs t _ h
      simp [Pc.spinning, Pc.holdsRead, Pc.holdsWrite] at c1 c2 c3
      refine CountInv_of_counts hs 0 (-1) 0 (by simp [c1]) ?_ (by simp [c3])
        (by simp [atomic_add, kRcIncr]) (by simp) (by simp)
      show ((List.countP Pc.holdsRead (s.pcs.set t Pc.idle) : Nat) : Int) = _
      omega

/-- Every interleaving with the GCC primitives keeps the counting invariant. -/
theorem CountInv_run (σ : List (Nat × Op)) :
    ∀ s, CountInv s → CountInv (run AtomicOps.gcc s σ) := by
  induction σ with
  | nil => intro s hs; exact hs
  | cons x σ ih =>
    intro s hs
    exact ih _ (CountInv_step s hs x.1 x.2)

/-- C14 (as stated, refuted): a reader that has passed the pending check adds `kRcIncr` to
`l_` while a writer holds the lock; the flag is then set and the reader-count bits are not
zero. Thread 1 starts `read_lock`, thread 0 takes the write lock, thread 1 increments. -/
theorem reader_bits_with_flag_set :
    (run AtomicOps.gcc (Sys.init 2)
        [(1, Op.read), (1, Op.read), (0, Op.write), (0, Op.write), (1, Op.read)])
      = ⟨⟨kWaFlag + kRcIncr, 1⟩, [Pc.w_held, Pc.r_spin]⟩
    ∧ (kWaFlag + kRcIncr) % 2 ≠ 0 ∧ (kWaFlag + kRcIncr) - (kWaFlag + kRcIncr) % 2 ≠ 0 := by
  decide

/-- C14 (amended): with the GCC primitives, in every reachable state in which the write-held
flag is set, no thread is past a returned `read_lock`, and the reader-count bits of `l_`
count exactly the threads that have incremented and are still spinning in `read_lock`. -/
theorem flag_set_no_reader_holds (n : Nat) (σ : List (Nat × Op))
    (h : (run AtomicOps.gcc (Sys.init n) σ).m.l_ % 2 ≠ 0) :
    (∀ t : Nat, (run AtomicOps.gcc (Sys.init n) σ).pcs[t]? ≠ some Pc.r_held)
    ∧ (run AtomicOps.gcc (Sys.init n) σ).m.l_ - kWaFlag
      = kRcIncr * (((run AtomicOps.gcc (Sys.init n) σ).pcs.countP Pc.spinning : Nat) : Int) := by
  obtain ⟨l_eq, one, excl⟩ := CountInv_run σ _ (CountInv_init n)
  generalize run AtomicOps.gcc (Sys.init n) σ = s at *
  simp only [kRcIncr, kWaFlag] at *
  have hW : s.pcs.countP Pc.holdsWrite = 1 := by omega
  have hR := excl hW
  refine ⟨?_, by omega⟩
  intro t ht
  rw [List.countP_eq_zero] at hR
  exact hR _ (List.getElem?_mem ht) rfl

/-- The amended invariant at the state in which the reader-count bits are not zero. -/
theorem flag_set_no_reader_holds_witness :
    (run AtomicOps.gcc (Sys.init 2)
        [(1, Op.read), (1, Op.read), (0, Op.write), (0, Op.write), (1, Op.read)]).m.l_ % 2 ≠ 0
    ∧ ((∀ t : Nat, (run AtomicOps.gcc (Sys.init 2)
        [(1, Op.read), (1, Op.read), (0, Op.write), (0, Op.write), (1, Op.read)]).pcs[t]?
          ≠ some Pc.r_held)
      ∧ (run AtomicOps.gcc (Sys.init 2)
        [(1, Op.read), (1, Op.read), (0, Op.write), (0, Op.write), (1, Op.read)]).m.l_ - kWaFlag
        = kRcIncr * (((run AtomicOps.gcc (Sys.init 2)
          [(1, Op.read), (1, Op.read), (0, Op.write), (0, Op.write),
            (1, Op.read)]).pcs.countP Pc.spinning : Nat) : Int)) :=
  ⟨by decide, flag_set_no_reader_holds 2 _ (by decide)⟩

/-- With the GCC primitives the loop of `write_lock` is not left while `l_` is not 0. -/
theorem write_lock_loop_gcc_spins (fuel : Nat) :
    ∀ m : read_write_mutex, m.l_ ≠ 0 → write_lock_loop AtomicOps.gcc fuel m = none := by
  induction fuel with
  | zero => intro m _; rfl
  | succ fuel ih =>
    intro m hm
    have := ih m hm
    simp only [write_lock_loop, compare_and_swap, hm, if_false, ne_eq, not_false_eq_true,
      if_true]
    exact this

/-- With the GCC primitives the loop of `write_lock` is left at the first attempt that finds
`l_ = 0`, with the flag set. -/
theorem write_lock_loop_gcc_acquires (fuel : Nat) (m : read_write_mutex) (hm : m.l_ = 0) :
    write_lock_loop AtomicOps.gcc (fuel + 1) m = some { m with l_ := kWaFlag } := by
  simp only [write_lock_loop, compare_and_swap, hm, if_true, ne_eq, not_true_eq_false, if_false]

/-- With the OS X primitives the loop of `write_lock` is left at the first attempt that does
NOT find `l_ = 0`, the lock state unchanged by that attempt. -/
theorem write_lock_loop_osx_returns (fuel : Nat) (m : read_write_mutex) (hm : m.l_ ≠ 0) :
    write_lock_loop AtomicOps.osx (fuel + 1) m = some m := by
  simp only [write_lock_loop, compare_and_swap, hm, if_false, ne_eq, not_true_eq_false]

/-- With the OS X primitives an attempt that finds `l_ = 0` sets the flag and stays in the
loop. -/
theorem write_lock_loop_osx_retries (fuel : Nat) (m : read_write_mutex) (hm : m.l_ = 0) :
    write_lock_loop AtomicOps.osx (fuel + 1) m
      = write_lock_loop AtomicOps.osx fuel { m with l_ := kWaFlag } := by
  simp only [write_lock_loop, compare_and_swap, hm, if_true, ne_eq, one_ne_zero,
    not_false_eq_true]

/-- C15 (refuted by the code): called on a lock whose flag is set by another writer, the OS X
build of `write_lock` returns at its first attempt, which found `l_ = kWaFlag` and swapped
nothing, while the GCC build never leaves the loop on that state. -/
theorem write_lock_builds_differ :
    write_lock AtomicOps.osx 1 ⟨kWaFlag, 1⟩ = some ⟨kWaFlag, 2⟩
    ∧ (compare_and_swap AtomicOps.osx kWaFlag 0 kWaFlag).2 = kWaFlag
    ∧ ∀ fuel : Nat, write_lock AtomicOps.gcc fuel ⟨kWaFlag, 1⟩ = none := by
  refine ⟨by decide, by decide, fun fuel => ?_⟩
  exact write_lock_loop_gcc_spins fuel _ (by decide)

/-- The first loop of `read_lock` is left at once when no writer is pending. -/
theorem read_lock_wait_free (fuel : Nat) (m : read_write_mutex) (hm : m.write_pending_ = 0) :
    read_lock_wait (fuel + 1) m = some m := by
  simp [read_lock_wait, hm]

/-- The second loop of `read_lock` is left at once when the flag is clear. -/
theorem read_lock_spin_free (fuel : Nat) (m : read_write_mutex) (hm : m.l_ % 2 = 0) :
    read_lock_spin (fuel + 1) m = some m := by
  simp [read_lock_spin, hm]

/-- C18: from the initial state `write_lock` returns, with either family of primitives, with
`l_ = kWaFlag` and `write_pending_ = 1`, and `write_unlock` then gives the initial state
again; from a state with the flag clear and no writer pending `read_lock` returns having
added `kRcIncr` to `l_` only, and `read_unlock` then restores the state. -/
theorem lock_unlock_restores :
    (∀ (ops : AtomicOps) (fuel : Nat), 2 ≤ fuel →
      write_lock ops fuel ⟨0, 0⟩ = some ⟨kWaFlag, 1⟩)
    ∧ write_unlock ⟨kWaFlag, 1⟩ = ⟨0, 0⟩
    ∧ (∀ (fuel : Nat) (m : read_write_mutex), 1 ≤ fuel → m.l_ % 2 = 0 → m.write_pending_ = 0 →
      read_lock fuel m = some ⟨m.l_ + kRcIncr, m.write_pending_⟩
      ∧ read_unlock ⟨m.l_ + kRcIncr, m.write_pending_⟩ = m) := by
  refine ⟨?_, by decide, ?_⟩
  · intro ops fuel hf
    obtain ⟨k, rfl⟩ : ∃ k, fuel = k + 2 := ⟨fuel - 2, by omega⟩
    cases ops with
    | gcc => exact write_lock_loop_gcc_acquires (k + 1) ⟨0, atomic_add 0 1⟩ rfl
    | osx =>
      show write_lock_loop AtomicOps.osx (k + 1 + 1) ⟨0, atomic_add 0 1⟩ = _
      rw [write_lock_loop_osx_retries (k + 1) _ rfl]
      exact write_lock_loop_osx_returns k _ (by decide)
  · intro fuel m hf hl hp
    obtain ⟨k, rfl⟩ : ∃ k, fuel = k + 1 := ⟨fuel - 1, by omega⟩
    constructor
    · unfold read_lock
      rw [read_lock_wait_free k m hp]
      dsimp only
      rw [read_lock_spin_free k _ (by simp only [atomic_add, kRcIncr]; omega)]
      rfl
    · cases m with
      | mk l p =>
        simp only [read_unlock, atomic_add, kRcIncr]
        congr 1
        omega

end MeCab
